import Mathlib

/-!
The 16-bit float index codec, the packed pixel conversions and `rgb_to_hsv` of
ofxsLut.cpp.

A shallow embedding of `src/ofxsLut.cpp`.

* A `float` is represented by its IEEE-754 binary32 bit pattern, a natural
  number below `2^32`.  An `unsigned short` is a natural number below `2^16`.
* The anonymous unions of `hipart` and `index_to_float` are four bytes of
  storage (`Union4`) that are written and read through the member `f` or the
  members `us[0]`, `us[1]`, in the byte order of the host.
* `assert` failing is the result `none`.
* The float operations of `rgb_to_hsv` are the binary32 operations on bit
  patterns, rounded to nearest with ties to even, with infinities and NaNs.
-/

namespace OFX.Color

/-! ## Byte order of the host -/

/-- The byte orders named by the enum at the top of the file. -/
inductive HostOrder where
  | little
  | big
  | pdp
  deriving DecidableEq

/-- The enumerator `O32_LITTLE_ENDIAN`. -/
def O32_LITTLE_ENDIAN : Nat := 0x03020100

/-- The enumerator `O32_BIG_ENDIAN`. -/
def O32_BIG_ENDIAN : Nat := 0x00010203

/-- The enumerator `O32_PDP_ENDIAN`. -/
def O32_PDP_ENDIAN : Nat := 0x01000302

/-- Four consecutive bytes of storage, lowest address first: the storage of
`union { float f; unsigned short us[2]; }` and of
`union { uint8_t bytes[4]; uint32_t value; }`. -/
structure Union4 where
  b0 : Nat
  b1 : Nat
  b2 : Nat
  b3 : Nat
  deriving DecidableEq

/-- Read the four bytes as one 32-bit object (`value`, or the bit pattern of
`f`) on a host of the given byte order. -/
def Union4.load32 (o : HostOrder) (m : Union4) : Nat :=
  match o with
  | .little => m.b0 % 256 + 256 * (m.b1 % 256) + 65536 * (m.b2 % 256) + 16777216 * (m.b3 % 256)
  | .big => m.b3 % 256 + 256 * (m.b2 % 256) + 65536 * (m.b1 % 256) + 16777216 * (m.b0 % 256)
  | .pdp => m.b2 % 256 + 256 * (m.b3 % 256) + 65536 * (m.b0 % 256) + 16777216 * (m.b1 % 256)

/-- Write a 32-bit object over the four bytes (the assignment `tmp.f = f`, on
the bit pattern of `f`). -/
def Union4.store32 (o : HostOrder) (v : Nat) : Union4 :=
  match o with
  | .little => ⟨v % 256, v / 256 % 256, v / 65536 % 256, v / 16777216 % 256⟩
  | .big => ⟨v / 16777216 % 256, v / 65536 % 256, v / 256 % 256, v % 256⟩
  | .pdp => ⟨v / 65536 % 256, v / 16777216 % 256, v % 256, v / 256 % 256⟩

/-- Read two bytes as one 16-bit object. -/
def load16 (o : HostOrder) (lo hi : Nat) : Nat :=
  match o with
  | .little => lo % 256 + 256 * (hi % 256)
  | .big => hi % 256 + 256 * (lo % 256)
  | .pdp => lo % 256 + 256 * (hi % 256)

/-- The two bytes of a 16-bit object, lowest address first. -/
def store16 (o : HostOrder) (v : Nat) : Nat × Nat :=
  match o with
  | .little => (v % 256, v / 256 % 256)
  | .big => (v / 256 % 256, v % 256)
  | .pdp => (v % 256, v / 256 % 256)

/-- The member `us[k]` of the union: `us[0]` is the two bytes at the lowest
addresses, any other `k` stands for `us[1]`. -/
def Union4.us (o : HostOrder) (m : Union4) (k : Nat) : Nat :=
  if k = 0 then load16 o m.b0 m.b1 else load16 o m.b2 m.b3

/-- The assignment `tmp.us[k] = v`. -/
def Union4.setUs (o : HostOrder) (m : Union4) (k : Nat) (v : Nat) : Union4 :=
  if k = 0 then { m with b0 := (store16 o v).1, b1 := (store16 o v).2 }
  else { m with b2 := (store16 o v).1, b3 := (store16 o v).2 }

/-- The constant `o32_host_order`, initialised with the bytes `{ 0, 1, 2, 3 }`. -/
def o32_host_order : Union4 := ⟨0, 1, 2, 3⟩

/-- The constant `O32_HOST_ORDER`, that is `o32_host_order.value`. -/
def O32_HOST_ORDER (o : HostOrder) : Nat := o32_host_order.load32 o

/-! ## IEEE-754 binary32 bit patterns -/

/-- The sign bit of a bit pattern. -/
def signBit (f : Nat) : Nat := f / 2147483648 % 2

/-- The biased exponent field of a bit pattern. -/
def expField (f : Nat) : Nat := f / 8388608 % 256

/-- The fraction field of a bit pattern. -/
def fracField (f : Nat) : Nat := f % 8388608

/-- The bit pattern is a NaN. -/
def isNaN (f : Nat) : Prop := expField f = 255 ∧ fracField f ≠ 0

/-- The bit pattern is an infinity. -/
def isInf (f : Nat) : Prop := expField f = 255 ∧ fracField f = 0

instance (f : Nat) : Decidable (isNaN f) := by unfold isNaN; infer_instance

instance (f : Nat) : Decidable (isInf f) := by unfold isInf; infer_instance

/-- The magnitude, in units of `2^-149` (the smallest denormal), of the float
with biased exponent `e` and fraction `m`: `m` for a zero or a denormal, and
`(2^23 + m) * 2^(e-1)` for `e ≥ 1`. -/
def magnitudeOf (e m : Nat) : Nat := if e = 0 then m else (8388608 + m) * 2 ^ (e - 1)

/-- The magnitude of the float with this bit pattern, in units of `2^-149`.
An infinity, which is exponent 255 with fraction 0, gets
`2^23 * 2^254 = 2^128 * 2^149`, above every finite float. -/
def floatMagnitude (f : Nat) : Nat := magnitudeOf (expField f) (fracField f)

/-- The value of the float with this bit pattern, in units of `2^-149`.  It is
exact for every finite float; positive and negative zero both have value 0. -/
def floatScaled (f : Nat) : Int :=
  if signBit f = 0 then (floatMagnitude f : Int) else -(floatMagnitude f : Int)

/-- The comparison `a <= b` of two floats: false when either is a NaN, and the
comparison of the values otherwise. -/
def floatLe (a b : Nat) : Prop := ¬ isNaN a ∧ ¬ isNaN b ∧ floatScaled a ≤ floatScaled b

instance (a b : Nat) : Decidable (floatLe a b) := by unfold floatLe; infer_instance

/-- The comparison `a < b` of two floats: false when either is a NaN, and the
comparison of the values otherwise. -/
def floatLt (a b : Nat) : Prop := ¬ isNaN a ∧ ¬ isNaN b ∧ floatScaled a < floatScaled b

instance (a b : Nat) : Decidable (floatLt a b) := by unfold floatLt; infer_instance

/-- The float constant `0`, positive zero. -/
def floatZero : Nat := 0x00000000

/-- The constant `std::numeric_limits<float>::max()`, which is
`(2 - 2^-23) * 2^127`: exponent field 254 and fraction all ones. -/
def FLT_MAX : Nat := 0x7f7fffff

/-- Unary minus on a float: the sign bit is flipped. -/
def floatNeg (f : Nat) : Nat := if signBit f = 0 then f + 2147483648 else f - 2147483648

/-! ## `LutBase::hipart` and `LutBase::index_to_float` -/

/-- The assignment `tmp.f = f`: all four bytes of the union are overwritten
with the bit pattern of `f`. -/
def Union4.setF (o : HostOrder) (_m : Union4) (f : Nat) : Union4 := Union4.store32 o f

/-- The member `f` of the union, as a bit pattern. -/
def Union4.f (o : HostOrder) (m : Union4) : Nat := m.load32 o

/-- `LutBase::hipart(const float f)`, on the bit pattern of `f`.  The result
is `none` on a host that is neither little nor big endian, where the `assert`
of the last branch fails. -/
def hipart (o : HostOrder) (f : Nat) : Option Nat :=
  -- tmp.us[0] = tmp.us[1] = 0;
  let tmp : Union4 := ⟨0, 0, 0, 0⟩
  let tmp := tmp.setUs o 1 0
  let tmp := tmp.setUs o 0 0
  -- tmp.f = f;
  let tmp := tmp.setF o f
  if O32_HOST_ORDER o = O32_BIG_ENDIAN then
    some (tmp.us o 0)
  else if O32_HOST_ORDER o = O32_LITTLE_ENDIAN then
    some (tmp.us o 1)
  else
    none

/-- `LutBase::index_to_float(const unsigned short i)`, with the result as a
bit pattern.  The union `tmp` is not initialised in the source; each of the two
supported branches overwrites all four of its bytes, so its first contents are
taken to be zero.  The result is `none` where the `assert` of the last branch
fails. -/
def index_to_float (o : HostOrder) (i : Nat) : Option Nat :=
  let tmp : Union4 := ⟨0, 0, 0, 0⟩
  -- positive and negative zeros, and all gradual underflow, turn into zero
  if i < 0x80 ∨ (i ≥ 0x8000 ∧ i < 0x8080) then
    some floatZero
  -- all NaN's and infinity turn into the largest possible legal float
  else if i ≥ 0x7f80 ∧ i < 0x8000 then
    some FLT_MAX
  else if i ≥ 0xff80 then
    some (floatNeg FLT_MAX)
  else if O32_HOST_ORDER o = O32_BIG_ENDIAN then
    let tmp := tmp.setUs o 0 i
    let tmp := tmp.setUs o 1 0x8000
    some (tmp.f o)
  else if O32_HOST_ORDER o = O32_LITTLE_ENDIAN then
    let tmp := tmp.setUs o 0 0x8000
    let tmp := tmp.setUs o 1 i
    some (tmp.f o)
  else
    none

/-- The quantization `index_to_float(hipart(f))`. -/
def quantize (o : HostOrder) (f : Nat) : Option Nat := (hipart o f).bind (index_to_float o)

/-- The index is in the band of the positive NaNs and infinity,
`[0x7f80, 0x7fff]`, or of the negative ones, `[0xff80, 0xffff]`. -/
def inNaNInfBand (i : Nat) : Prop := (0x7f80 ≤ i ∧ i ≤ 0x7fff) ∨ (0xff80 ≤ i ∧ i ≤ 0xffff)

instance (i : Nat) : Decidable (inNaNInfBand i) := by unfold inNaNInfBand; infer_instance

/-- The index is the top half of a zero or of a denormal, of either sign. -/
def inZeroBand (i : Nat) : Prop := i < 0x0080 ∨ (0x8000 ≤ i ∧ i < 0x8080)

instance (i : Nat) : Decidable (inZeroBand i) := by unfold inZeroBand; infer_instance

/-- The index is the top half of a normal float, of either sign. -/
def inNormalBand (i : Nat) : Prop := (0x0080 ≤ i ∧ i ≤ 0x7f7f) ∨ (0x8080 ≤ i ∧ i ≤ 0xff7f)

instance (i : Nat) : Decidable (inNormalBand i) := by unfold inNormalBand; infer_instance

/-- The pattern that the three bands of `index_to_float` give for an index up
to `0x7fff`: the closed form used to compare its results (see
`index_to_float_nonneg`). -/
def rebuiltNonneg (i : Nat) : Nat :=
  if i < 0x80 then 0 else if i < 0x7f80 then i * 65536 + 0x8000 else 0x7f7fffff

/-! ## `Linear`: the packed pixel conversions

A buffer is a function from element offsets to elements: `buf n` is `base[n]`
for the base pointer `base` the function receives, and a pointer into the
buffer is its offset from the base, an integer.  The `int` arithmetic of the
source is exact integer arithmetic (signed overflow is undefined behaviour in
the source). -/

/-- The struct `OfxRectI`. -/
structure OfxRectI where
  x1 : Int
  y1 : Int
  x2 : Int
  y2 : Int

/-- Conversion of a value to `int` (32 bits, two's complement). -/
def toInt32 (v : Int) : Int :=
  if v % 4294967296 < 2147483648 then v % 4294967296 else v % 4294967296 - 4294967296

/-- The expression `rowBytes / sizeof(T)` assigned to an `int`: `rowBytes` is
converted to `size_t` (64 bits), divided, and the quotient converted to `int`.
For `0 <= rowBytes` this is the quotient of the two numbers. -/
def divSizeof (rowBytes : Int) (size : Int) : Int :=
  toInt32 (rowBytes % 18446744073709551616 / size)

/-- The loop `for (int k = 0; k < nComponents; ++k) { *dst_pixels++ =
conv(*src_pixels++); }`, by the number of iterations that remain.  The result
is the two pointers and the destination buffer after the loop. -/
def convertComponents {S D : Type} (conv : S → D) (fromBuf : Int → S) :
    Nat → Int → Int → (Int → D) → Int × Int × (Int → D)
  | 0, src_pixels, dst_pixels, toBuf => (src_pixels, dst_pixels, toBuf)
  | n + 1, src_pixels, dst_pixels, toBuf =>
    convertComponents conv fromBuf n (src_pixels + 1) (dst_pixels + 1)
      (Function.update toBuf dst_pixels (conv (fromBuf src_pixels)))

/-- The loop `while (src_pixels != src_end) { for ... }` of one row.  Each unit
of fuel pays for one iteration of the `while`; the result is `none` when the
fuel runs out before `src_pixels` meets `src_end`. -/
def convertPixels {S D : Type} (conv : S → D) (fromBuf : Int → S) (nComponents : Int)
    (src_end : Int) : Nat → Int → Int → (Int → D) → Option (Int → D)
  | 0, src_pixels, _, toBuf => if src_pixels = src_end then some toBuf else none
  | fuel + 1, src_pixels, dst_pixels, toBuf =>
    if src_pixels = src_end then some toBuf
    else
      let r := convertComponents conv fromBuf nComponents.toNat src_pixels dst_pixels toBuf
      convertPixels conv fromBuf nComponents src_end fuel r.1 r.2.1 r.2.2

/-- The loop `for (int y = ...; y < y2; ++y) body`, by the number of rows that
remain, `body y` being the effect of one row on the destination buffer. -/
def forRows {D : Type} (body : Int → (Int → D) → Option (Int → D)) :
    Nat → Int → (Int → D) → Option (Int → D)
  | 0, _, toBuf => some toBuf
  | n + 1, y, toBuf => (body y toBuf).bind (forRows body n (y + 1))

/-- `Linear::from_byte_packed`.  The element conversion `intToFloat<256>` is
declared in `ofxsLut.h` and is a parameter here; `fuel` bounds the iterations
of the `while` loop of each row.  The result is the destination buffer after
the call. -/
def Linear.from_byte_packed {D : Type} (intToFloat256 : Nat → D) (fuel : Nat)
    (toBuf : Int → D) (fromBuf : Int → Nat) (renderWindow : OfxRectI) (nComponents : Int)
    (_srcBounds : OfxRectI) (srcRowBytes : Int) (_dstBounds : OfxRectI) (dstRowBytes : Int) :
    Option (Int → D) :=
  let srcElements := divSizeof srcRowBytes 1
  let _dstElements := divSizeof dstRowBytes 4
  let w := renderWindow.x2 - renderWindow.x1
  forRows (fun y toBuf =>
      let src_pixels := y * srcElements + renderWindow.x1 * nComponents
      let dst_pixels := y * dstRowBytes + renderWindow.x1 * nComponents
      let src_end := src_pixels + w * nComponents
      convertPixels intToFloat256 fromBuf nComponents src_end fuel src_pixels dst_pixels toBuf)
    (renderWindow.y2 - renderWindow.y1).toNat renderWindow.y1 toBuf

/-- `Linear::to_byte_packed`.  The element conversion `floatToInt<256>`, which
returns an `int`, is declared in `ofxsLut.h` and is a parameter here; the
assignment to an `unsigned char` keeps the value modulo 256.  `fuel` bounds the
iterations of the `while` loop of each row. -/
def Linear.to_byte_packed {F : Type} (floatToInt256 : F → Int) (fuel : Nat)
    (toBuf : Int → Nat) (fromBuf : Int → F) (renderWindow : OfxRectI) (nComponents : Int)
    (_srcBounds : OfxRectI) (srcRowBytes : Int) (_dstBounds : OfxRectI) (dstRowBytes : Int) :
    Option (Int → Nat) :=
  let srcElements := divSizeof srcRowBytes 4
  let dstElements := divSizeof dstRowBytes 1
  let w := renderWindow.x2 - renderWindow.x1
  forRows (fun y toBuf =>
      let src_pixels := y * srcElements + renderWindow.x1 * nComponents
      let dst_pixels := y * dstElements + renderWindow.x1 * nComponents
      let src_end := src_pixels + w * nComponents
      convertPixels (fun v => (floatToInt256 v % 256).toNat) fromBuf nComponents src_end fuel
        src_pixels dst_pixels toBuf)
    (renderWindow.y2 - renderWindow.y1).toNat renderWindow.y1 toBuf

/-- `Linear::to_short_packed`.  The element conversion `floatToInt<65536>` is
a parameter; the assignment to an `unsigned short` keeps the value modulo
65536. -/
def Linear.to_short_packed {F : Type} (floatToInt65536 : F → Int) (fuel : Nat)
    (toBuf : Int → Nat) (fromBuf : Int → F) (renderWindow : OfxRectI) (nComponents : Int)
    (_srcBounds : OfxRectI) (srcRowBytes : Int) (_dstBounds : OfxRectI) (dstRowBytes : Int) :
    Option (Int → Nat) :=
  let srcElements := divSizeof srcRowBytes 4
  let dstElements := divSizeof dstRowBytes 2
  let w := renderWindow.x2 - renderWindow.x1
  forRows (fun y toBuf =>
      let src_pixels := y * srcElements + renderWindow.x1 * nComponents
      let dst_pixels := y * dstElements + renderWindow.x1 * nComponents
      let src_end := src_pixels + w * nComponents
      convertPixels (fun v => (floatToInt65536 v % 65536).toNat) fromBuf nComponents src_end fuel
        src_pixels dst_pixels toBuf)
    (renderWindow.y2 - renderWindow.y1).toNat renderWindow.y1 toBuf

/-- `Linear::from_short_packed`.  The element conversion `intToFloat<65536>`
is a parameter. -/
def Linear.from_short_packed {D : Type} (intToFloat65536 : Nat → D) (fuel : Nat)
    (toBuf : Int → D) (fromBuf : Int → Nat) (renderWindow : OfxRectI) (nComponents : Int)
    (_srcBounds : OfxRectI) (srcRowBytes : Int) (_dstBounds : OfxRectI) (dstRowBytes : Int) :
    Option (Int → D) :=
  let srcElements := divSizeof srcRowBytes 2
  let dstElements := divSizeof dstRowBytes 4
  let w := renderWindow.x2 - renderWindow.x1
  forRows (fun y toBuf =>
      let src_pixels := y * srcElements + renderWindow.x1 * nComponents
      let dst_pixels := y * dstElements + renderWindow.x1 * nComponents
      let src_end := src_pixels + w * nComponents
      convertPixels intToFloat65536 fromBuf nComponents src_end fuel src_pixels dst_pixels toBuf)
    (renderWindow.y2 - renderWindow.y1).toNat renderWindow.y1 toBuf

/-! ### Closed forms of the loops, used to state what they compute -/

/-- The buffer `toBuf` with the `len` elements from `dst` on replaced by the
converted elements of the source from `src` on. -/
def blockWrite {S D : Type} (conv : S → D) (fromBuf : Int → S) (src dst len : Int)
    (toBuf : Int → D) : Int → D :=
  fun m => if dst ≤ m ∧ m < dst + len then conv (fromBuf (src + (m - dst))) else toBuf m

/-- The buffer after `n` rows from row `y` on, each row `y` being a
`blockWrite` of `len` elements from source offset `y * srcStride + c` to
destination offset `y * dstStride + c`. -/
def rowsWrite {S D : Type} (conv : S → D) (fromBuf : Int → S) (srcStride dstStride c len : Int) :
    Nat → Int → (Int → D) → (Int → D)
  | 0, _, toBuf => toBuf
  | n + 1, y, toBuf =>
    rowsWrite conv fromBuf srcStride dstStride c len n (y + 1)
      (blockWrite conv fromBuf (y * srcStride + c) (y * dstStride + c) len toBuf)

/-- The element offset `n` is `y * stride + x * nComponents + k` for a row `y`,
a column `x` and a component `k` of the window. -/
def inRegion (renderWindow : OfxRectI) (nComponents stride : Int) (n : Int) : Prop :=
  ∃ y x k : Int, renderWindow.y1 ≤ y ∧ y < renderWindow.y2 ∧ renderWindow.x1 ≤ x ∧
    x < renderWindow.x2 ∧ 0 ≤ k ∧ k < nComponents ∧ n = y * stride + x * nComponents + k

/-- The offsets of the region as a finite set: the rows of the window times
the `len` consecutive elements of a row, which start at `y * stride + c`. -/
def regionOffsets (y1 y2 stride c len : Int) : Finset Int :=
  (Finset.Ico y1 y2 ×ˢ Finset.Ico 0 len).image (fun p => p.1 * stride + c + p.2)

/-- The body of the loop over the rows of `Linear::to_byte_packed`: the
pointers of row `y` and the `while` loop of the row (see
`to_byte_packed_eq_forRows`). -/
def Linear.to_byte_packed_row {F : Type} (floatToInt256 : F → Int) (fuel : Nat)
    (fromBuf : Int → F) (renderWindow : OfxRectI) (nComponents : Int)
    (srcRowBytes : Int) (dstRowBytes : Int) (y : Int) (toBuf : Int → Nat) :
    Option (Int → Nat) :=
  let srcElements := divSizeof srcRowBytes 4
  let dstElements := divSizeof dstRowBytes 1
  let w := renderWindow.x2 - renderWindow.x1
  let src_pixels := y * srcElements + renderWindow.x1 * nComponents
  let dst_pixels := y * dstElements + renderWindow.x1 * nComponents
  let src_end := src_pixels + w * nComponents
  convertPixels (fun v => (floatToInt256 v % 256).toNat) fromBuf nComponents src_end fuel
    src_pixels dst_pixels toBuf

/-! ## Binary32 arithmetic

The arithmetic of `float` is IEEE-754 binary32 with rounding to nearest, ties
to even, each operation rounded once.  A magnitude is counted in units of
`2^-149`, so that every finite float is a whole number of units.  The sign
and the payload of a NaN result are not modelled: every NaN result is the
pattern `0x7fc00000`. -/

/-- The comparison `a == b` of two floats: false when either is a NaN, and the
comparison of the values otherwise (the two zeros are equal). -/
def floatEq (a b : Nat) : Prop := ¬ isNaN a ∧ ¬ isNaN b ∧ floatScaled a = floatScaled b

instance (a b : Nat) : Decidable (floatEq a b) := by unfold floatEq; infer_instance

/-- The quiet NaN that stands for every NaN result. -/
def floatNaN : Nat := 0x7fc00000

/-- The pattern of positive infinity. -/
def floatInf : Nat := 0x7f800000

/-- The binary logarithm of `n`, rounded down (0 for `n = 0`), by halving `n`
at most `fuel` times. -/
def log2Fuel : Nat → Nat → Nat
  | 0, _ => 0
  | fuel + 1, n => if n < 2 then 0 else log2Fuel fuel (n / 2) + 1

/-- The quantum exponent of a magnitude of `p / q` units: the floats next to it
are the multiples of `2^k` units, `k` being 0 below `2^24` units. -/
def quantumExp (p q : Nat) : Nat := log2Fuel (p / q) (p / q) - 23

/-- The quotient `p / den` rounded to the nearest whole number, ties to the
even one. -/
def roundMantissa (p den : Nat) : Nat :=
  if 2 * (p % den) < den then p / den
  else if den < 2 * (p % den) then p / den + 1
  else if p / den % 2 = 0 then p / den
  else p / den + 1

/-- The pattern, with the sign bit clear, of the float nearest to the magnitude
of `p / q` units, ties to even: the mantissa `m` at quantum exponent `k` has
the pattern `k * 2^23 + m`, and what reaches the pattern of infinity is
infinity (overflow). -/
def roundMag (p q : Nat) : Nat :=
  min (quantumExp p q * 8388608 + roundMantissa p (q * 2 ^ quantumExp p q)) 0x7f800000

/-- The float of sign `sign` (0 or 1) nearest to the magnitude of `p / q` units. -/
def roundSigned (sign p q : Nat) : Nat := sign * 2147483648 + roundMag p q

/-- The sign bit of a product or of a quotient. -/
def signXor (a b : Nat) : Nat := if signBit a = signBit b then 0 else 1

/-- The sum `a + b` of two floats. -/
def fadd (a b : Nat) : Nat :=
  if isNaN a ∨ isNaN b then floatNaN
  else if isInf a then (if isInf b ∧ signBit a ≠ signBit b then floatNaN else a % 4294967296)
  else if isInf b then b % 4294967296
  else if floatScaled a + floatScaled b = 0 then
    (if signBit a = 1 ∧ signBit b = 1 then 0x80000000 else 0)
  else if 0 < floatScaled a + floatScaled b then
    roundSigned 0 (floatScaled a + floatScaled b).toNat 1
  else roundSigned 1 (-(floatScaled a + floatScaled b)).toNat 1

/-- The difference `a - b` of two floats. -/
def fsub (a b : Nat) : Nat := fadd a (floatNeg b)

/-- The product `a * b` of two floats. -/
def fmul (a b : Nat) : Nat :=
  if isNaN a ∨ isNaN b then floatNaN
  else if (isInf a ∧ floatMagnitude b = 0) ∨ (floatMagnitude a = 0 ∧ isInf b) then floatNaN
  else if isInf a ∨ isInf b then signXor a b * 2147483648 + floatInf
  else roundSigned (signXor a b) (floatMagnitude a * floatMagnitude b) (2 ^ 149)

/-- The quotient `a / b` of two floats. -/
def fdiv (a b : Nat) : Nat :=
  if isNaN a ∨ isNaN b then floatNaN
  else if (isInf a ∧ isInf b) ∨ (floatMagnitude a = 0 ∧ floatMagnitude b = 0) then floatNaN
  else if isInf a ∨ floatMagnitude b = 0 then signXor a b * 2147483648 + floatInf
  else if isInf b then signXor a b * 2147483648
  else roundSigned (signXor a b) (floatMagnitude a * 2 ^ 149) (floatMagnitude b)

/-! ## `rgb_to_hsv` -/

/-- `std::min(a, b)`: `b` when `b < a`, and `a` otherwise. -/
def stdMin (a b : Nat) : Nat := if floatLt b a then b else a

/-- `std::max(a, b)`: `b` when `a < b`, and `a` otherwise. -/
def stdMax (a b : Nat) : Nat := if floatLt a b then b else a

/-- `rgb_to_hsv(r, g, b, &h, &s, &v)` on the bit patterns of the floats: the
result is the triple `(*h, *s, *v)` after the call; each of the three is
assigned on every path.  The constants `0.`, `2`, `4`, `60` and `360` are the
floats `0x00000000`, `0x40000000`, `0x40800000`, `0x42700000` and
`0x43b40000`. -/
def rgb_to_hsv (r g b : Nat) : Nat × Nat × Nat :=
  let min := stdMin (stdMin r g) b
  let max := stdMax (stdMax r g) b
  let v := max
  let delta := fsub max min
  if ¬ floatEq max 0x00000000 then
    let s := fdiv delta max
    let h :=
      if floatEq delta 0x00000000 then 0x00000000
      else if floatEq r max then fdiv (fsub g b) delta
      else if floatEq g max then fadd 0x40000000 (fdiv (fsub b r) delta)
      else fadd 0x40800000 (fdiv (fsub r g) delta)
    let h := fmul h 0x42700000
    let h := if floatLt h 0x00000000 then fadd h 0x43b40000 else h
    (h, s, v)
  else
    (0x00000000, 0x00000000, v)

/-- The float is neither a NaN nor an infinity. -/
def isFinite (f : Nat) : Prop := expField f ≠ 255

instance (f : Nat) : Decidable (isFinite f) := by unfold isFinite; infer_instance

/-- The value, in units of `2^-149`, of the float nearest to `n / q` units:
what the rounding of an operation returns, as a number. -/
def roundValue (n : Int) (q : Nat) : Int :=
  if 0 ≤ n then (floatMagnitude (roundMag n.toNat q) : Int)
  else -(floatMagnitude (roundMag (-n).toNat q) : Int)

/-! ### Exact scaling by a power of two, used to state the invariance of hue
and saturation -/

/-- The float `x'` is the float `x` scaled by `2^j` without rounding: both are
finite, they have the same sign bit, and the magnitude of `x'` is `2^j` times
the magnitude of `x`. -/
def scaledBy (j x x' : Nat) : Prop :=
  isFinite x ∧ isFinite x' ∧ signBit x' = signBit x ∧
    floatMagnitude x' = 2 ^ j * floatMagnitude x

/-- The float `k` is a positive normal power of two: sign bit and fraction are
zero and the exponent field is between 1 and 254, so `k` is `2^(e-127)`. -/
def isPowerOfTwo (k : Nat) : Prop :=
  signBit k = 0 ∧ fracField k = 0 ∧ 1 ≤ expField k ∧ expField k ≤ 254

instance (k : Nat) : Decidable (isPowerOfTwo k) := by unfold isPowerOfTwo; infer_instance

/-- The float product `k * x` is finite and carries no rounding error: its value
is the product of the values (values are in units of `2^-149`). -/
def exactProduct (k x : Nat) : Prop :=
  isFinite (fmul k x) ∧ floatScaled (fmul k x) * 2 ^ 149 = floatScaled k * floatScaled x

instance (k x : Nat) : Decidable (exactProduct k x) := by unfold exactProduct; infer_instance

/-! ## The element conversions of `ofxsLut.h` -/

/-- Modelled from the spec: `intToFloat<N>`, which is defined in `ofxsLut.h`, a
file that is not among the sources.  The spec: "inverse direction, dividing
the integer code by N" and "`intToFloat<N>` divides by `N`, not `N-1`". -/
def intToFloat (N : Nat) (value : Int) : ℚ := value / N

/-- Modelled from the spec: `floatToInt<N>`, which is defined in `ofxsLut.h`, a
file that is not among the sources.  The spec: "`floatToInt<N>` scaling by `N`
(256 for 8-bit, 65536 for 16-bit) — contract: maps float domain to integer
codes `[0, N-1]` with a defined rounding rule (round-to-nearest)", the top of
the range being "clamped/rounded": the value is scaled by `N`, rounded to the
nearest integer and kept within `[0, N-1]`. -/
def floatToInt (N : Nat) (value : ℚ) : Int :=
  max 0 (min ((N : Int) - 1) ⌊value * N + 1 / 2⌋)

/-! ## Lemmas on the two codec functions -/

theorem O32_HOST_ORDER_little : O32_HOST_ORDER .little = O32_LITTLE_ENDIAN := by decide

theorem O32_HOST_ORDER_big : O32_HOST_ORDER .big = O32_BIG_ENDIAN := by decide

theorem O32_HOST_ORDER_pdp : O32_HOST_ORDER .pdp = O32_PDP_ENDIAN := by decide

theorem Union4.us_zero (o : HostOrder) (m : Union4) : m.us o 0 = load16 o m.b0 m.b1 := rfl

theorem Union4.us_one (o : HostOrder) (m : Union4) : m.us o 1 = load16 o m.b2 m.b3 := rfl

theorem Union4.setUs_zero (o : HostOrder) (m : Union4) (v : Nat) :
    m.setUs o 0 v = ⟨(store16 o v).1, (store16 o v).2, m.b2, m.b3⟩ := rfl

theorem Union4.setUs_one (o : HostOrder) (m : Union4) (v : Nat) :
    m.setUs o 1 v = ⟨m.b0, m.b1, (store16 o v).1, (store16 o v).2⟩ := rfl

/-- On the two supported hosts `hipart` is the pattern divided by `2^16`. -/
theorem hipart_supported (o : HostOrder) (ho : o = .little ∨ o = .big) (f : Nat)
    (hf : f < 2 ^ 32) : hipart o f = some (f / 65536) := by
  rcases ho with rfl | rfl
  · have hb : ¬ (O32_HOST_ORDER .little = O32_BIG_ENDIAN) := by decide
    have hl : O32_HOST_ORDER .little = O32_LITTLE_ENDIAN := by decide
    simp only [hipart, if_neg hb, if_pos hl, Union4.setF, Union4.store32, Union4.us_one, load16,
      Option.some.injEq]
    omega
  · have hb : O32_HOST_ORDER .big = O32_BIG_ENDIAN := by decide
    simp only [hipart, if_pos hb, Union4.setF, Union4.store32, Union4.us_zero, load16,
      Option.some.injEq]
    omega

/-- On the two supported hosts an index of the normal band is rebuilt as the
pattern with top half `i` and bottom half `0x8000`. -/
theorem index_to_float_supported (o : HostOrder) (ho : o = .little ∨ o = .big) (i : Nat)
    (hi : inNormalBand i) : index_to_float o i = some (i * 65536 + 0x8000) := by
  have h1 : ¬ (i < 0x80 ∨ (i ≥ 0x8000 ∧ i < 0x8080)) := by unfold inNormalBand at hi; omega
  have h2 : ¬ (i ≥ 0x7f80 ∧ i < 0x8000) := by unfold inNormalBand at hi; omega
  have h3 : ¬ (i ≥ 0xff80) := by unfold inNormalBand at hi; omega
  have hlt : i < 65536 := by unfold inNormalBand at hi; omega
  rcases ho with rfl | rfl
  · have hb : ¬ (O32_HOST_ORDER .little = O32_BIG_ENDIAN) := by decide
    have hl : O32_HOST_ORDER .little = O32_LITTLE_ENDIAN := by decide
    simp only [index_to_float, if_neg h1, if_neg h2, if_neg h3, if_neg hb, if_pos hl,
      Union4.setUs_zero, Union4.setUs_one, Union4.f, Union4.load32, store16, Option.some.injEq]
    omega
  · have hb : O32_HOST_ORDER .big = O32_BIG_ENDIAN := by decide
    simp only [index_to_float, if_neg h1, if_neg h2, if_neg h3, if_pos hb,
      Union4.setUs_zero, Union4.setUs_one, Union4.f, Union4.load32, store16, Option.some.injEq]
    omega

/-- An index of a zero band gives positive zero, on every host. -/
theorem index_to_float_zero_band (o : HostOrder) (i : Nat) (hi : inZeroBand i) :
    index_to_float o i = some 0 := by
  have h1 : i < 0x80 ∨ (i ≥ 0x8000 ∧ i < 0x8080) := by unfold inZeroBand at hi; omega
  simp only [index_to_float, if_pos h1, floatZero]

/-- An index of the positive NaN/Infinity band gives `FLT_MAX`, on every host. -/
theorem index_to_float_pos_band (o : HostOrder) (i : Nat) (h : 0x7f80 ≤ i ∧ i ≤ 0x7fff) :
    index_to_float o i = some 0x7f7fffff := by
  have h1 : ¬ (i < 0x80 ∨ (i ≥ 0x8000 ∧ i < 0x8080)) := by omega
  have h2 : i ≥ 0x7f80 ∧ i < 0x8000 := by omega
  simp only [index_to_float, if_neg h1, if_pos h2, FLT_MAX]

/-- An index from `0xff80` on gives `-FLT_MAX`, on every host. -/
theorem index_to_float_neg_band (o : HostOrder) (i : Nat) (h : 0xff80 ≤ i) :
    index_to_float o i = some 0xff7fffff := by
  have h1 : ¬ (i < 0x80 ∨ (i ≥ 0x8000 ∧ i < 0x8080)) := by omega
  have h2 : ¬ (i ≥ 0x7f80 ∧ i < 0x8000) := by omega
  have h3 : i ≥ 0xff80 := h
  simp only [index_to_float, if_neg h1, if_neg h2, if_pos h3]
  decide

/-- The pattern rebuilt from an index of the normal band is a normal float:
its exponent field is the one of the index, between 1 and 254. -/
theorem expField_rebuilt (i : Nat) (hi : inNormalBand i) :
    1 ≤ expField (i * 65536 + 0x8000) ∧ expField (i * 65536 + 0x8000) ≤ 254 := by
  unfold inNormalBand at hi
  unfold expField
  omega

/-- The top half of a pattern with exponent field between 1 and 254 is an
index of the normal band. -/
theorem inNormalBand_hipart (f : Nat) (hf : f < 2 ^ 32) (h1 : 1 ≤ expField f)
    (h2 : expField f ≤ 254) : inNormalBand (f / 65536) := by
  unfold expField at h1 h2
  unfold inNormalBand
  omega

/-- The top half of a pattern with exponent field 0 is an index of a zero band. -/
theorem inZeroBand_hipart (f : Nat) (hf : f < 2 ^ 32) (h : expField f = 0) :
    inZeroBand (f / 65536) := by
  unfold expField at h
  unfold inZeroBand
  omega

/-! ## The order of floats and the order of their bit patterns -/

/-- The magnitude grows strictly with the pair (exponent, fraction) in
lexicographic order. -/
theorem magnitudeOf_lt (ea ma eb mb : Nat) (hma : ma < 8388608) (hmb : mb < 8388608)
    (h : ea * 8388608 + ma < eb * 8388608 + mb) : magnitudeOf ea ma < magnitudeOf eb mb := by
  have hpos : ∀ k : Nat, 0 < 2 ^ k := fun k => Nat.pos_pow_of_pos _ (by norm_num)
  have hle : ea ≤ eb := by
    by_contra hc
    have h1 : eb + 1 ≤ ea := by omega
    have h2 := Nat.mul_le_mul_right 8388608 h1
    omega
  rcases Nat.eq_or_lt_of_le hle with heq | hlt
  · subst heq
    have hm : ma < mb := by omega
    unfold magnitudeOf
    split
    · exact hm
    · exact Nat.mul_lt_mul_of_pos_right (by omega) (hpos _)
  · have hb : magnitudeOf eb mb = (8388608 + mb) * 2 ^ (eb - 1) := by
      unfold magnitudeOf
      rw [if_neg (by omega)]
    have hlow : 8388608 * 2 ^ (eb - 1) ≤ magnitudeOf eb mb := by
      rw [hb]
      exact Nat.mul_le_mul_right _ (by omega)
    by_cases h0 : ea = 0
    · subst h0
      have hz : magnitudeOf 0 ma = ma := by simp [magnitudeOf]
      have h1 := Nat.mul_le_mul_left 8388608 (hpos (eb - 1))
      omega
    · have ha : magnitudeOf ea ma = (8388608 + ma) * 2 ^ (ea - 1) := by
        unfold magnitudeOf
        rw [if_neg h0]
      have h1 : (8388608 + ma) * 2 ^ (ea - 1) < 16777216 * 2 ^ (ea - 1) :=
        Nat.mul_lt_mul_of_pos_right (by omega) (hpos _)
      have h2 : 16777216 * 2 ^ (ea - 1) = 8388608 * 2 ^ ea := by
        have hs : ea = (ea - 1) + 1 := by omega
        conv_rhs => rw [hs, pow_succ]
        ring
      have h3 : 2 ^ ea ≤ 2 ^ (eb - 1) := Nat.pow_le_pow_right (by norm_num) (by omega)
      have h4 := Nat.mul_le_mul_left 8388608 h3
      omega

/-- The low 31 bits of a pattern are its exponent and fraction fields. -/
theorem low31_eq (f : Nat) : f % 2147483648 = expField f * 8388608 + fracField f := by
  unfold expField fracField
  omega

/-- The magnitude of a float grows strictly with the low 31 bits of its pattern. -/
theorem floatMagnitude_lt (a b : Nat) (h : a % 2147483648 < b % 2147483648) :
    floatMagnitude a < floatMagnitude b := by
  rw [low31_eq a, low31_eq b] at h
  exact magnitudeOf_lt _ _ _ _ (by unfold fracField; omega) (by unfold fracField; omega) h

theorem floatMagnitude_le (a b : Nat) (h : a % 2147483648 ≤ b % 2147483648) :
    floatMagnitude a ≤ floatMagnitude b := by
  rcases Nat.eq_or_lt_of_le h with heq | hlt
  · have he : expField a = expField b := by
      have ha := low31_eq a
      have hb := low31_eq b
      have h1 : fracField a < 8388608 := by unfold fracField; omega
      have h2 : fracField b < 8388608 := by unfold fracField; omega
      omega
    have hm : fracField a = fracField b := by
      have ha := low31_eq a
      have hb := low31_eq b
      rw [he] at ha
      omega
    unfold floatMagnitude
    rw [he, hm]
  · exact Nat.le_of_lt (floatMagnitude_lt a b hlt)

/-- Conversely, the order of the magnitudes gives the order of the low 31 bits. -/
theorem low31_le_of_floatMagnitude_le (a b : Nat) (h : floatMagnitude a ≤ floatMagnitude b) :
    a % 2147483648 ≤ b % 2147483648 := by
  by_contra hc
  have := floatMagnitude_lt b a (by omega)
  omega

/-- Two patterns with the sign bit clear, the larger below the pattern of
positive infinity, are floats in the same order. -/
theorem floatLe_of_le (x y : Nat) (hxy : x ≤ y) (hy : y < 0x7f800000) : floatLe x y := by
  have hsx : signBit x = 0 := by unfold signBit; omega
  have hsy : signBit y = 0 := by unfold signBit; omega
  refine ⟨?_, ?_, ?_⟩
  · unfold isNaN expField; omega
  · unfold isNaN expField; omega
  · unfold floatScaled
    rw [if_pos hsx, if_pos hsy]
    exact_mod_cast floatMagnitude_le x y (by omega)

/-- `FLT_MAX` has the largest magnitude of all floats that are neither NaN nor
Infinity. -/
theorem floatMagnitude_le_FLT_MAX (g : Nat) (hfin : expField g ≠ 255) :
    floatMagnitude g ≤ floatMagnitude FLT_MAX := by
  apply floatMagnitude_le
  have hlt : expField g < 256 := by unfold expField; omega
  rw [low31_eq g]
  have h2 : fracField g < 8388608 := by unfold fracField; omega
  have h3 : FLT_MAX % 2147483648 = 254 * 8388608 + 8388607 := by decide
  rw [h3]
  have := Nat.mul_le_mul_right 8388608 (show expField g ≤ 254 by omega)
  omega

/-! ## The claims on the codec -/

/-- C1, as stated, fails: the index 1 is outside the NaN/Infinity bands, yet
`index_to_float(1)` is `0.0`, whose top half is 0 and not 1 (little-endian host;
the same holds on a big-endian one). -/
theorem index_roundtrip_fails_at_one :
    1 < 65536 ∧ ¬ inNaNInfBand 1 ∧
      (index_to_float .little 1).bind (hipart .little) = some 0 ∧
      (index_to_float .little 1).bind (hipart .little) ≠ some 1 := by
  decide

/-- C1, amended: on a little-endian or big-endian host, for every 16-bit index
`i` that is 0 or lies in the normal band (outside the zero/denormal bands and
outside the NaN/Infinity bands), `hipart(index_to_float(i)) == i`; for every
index of a zero/denormal band the round trip gives 0. -/
theorem index_roundtrip (o : HostOrder) (ho : o = .little ∨ o = .big) (i : Nat) :
    (i = 0 ∨ inNormalBand i → (index_to_float o i).bind (hipart o) = some i) ∧
    (inZeroBand i → (index_to_float o i).bind (hipart o) = some 0) := by
  have hz : inZeroBand i → (index_to_float o i).bind (hipart o) = some 0 := by
    intro h
    rw [index_to_float_zero_band o i h, Option.some_bind,
      hipart_supported o ho 0 (by norm_num)]
  refine ⟨?_, hz⟩
  rintro (rfl | h)
  · exact hz (by decide)
  · have hlt : i * 65536 + 0x8000 < 2 ^ 32 := by unfold inNormalBand at h; omega
    rw [index_to_float_supported o ho i h, Option.some_bind, hipart_supported o ho _ hlt]
    congr 1
    omega

theorem index_roundtrip_witness :
    inNormalBand 0x3f80 ∧
      (index_to_float .little 0x3f80).bind (hipart .little) = some 0x3f80 :=
  ⟨by decide, (index_roundtrip .little (Or.inl rfl) 0x3f80).1 (Or.inr (by decide))⟩

/-- C2: on a little-endian or big-endian host, for every float `f` whose
biased exponent is between 1 and 254, `index_to_float(hipart(f))` returns a
value that is neither NaN nor Infinity, and `hipart` of it equals `hipart(f)`. -/
theorem quantize_normal_fixed_index (o : HostOrder) (ho : o = .little ∨ o = .big) (f : Nat)
    (hf : f < 2 ^ 32) (h1 : 1 ≤ expField f) (h2 : expField f ≤ 254) :
    ∃ g i, hipart o f = some i ∧ index_to_float o i = some g ∧
      ¬ isNaN g ∧ ¬ isInf g ∧ hipart o g = some i := by
  have hb := inNormalBand_hipart f hf h1 h2
  have he := expField_rebuilt _ hb
  have hlt : f / 65536 * 65536 + 0x8000 < 2 ^ 32 := by omega
  refine ⟨f / 65536 * 65536 + 0x8000, f / 65536, hipart_supported o ho f hf,
    index_to_float_supported o ho _ hb, ?_, ?_, ?_⟩
  · unfold isNaN; omega
  · unfold isInf; omega
  · rw [hipart_supported o ho _ hlt]
    congr 1
    omega

theorem quantize_normal_fixed_index_witness :
    ∃ g i, hipart .big 0x3f800001 = some i ∧ index_to_float .big i = some g ∧
      ¬ isNaN g ∧ ¬ isInf g ∧ hipart .big g = some i :=
  quantize_normal_fixed_index .big (Or.inr rfl) 0x3f800001 (by norm_num) (by decide) (by decide)

/-- C3, as stated, fails: for `f` positive infinity (pattern `0x7f800000`)
the quantization gives `FLT_MAX` (`0x7f7fffff`), and quantizing that gives
`0x7f7f8000`, a different pattern (little-endian host; the same holds on a
big-endian one). -/
theorem quantize_not_idempotent_at_infinity :
    0x7f800000 < 2 ^ 32 ∧
      quantize .little 0x7f800000 = some 0x7f7fffff ∧
      (quantize .little 0x7f800000).bind (quantize .little) = some 0x7f7f8000 ∧
      (quantize .little 0x7f800000).bind (quantize .little) ≠ quantize .little 0x7f800000 := by
  decide

/-- C3, amended: on a little-endian or big-endian host, for every float `f`
that is neither NaN nor Infinity (exponent field other than 255), the
quantization `q(f) = index_to_float(hipart(f))` returns a value and `q(q(f))`
has the same bit pattern as `q(f)`. -/
theorem quantize_idempotent_finite (o : HostOrder) (ho : o = .little ∨ o = .big) (f : Nat)
    (hf : f < 2 ^ 32) (hfin : expField f ≠ 255) :
    ∃ g, quantize o f = some g ∧ quantize o g = some g := by
  have hexp : expField f < 256 := by unfold expField; omega
  by_cases h0 : expField f = 0
  · have hz := inZeroBand_hipart f hf h0
    refine ⟨0, ?_, ?_⟩
    · simp only [quantize, hipart_supported o ho f hf, Option.some_bind]
      exact index_to_float_zero_band o _ hz
    · simp only [quantize, hipart_supported o ho 0 (by norm_num), Option.some_bind]
      exact index_to_float_zero_band o _ (by decide)
  · have hb := inNormalBand_hipart f hf (by omega) (by omega)
    have hlt : f / 65536 * 65536 + 0x8000 < 2 ^ 32 := by omega
    have hidx : (f / 65536 * 65536 + 0x8000) / 65536 = f / 65536 := by omega
    refine ⟨f / 65536 * 65536 + 0x8000, ?_, ?_⟩
    · simp only [quantize, hipart_supported o ho f hf, Option.some_bind]
      exact index_to_float_supported o ho _ hb
    · simp only [quantize, hipart_supported o ho _ hlt, Option.some_bind, hidx]
      exact index_to_float_supported o ho _ hb

theorem quantize_idempotent_finite_witness :
    ∃ g, quantize .little 0x7f7fffff = some g ∧ quantize .little g = some g :=
  quantize_idempotent_finite .little (Or.inl rfl) 0x7f7fffff (by norm_num) (by decide)

/-- C4: on every host, for every index `i` in `[0x7f80, 0x7fff]`
`index_to_float(i)` is the pattern `0x7f7fffff`, and for every index `i` in
`[0xff80, 0xffff]` it is the pattern `0xff7fffff`.  These two patterns are
neither NaN nor Infinity; the first has the sign bit clear and the second has
it set; and every float that is neither NaN nor Infinity has a magnitude at
most theirs. -/
theorem index_to_float_saturates (o : HostOrder) (i : Nat) :
    (0x7f80 ≤ i ∧ i ≤ 0x7fff → index_to_float o i = some 0x7f7fffff) ∧
    (0xff80 ≤ i ∧ i ≤ 0xffff → index_to_float o i = some 0xff7fffff) ∧
    (¬ isNaN 0x7f7fffff ∧ ¬ isInf 0x7f7fffff ∧ ¬ isNaN 0xff7fffff ∧ ¬ isInf 0xff7fffff) ∧
    (signBit 0x7f7fffff = 0 ∧ signBit 0xff7fffff = 1) ∧
    (∀ g, ¬ isNaN g → ¬ isInf g →
      floatMagnitude g ≤ floatMagnitude 0x7f7fffff ∧
      floatMagnitude g ≤ floatMagnitude 0xff7fffff) := by
  refine ⟨fun h => index_to_float_pos_band o i h, fun h => index_to_float_neg_band o i h.1,
    by decide, by decide, ?_⟩
  intro g h1 h2
  have hfin : expField g ≠ 255 := by
    intro he
    by_cases hm : fracField g = 0
    · exact h2 ⟨he, hm⟩
    · exact h1 ⟨he, hm⟩
  have hmax := floatMagnitude_le_FLT_MAX g hfin
  have heq : floatMagnitude 0xff7fffff = floatMagnitude FLT_MAX := by
    apply Nat.le_antisymm <;> apply floatMagnitude_le <;> decide
  exact ⟨hmax, heq ▸ hmax⟩

theorem index_to_float_saturates_witness :
    index_to_float .pdp 0x7fc0 = some 0x7f7fffff ∧ index_to_float .pdp 0xffff = some 0xff7fffff :=
  ⟨(index_to_float_saturates .pdp 0x7fc0).1 (by decide),
    (index_to_float_saturates .pdp 0xffff).2.1 (by decide)⟩

/-- C5: on every host, for every index `i` with `i < 0x0080` or
`0x8000 <= i < 0x8080`, `index_to_float(i)` is positive zero, the pattern
`0x00000000`. -/
theorem index_to_float_flushes_to_zero (o : HostOrder) (i : Nat)
    (hi : i < 0x0080 ∨ (0x8000 ≤ i ∧ i < 0x8080)) :
    index_to_float o i = some 0x00000000 :=
  index_to_float_zero_band o i hi

theorem index_to_float_flushes_to_zero_witness :
    index_to_float .big 0x8000 = some 0x00000000 :=
  index_to_float_flushes_to_zero .big 0x8000 (by decide)

/-- C6: on a little-endian or big-endian host, for every index `i` with
`0x0080 <= i <= 0x7f7f` or `0x8080 <= i <= 0xff7f`, `index_to_float(i)` is the
pattern `i * 65536 + 0x8000`, whose upper 16 bits are `i` and whose lower 16
bits are `0x8000`. -/
theorem index_to_float_rebuilds (o : HostOrder) (ho : o = .little ∨ o = .big) (i : Nat)
    (hi : (0x0080 ≤ i ∧ i ≤ 0x7f7f) ∨ (0x8080 ≤ i ∧ i ≤ 0xff7f)) :
    ∃ g, index_to_float o i = some g ∧ g = i * 65536 + 0x8000 ∧
      g / 65536 = i ∧ g % 65536 = 0x8000 ∧ g < 2 ^ 32 :=
  ⟨i * 65536 + 0x8000, index_to_float_supported o ho i hi, rfl, by omega, by omega, by omega⟩

theorem index_to_float_rebuilds_witness :
    ∃ g, index_to_float .big 0xbf80 = some g ∧ g = 0xbf80 * 65536 + 0x8000 ∧
      g / 65536 = 0xbf80 ∧ g % 65536 = 0x8000 ∧ g < 2 ^ 32 :=
  index_to_float_rebuilds .big (Or.inr rfl) 0xbf80 (by decide)

/-- C7: for every float `f` (a pattern below `2^32`), on a little-endian host
and on a big-endian host alike, `hipart(f)` is the pattern divided by 65536,
rounded down: the highest-order 16 bits. -/
theorem hipart_high_half (o : HostOrder) (ho : o = .little ∨ o = .big) (f : Nat)
    (hf : f < 2 ^ 32) :
    hipart o f = some (f / 65536) ∧ f / 65536 < 65536 ∧ hipart .little f = hipart .big f :=
  ⟨hipart_supported o ho f hf, by omega, by
    rw [hipart_supported .little (Or.inl rfl) f hf, hipart_supported .big (Or.inr rfl) f hf]⟩

theorem hipart_high_half_witness :
    hipart .big 0xc0490fdb = some (0xc0490fdb / 65536) ∧ 0xc0490fdb / 65536 < 65536 ∧
      hipart .little 0xc0490fdb = hipart .big 0xc0490fdb :=
  hipart_high_half .big (Or.inr rfl) 0xc0490fdb (by norm_num)

/-- A float that compares `>= 0` and is not negative zero has its sign bit
clear. -/
theorem signBit_eq_zero_of_nonneg (a : Nat) (ha : a < 2 ^ 32) (h : floatLe 0 a)
    (hnz : a ≠ 0x80000000) : signBit a = 0 := by
  by_contra hs
  have h3 := h.2.2
  have hz : floatScaled 0 = 0 := by decide
  rw [hz] at h3
  unfold floatScaled at h3
  rw [if_neg hs] at h3
  have hm : floatMagnitude a ≤ floatMagnitude 0 := by
    have h0 : floatMagnitude 0 = 0 := by decide
    omega
  have hl := low31_le_of_floatMagnitude_le a 0 hm
  unfold signBit at hs
  omega

/-- A float that compares `< 0` has its sign bit set. -/
theorem signBit_eq_one_of_neg (a : Nat) (h : floatLt a 0) : signBit a = 1 := by
  have h3 := h.2.2
  have hz : floatScaled 0 = 0 := by decide
  rw [hz] at h3
  unfold floatScaled at h3
  by_cases hs : signBit a = 0
  · rw [if_pos hs] at h3
    omega
  · unfold signBit at hs ⊢
    omega

/-- C8, as stated, fails: negative zero (pattern `0x80000000`) and positive
zero are non-NaN floats that both compare `>= 0`, and `-0.0 <= +0.0`, yet
`hipart(-0.0)` is `0x8000` and `hipart(+0.0)` is 0 (little-endian host; the same
holds on a big-endian one). -/
theorem hipart_order_fails_at_negative_zero :
    ¬ isNaN 0x80000000 ∧ ¬ isNaN 0 ∧ floatLe 0x80000000 0 ∧
      floatLe 0 0x80000000 ∧ floatLe 0 0 ∧
      hipart .little 0x80000000 = some 0x8000 ∧ hipart .little 0 = some 0 ∧
      ¬ (0x8000 ≤ 0) := by
  decide

/-- C8, amended: on a little-endian or big-endian host, for all non-NaN floats
`a <= b` that are both non-negative and neither of which is negative zero,
`hipart(a) <= hipart(b)`; and for all non-NaN floats `a <= b` that are both
negative, `hipart(a) >= hipart(b)`. -/
theorem hipart_monotone (o : HostOrder) (ho : o = .little ∨ o = .big) (a b : Nat)
    (ha : a < 2 ^ 32) (hb : b < 2 ^ 32) (hab : floatLe a b) :
    (floatLe 0 a ∧ floatLe 0 b ∧ a ≠ 0x80000000 ∧ b ≠ 0x80000000 →
      ∃ i j, hipart o a = some i ∧ hipart o b = some j ∧ i ≤ j) ∧
    (floatLt a 0 ∧ floatLt b 0 →
      ∃ i j, hipart o a = some i ∧ hipart o b = some j ∧ i ≥ j) := by
  constructor
  · rintro ⟨h0a, h0b, hna, hnb⟩
    have hsa := signBit_eq_zero_of_nonneg a ha h0a hna
    have hsb := signBit_eq_zero_of_nonneg b hb h0b hnb
    refine ⟨a / 65536, b / 65536, hipart_supported o ho a ha, hipart_supported o ho b hb, ?_⟩
    have h3 := hab.2.2
    unfold floatScaled at h3
    rw [if_pos hsa, if_pos hsb] at h3
    have hl := low31_le_of_floatMagnitude_le a b (by exact_mod_cast h3)
    unfold signBit at hsa hsb
    omega
  · rintro ⟨hla, hlb⟩
    have hsa := signBit_eq_one_of_neg a hla
    have hsb := signBit_eq_one_of_neg b hlb
    refine ⟨a / 65536, b / 65536, hipart_supported o ho a ha, hipart_supported o ho b hb, ?_⟩
    have h3 := hab.2.2
    unfold floatScaled at h3
    rw [if_neg (by omega), if_neg (by omega)] at h3
    have hl := low31_le_of_floatMagnitude_le b a (by omega)
    unfold signBit at hsa hsb
    omega

theorem hipart_monotone_witness :
    (∃ i j, hipart .little 0x3f800000 = some i ∧ hipart .little 0x40490fdb = some j ∧ i ≤ j) ∧
    (∃ i j, hipart .little 0xc0490fdb = some i ∧ hipart .little 0xbf800000 = some j ∧ i ≥ j) :=
  ⟨(hipart_monotone .little (Or.inl rfl) 0x3f800000 0x40490fdb (by norm_num) (by norm_num)
      (by decide)).1 (by decide),
    (hipart_monotone .little (Or.inl rfl) 0xc0490fdb 0xbf800000 (by norm_num) (by norm_num)
      (by decide)).2 (by decide)⟩

theorem index_to_float_nonneg (o : HostOrder) (ho : o = .little ∨ o = .big) (i : Nat)
    (hi : i ≤ 0x7fff) : index_to_float o i = some (rebuiltNonneg i) := by
  unfold rebuiltNonneg
  split
  · exact index_to_float_zero_band o i (Or.inl (by omega))
  · split
    · exact index_to_float_supported o ho i (Or.inl (by omega))
    · exact index_to_float_pos_band o i (by omega)

/-- C9: on a little-endian or big-endian host, for all indices
`i <= j <= 0x7fff`, `index_to_float(i)` and `index_to_float(j)` return floats
`x` and `y` with `x <= y`. -/
theorem index_to_float_monotone (o : HostOrder) (ho : o = .little ∨ o = .big) (i j : Nat)
    (hij : i ≤ j) (hj : j ≤ 0x7fff) :
    ∃ x y, index_to_float o i = some x ∧ index_to_float o j = some y ∧ floatLe x y := by
  refine ⟨rebuiltNonneg i, rebuiltNonneg j, index_to_float_nonneg o ho i (by omega),
    index_to_float_nonneg o ho j hj, ?_⟩
  apply floatLe_of_le
  · unfold rebuiltNonneg
    split <;> split <;> (try split) <;> (try split) <;> omega
  · unfold rebuiltNonneg
    split <;> (try split) <;> omega

theorem index_to_float_monotone_witness :
    ∃ x y, index_to_float .big 0x7f7f = some x ∧ index_to_float .big 0x7f80 = some y ∧
      floatLe x y :=
  index_to_float_monotone .big (Or.inr rfl) 0x7f7f 0x7f80 (by decide) (by decide)

/-! ## Lemmas on the loops of the packed conversions -/

/-- The `while` loop of a row stops at once, whatever the fuel, when
`src_pixels` is `src_end`. -/
theorem convertPixels_done {S D : Type} (conv : S → D) (fromBuf : Int → S) (nComponents : Int)
    (src_end : Int) (fuel : Nat) (dst_pixels : Int) (toBuf : Int → D) :
    convertPixels conv fromBuf nComponents src_end fuel src_end dst_pixels toBuf = some toBuf := by
  cases fuel <;> simp [convertPixels]

theorem blockWrite_zero {S D : Type} (conv : S → D) (fromBuf : Int → S) (src dst : Int)
    (toBuf : Int → D) : blockWrite conv fromBuf src dst 0 toBuf = toBuf := by
  funext m
  unfold blockWrite
  rw [if_neg (by omega)]

/-- Two adjacent blocks make one block. -/
theorem blockWrite_append {S D : Type} (conv : S → D) (fromBuf : Int → S) (src dst a b : Int)
    (ha : 0 ≤ a) (hb : 0 ≤ b) (toBuf : Int → D) :
    blockWrite conv fromBuf (src + a) (dst + a) b (blockWrite conv fromBuf src dst a toBuf)
      = blockWrite conv fromBuf src dst (a + b) toBuf := by
  funext m
  unfold blockWrite
  by_cases h1 : dst + a ≤ m ∧ m < dst + a + b
  · rw [if_pos h1, if_pos (by omega)]
    congr 2
    omega
  · rw [if_neg h1]
    by_cases h2 : dst ≤ m ∧ m < dst + a
    · rw [if_pos h2, if_pos (by omega)]
    · rw [if_neg h2, if_neg (by omega)]

/-- The `for` loop over the components writes one block of `n` elements. -/
theorem convertComponents_eq {S D : Type} (conv : S → D) (fromBuf : Int → S) (n : Nat)
    (src dst : Int) (toBuf : Int → D) :
    convertComponents conv fromBuf n src dst toBuf
      = (src + n, dst + n, blockWrite conv fromBuf src dst n toBuf) := by
  induction n generalizing src dst toBuf with
  | zero =>
    simp only [convertComponents, Nat.cast_zero, add_zero]
    rw [blockWrite_zero]
  | succ n ih =>
    simp only [convertComponents]
    rw [ih]
    have hb : blockWrite conv fromBuf (src + 1) (dst + 1) (n : Int)
        (Function.update toBuf dst (conv (fromBuf src)))
        = blockWrite conv fromBuf src dst ((n + 1 : Nat) : Int) toBuf := by
      have h1 : Function.update toBuf dst (conv (fromBuf src))
          = blockWrite conv fromBuf src dst 1 toBuf := by
        funext m
        unfold blockWrite
        by_cases hm : m = dst
        · subst hm
          rw [Function.update_same, if_pos (by omega)]
          congr 2
          omega
        · rw [Function.update_noteq hm, if_neg (by omega)]
      have h2 : (1 : Int) + (n : Int) = ((n + 1 : Nat) : Int) := by push_cast; omega
      rw [h1, blockWrite_append conv fromBuf src dst 1 n (by omega) (by omega), h2]
    have h3 : src + 1 + (n : Int) = src + ((n + 1 : Nat) : Int) := by push_cast; omega
    have h4 : dst + 1 + (n : Int) = dst + ((n + 1 : Nat) : Int) := by push_cast; omega
    rw [hb, h3, h4]

/-- The `while` loop of a row, with `j` pixels to go and fuel for them, returns
the buffer with one block of `j * nComponents` elements written. -/
theorem convertPixels_eq {S D : Type} (conv : S → D) (fromBuf : Int → S) (nComponents : Int)
    (hn : 0 ≤ nComponents) (j : Nat) (fuel : Nat) (hfuel : j ≤ fuel) (src dst : Int)
    (toBuf : Int → D) :
    convertPixels conv fromBuf nComponents (src + j * nComponents) fuel src dst toBuf
      = some (blockWrite conv fromBuf src dst (j * nComponents) toBuf) := by
  induction j generalizing fuel src dst toBuf with
  | zero =>
    simp only [Nat.cast_zero, zero_mul, add_zero]
    rw [convertPixels_done, blockWrite_zero]
  | succ j ih =>
    rcases eq_or_lt_of_le hn with h0 | hpos
    · subst h0
      simp only [mul_zero, add_zero]
      rw [convertPixels_done, blockWrite_zero]
    · obtain ⟨f, rfl⟩ : ∃ f, fuel = f + 1 := ⟨fuel - 1, by omega⟩
      have hjn : 0 ≤ (j : Int) * nComponents := mul_nonneg (by omega) hn
      have hne : ¬ (src = src + ((j + 1 : Nat) : Int) * nComponents) := by
        push_cast
        have : ((j : Int) + 1) * nComponents = j * nComponents + nComponents := by ring
        omega
      simp only [convertPixels, if_neg hne, convertComponents_eq]
      have hcast : ((nComponents.toNat : Nat) : Int) = nComponents := Int.toNat_of_nonneg hn
      rw [hcast]
      have hend : src + ((j + 1 : Nat) : Int) * nComponents
          = (src + nComponents) + (j : Int) * nComponents := by
        push_cast; ring
      have hlen : nComponents + (j : Int) * nComponents
          = ((j + 1 : Nat) : Int) * nComponents := by
        push_cast; ring
      rw [hend, ih f (by omega), blockWrite_append conv fromBuf src dst _ _ hn hjn, hlen]

/-- With at least one component per pixel and fuel for fewer than the `j`
pixels to go, the `while` loop of a row runs out of fuel. -/
theorem convertPixels_none {S D : Type} (conv : S → D) (fromBuf : Int → S) (nComponents : Int)
    (hn : 1 ≤ nComponents) (j : Nat) (fuel : Nat) (hfuel : fuel < j) (src dst : Int)
    (toBuf : Int → D) :
    convertPixels conv fromBuf nComponents (src + j * nComponents) fuel src dst toBuf = none := by
  induction j generalizing fuel src dst toBuf with
  | zero => omega
  | succ j ih =>
    have hjn : 0 ≤ (j : Int) * nComponents := mul_nonneg (by omega) (by omega)
    have hne : ¬ (src = src + ((j + 1 : Nat) : Int) * nComponents) := by
      push_cast
      have : ((j : Int) + 1) * nComponents = j * nComponents + nComponents := by ring
      omega
    cases fuel with
    | zero => simp only [convertPixels, if_neg hne]
    | succ f =>
      simp only [convertPixels, if_neg hne, convertComponents_eq]
      have hcast : ((nComponents.toNat : Nat) : Int) = nComponents :=
        Int.toNat_of_nonneg (by omega)
      rw [hcast]
      have hend : src + ((j + 1 : Nat) : Int) * nComponents
          = (src + nComponents) + (j : Int) * nComponents := by
        push_cast; ring
      rw [hend]
      exact ih f (by omega) _ _ _

/-- The loop over the rows, each row being a `while` loop with `j` pixels and
fuel for them, returns the buffer with the rows written one after the other. -/
theorem forRows_eq {S D : Type} (conv : S → D) (fromBuf : Int → S) (nComponents : Int)
    (hn : 0 ≤ nComponents) (j : Nat) (fuel : Nat) (hfuel : j ≤ fuel)
    (srcStride dstStride c : Int) (n : Nat) (y0 : Int) (toBuf : Int → D) :
    forRows (fun y tb =>
        convertPixels conv fromBuf nComponents (y * srcStride + c + j * nComponents) fuel
          (y * srcStride + c) (y * dstStride + c) tb) n y0 toBuf
      = some (rowsWrite conv fromBuf srcStride dstStride c (j * nComponents) n y0 toBuf) := by
  induction n generalizing y0 toBuf with
  | zero => rfl
  | succ n ih =>
    simp only [forRows, rowsWrite]
    rw [convertPixels_eq conv fromBuf nComponents hn j fuel hfuel, Option.some_bind, ih]

/-- An element outside the blocks of all the rows keeps its value. -/
theorem rowsWrite_frame {S D : Type} (conv : S → D) (fromBuf : Int → S)
    (srcStride dstStride c len : Int) (n : Nat) (y0 : Int) (toBuf : Int → D) (m : Int)
    (hm : ∀ y, y0 ≤ y → y < y0 + n → ¬ (y * dstStride + c ≤ m ∧ m < y * dstStride + c + len)) :
    rowsWrite conv fromBuf srcStride dstStride c len n y0 toBuf m = toBuf m := by
  induction n generalizing y0 toBuf with
  | zero => rfl
  | succ n ih =>
    simp only [rowsWrite]
    rw [ih]
    · unfold blockWrite
      rw [if_neg (hm y0 (le_refl _) (by push_cast; omega))]
    · intro y h1 h2
      exact hm y (by omega) (by push_cast; omega)

/-- When the blocks of the rows do not overlap, an element of the block of a
row holds the converted source element of the same row and position. -/
theorem rowsWrite_value {S D : Type} (conv : S → D) (fromBuf : Int → S)
    (srcStride dstStride c len : Int) (hlen : len ≤ dstStride)
    (n : Nat) (y0 : Int) (toBuf : Int → D) (y m : Int) (hy0 : y0 ≤ y) (hy1 : y < y0 + n)
    (hm0 : y * dstStride + c ≤ m) (hm1 : m < y * dstStride + c + len) :
    rowsWrite conv fromBuf srcStride dstStride c len n y0 toBuf m
      = conv (fromBuf (y * srcStride + c + (m - (y * dstStride + c)))) := by
  have hpos : 0 ≤ dstStride := by omega
  induction n generalizing y0 toBuf with
  | zero => simp at hy1; omega
  | succ n ih =>
    simp only [rowsWrite]
    rcases eq_or_lt_of_le hy0 with heq | hlt
    · subst heq
      rw [rowsWrite_frame]
      · unfold blockWrite
        rw [if_pos ⟨hm0, hm1⟩]
      · intro y h1 h2 h3
        have hmul : (y0 + 1) * dstStride ≤ y * dstStride :=
          mul_le_mul_of_nonneg_right h1 hpos
        have hexp : (y0 + 1) * dstStride = y0 * dstStride + dstStride := by ring
        omega
    · exact ih (y0 + 1) _ (by omega) (by push_cast at hy1 ⊢; omega)

/-- For a non-negative `int`, `rowBytes / sizeof(T)` is the quotient. -/
theorem divSizeof_of_nonneg (rowBytes size : Int) (h0 : 0 ≤ rowBytes)
    (h1 : rowBytes < 2147483648) (hs : 1 ≤ size) : divSizeof rowBytes size = rowBytes / size := by
  unfold divSizeof toInt32
  have hmod : rowBytes % 18446744073709551616 = rowBytes := Int.emod_eq_of_lt h0 (by omega)
  rw [hmod]
  have hq0 : 0 ≤ rowBytes / size := Int.ediv_nonneg h0 (by omega)
  have hq1 : rowBytes / size ≤ rowBytes := Int.ediv_le_self _ h0
  have hmod2 : rowBytes / size % 4294967296 = rowBytes / size :=
    Int.emod_eq_of_lt hq0 (by omega)
  rw [hmod2, if_pos (by omega)]

/-- An offset of the window, `y * stride + x * nComponents + k`, lies in the
block of row `y`, at the position `(x - x1) * nComponents + k`. -/
theorem region_in_block (x1 x2 nComponents x k : Int) (hx1 : x1 ≤ x) (hx2 : x < x2)
    (hk0 : 0 ≤ k) (hk1 : k < nComponents) :
    0 ≤ (x - x1) * nComponents + k ∧
      (x - x1) * nComponents + k < (x2 - x1) * nComponents := by
  have hn : 0 ≤ nComponents := by omega
  have h1 : 0 ≤ (x - x1) * nComponents := mul_nonneg (by omega) hn
  have h2 : (x - x1 + 1) * nComponents ≤ (x2 - x1) * nComponents :=
    mul_le_mul_of_nonneg_right (by omega) hn
  have h3 : (x - x1 + 1) * nComponents = (x - x1) * nComponents + nComponents := by ring
  constructor <;> omega

/-- The rows do not overlap when the window ends within a row. -/
theorem rowLen_le_stride (x1 x2 nComponents stride : Int) (hx1 : 0 ≤ x1)
    (hn : 0 ≤ nComponents) (h : x2 * nComponents ≤ stride) :
    (x2 - x1) * nComponents ≤ stride := by
  have h1 : 0 ≤ x1 * nComponents := mul_nonneg hx1 hn
  have h2 : (x2 - x1) * nComponents = x2 * nComponents - x1 * nComponents := by ring
  omega

/-- The common shape of the four conversions: with `0 <= nComponents`,
`x1 <= x2` and fuel for the `x2 - x1` pixels of a row, the loops return the
buffer with the rows of the window written. -/
theorem packedLoops_eq {S D : Type} (conv : S → D) (fromBuf : Int → S) (nComponents : Int)
    (hn : 0 ≤ nComponents) (x1 x2 : Int) (hx : x1 ≤ x2) (fuel : Nat)
    (hfuel : (x2 - x1).toNat ≤ fuel) (srcStride dstStride : Int) (n : Nat) (y0 : Int)
    (toBuf : Int → D) :
    forRows (fun y tb =>
        convertPixels conv fromBuf nComponents
          (y * srcStride + x1 * nComponents + (x2 - x1) * nComponents) fuel
          (y * srcStride + x1 * nComponents) (y * dstStride + x1 * nComponents) tb) n y0 toBuf
      = some (rowsWrite conv fromBuf srcStride dstStride (x1 * nComponents)
          ((x2 - x1) * nComponents) n y0 toBuf) := by
  have hw : (((x2 - x1).toNat : Nat) : Int) = x2 - x1 := Int.toNat_of_nonneg (by omega)
  have h := forRows_eq conv fromBuf nComponents hn (x2 - x1).toNat fuel hfuel srcStride
    dstStride (x1 * nComponents) n y0 toBuf
  rw [hw] at h
  exact h

/-- In the written buffer an element of the window holds the converted source
element of the same row, column and component, when the rows do not overlap. -/
theorem rowsWrite_region_value {S D : Type} (conv : S → D) (fromBuf : Int → S)
    (srcStride dstStride nComponents x1 x2 y1 y2 : Int)
    (hlen : (x2 - x1) * nComponents ≤ dstStride) (toBuf : Int → D) (y x k : Int)
    (hy1 : y1 ≤ y) (hy2 : y < y2) (hx1 : x1 ≤ x) (hx2 : x < x2) (hk0 : 0 ≤ k)
    (hk1 : k < nComponents) :
    rowsWrite conv fromBuf srcStride dstStride (x1 * nComponents) ((x2 - x1) * nComponents)
        (y2 - y1).toNat y1 toBuf (y * dstStride + x * nComponents + k)
      = conv (fromBuf (y * srcStride + x * nComponents + k)) := by
  have hb := region_in_block x1 x2 nComponents x k hx1 hx2 hk0 hk1
  have hsplit : x * nComponents = x1 * nComponents + (x - x1) * nComponents := by ring
  have hn : (((y2 - y1).toNat : Nat) : Int) = y2 - y1 := Int.toNat_of_nonneg (by omega)
  rw [rowsWrite_value conv fromBuf srcStride dstStride (x1 * nComponents)
    ((x2 - x1) * nComponents) hlen (y2 - y1).toNat y1 toBuf y
    (y * dstStride + x * nComponents + k) hy1 (by omega) (by omega) (by omega)]
  congr 2
  omega

/-- An offset in the block of a row of the window is an offset of the region. -/
theorem inRegion_of_block (renderWindow : OfxRectI) (nComponents stride : Int)
    (hn : 1 ≤ nComponents) (y m : Int) (hy1 : renderWindow.y1 ≤ y) (hy2 : y < renderWindow.y2)
    (hm0 : y * stride + renderWindow.x1 * nComponents ≤ m)
    (hm1 : m < y * stride + renderWindow.x1 * nComponents
      + (renderWindow.x2 - renderWindow.x1) * nComponents) :
    inRegion renderWindow nComponents stride m := by
  have hpos : 0 < nComponents := by omega
  obtain ⟨j, hj⟩ : ∃ j, j = m - (y * stride + renderWindow.x1 * nComponents) := ⟨_, rfl⟩
  have hj0 : 0 ≤ j := by omega
  have hq0 : 0 ≤ j / nComponents := Int.ediv_nonneg hj0 (by omega)
  have hr0 : 0 ≤ j % nComponents := Int.emod_nonneg _ (by omega)
  have hr1 : j % nComponents < nComponents := Int.emod_lt_of_pos _ hpos
  have hdm : nComponents * (j / nComponents) + j % nComponents = j := Int.ediv_add_emod j _
  have hq1 : j / nComponents < renderWindow.x2 - renderWindow.x1 := by
    by_contra hc
    have h1 : (renderWindow.x2 - renderWindow.x1) * nComponents ≤ (j / nComponents) * nComponents :=
      mul_le_mul_of_nonneg_right (by omega) (by omega)
    have h2 : (j / nComponents) * nComponents = nComponents * (j / nComponents) := by ring
    omega
  refine ⟨y, renderWindow.x1 + j / nComponents, j % nComponents, hy1, hy2, by omega, by omega,
    hr0, hr1, ?_⟩
  have h3 : (renderWindow.x1 + j / nComponents) * nComponents
      = renderWindow.x1 * nComponents + nComponents * (j / nComponents) := by ring
  omega

/-- In the written buffer an element that is not an offset of the region
keeps its value. -/
theorem rowsWrite_region_frame {S D : Type} (conv : S → D) (fromBuf : Int → S)
    (srcStride dstStride nComponents : Int) (hn : 1 ≤ nComponents) (renderWindow : OfxRectI)
    (toBuf : Int → D) (m : Int) (hm : ¬ inRegion renderWindow nComponents dstStride m) :
    rowsWrite conv fromBuf srcStride dstStride (renderWindow.x1 * nComponents)
        ((renderWindow.x2 - renderWindow.x1) * nComponents)
        (renderWindow.y2 - renderWindow.y1).toNat renderWindow.y1 toBuf m
      = toBuf m := by
  apply rowsWrite_frame
  intro y h1 h2 h3
  apply hm
  have hlt : y < renderWindow.y2 := by
    by_cases hc : renderWindow.y1 ≤ renderWindow.y2
    · have := Int.toNat_of_nonneg (show 0 ≤ renderWindow.y2 - renderWindow.y1 by omega)
      omega
    · have : (renderWindow.y2 - renderWindow.y1).toNat = 0 := by
        apply Int.toNat_eq_zero.mpr; omega
      omega
  exact inRegion_of_block renderWindow nComponents dstStride hn y m h1 hlt h3.1 h3.2

/-- The finite set of offsets is the region. -/
theorem mem_regionOffsets_iff (renderWindow : OfxRectI) (nComponents stride : Int)
    (hn : 1 ≤ nComponents) (m : Int) :
    m ∈ regionOffsets renderWindow.y1 renderWindow.y2 stride (renderWindow.x1 * nComponents)
        ((renderWindow.x2 - renderWindow.x1) * nComponents)
      ↔ inRegion renderWindow nComponents stride m := by
  unfold regionOffsets
  simp only [Finset.mem_image, Finset.mem_product, Finset.mem_Ico, Prod.exists]
  constructor
  · rintro ⟨y, j, ⟨⟨hy1, hy2⟩, hj0, hj1⟩, rfl⟩
    exact inRegion_of_block renderWindow nComponents stride hn y _ hy1 hy2 (by omega) (by omega)
  · rintro ⟨y, x, k, hy1, hy2, hx1, hx2, hk0, hk1, rfl⟩
    have hb := region_in_block renderWindow.x1 renderWindow.x2 nComponents x k hx1 hx2 hk0 hk1
    refine ⟨y, (x - renderWindow.x1) * nComponents + k, ⟨⟨hy1, hy2⟩, hb.1, hb.2⟩, ?_⟩
    have hsplit : x * nComponents
        = renderWindow.x1 * nComponents + (x - renderWindow.x1) * nComponents := by ring
    omega

/-- When the rows do not overlap the region has as many offsets as the window
has rows times the elements of a row. -/
theorem card_regionOffsets (y1 y2 stride c len : Int) (hlen : len ≤ stride) :
    (regionOffsets y1 y2 stride c len).card = (y2 - y1).toNat * len.toNat := by
  unfold regionOffsets
  rw [Finset.card_image_of_injOn, Finset.card_product, Int.card_Ico, Int.card_Ico, sub_zero]
  rintro ⟨y, j⟩ hp ⟨y', j'⟩ hp' heq
  simp only [Finset.coe_product, Finset.coe_Ico, Set.mem_prod, Set.mem_Ico] at hp hp'
  simp only at heq
  obtain ⟨-, hj0, hj1⟩ := hp
  obtain ⟨-, hj0', hj1'⟩ := hp'
  have hs : 0 ≤ stride := by omega
  have hyy : y = y' := by
    rcases lt_trichotomy y y' with h | h | h
    · have h1 : (y + 1) * stride ≤ y' * stride := mul_le_mul_of_nonneg_right (by omega) hs
      have h2 : (y + 1) * stride = y * stride + stride := by ring
      omega
    · exact h
    · have h1 : (y' + 1) * stride ≤ y * stride := mul_le_mul_of_nonneg_right (by omega) hs
      have h2 : (y' + 1) * stride = y' * stride + stride := by ring
      omega
  subst hyy
  have : j = j' := by omega
  rw [this]

/-- The number of elements of the region, as the claim counts them. -/
theorem region_count (x1 x2 y1 y2 nComponents : Int) (hx : x1 ≤ x2) (hy : y1 ≤ y2)
    (hn : 0 ≤ nComponents) :
    (((y2 - y1).toNat * ((x2 - x1) * nComponents).toNat : Nat) : Int)
      = (x2 - x1) * (y2 - y1) * nComponents := by
  have h1 : 0 ≤ (x2 - x1) * nComponents := mul_nonneg (by omega) hn
  push_cast
  rw [Int.toNat_of_nonneg (show 0 ≤ y2 - y1 by omega), Int.toNat_of_nonneg h1]
  ring

/-- `to_byte_packed` is the loop over the rows of its row body. -/
theorem to_byte_packed_eq_forRows {F : Type} (floatToInt256 : F → Int) (fuel : Nat)
    (toBuf : Int → Nat) (fromBuf : Int → F) (renderWindow : OfxRectI) (nComponents : Int)
    (srcBounds : OfxRectI) (srcRowBytes : Int) (dstBounds : OfxRectI) (dstRowBytes : Int) :
    Linear.to_byte_packed floatToInt256 fuel toBuf fromBuf renderWindow nComponents srcBounds
        srcRowBytes dstBounds dstRowBytes
      = forRows (Linear.to_byte_packed_row floatToInt256 fuel fromBuf renderWindow nComponents
          srcRowBytes dstRowBytes)
          (renderWindow.y2 - renderWindow.y1).toNat renderWindow.y1 toBuf :=
  rfl

/-- Closed form of `to_byte_packed`. -/
theorem to_byte_packed_eq {F : Type} (floatToInt256 : F → Int) (fuel : Nat)
    (toBuf : Int → Nat) (fromBuf : Int → F) (renderWindow : OfxRectI) (nComponents : Int)
    (srcBounds : OfxRectI) (srcRowBytes : Int) (dstBounds : OfxRectI) (dstRowBytes : Int)
    (hn : 0 ≤ nComponents) (hx : renderWindow.x1 ≤ renderWindow.x2)
    (hfuel : (renderWindow.x2 - renderWindow.x1).toNat ≤ fuel) :
    Linear.to_byte_packed floatToInt256 fuel toBuf fromBuf renderWindow nComponents srcBounds
        srcRowBytes dstBounds dstRowBytes
      = some (rowsWrite (fun v => (floatToInt256 v % 256).toNat) fromBuf
          (divSizeof srcRowBytes 4) (divSizeof dstRowBytes 1) (renderWindow.x1 * nComponents)
          ((renderWindow.x2 - renderWindow.x1) * nComponents)
          (renderWindow.y2 - renderWindow.y1).toNat renderWindow.y1 toBuf) :=
  packedLoops_eq _ fromBuf nComponents hn _ _ hx fuel hfuel _ _ _ _ toBuf

/-- Closed form of `to_short_packed`. -/
theorem to_short_packed_eq {F : Type} (floatToInt65536 : F → Int) (fuel : Nat)
    (toBuf : Int → Nat) (fromBuf : Int → F) (renderWindow : OfxRectI) (nComponents : Int)
    (srcBounds : OfxRectI) (srcRowBytes : Int) (dstBounds : OfxRectI) (dstRowBytes : Int)
    (hn : 0 ≤ nComponents) (hx : renderWindow.x1 ≤ renderWindow.x2)
    (hfuel : (renderWindow.x2 - renderWindow.x1).toNat ≤ fuel) :
    Linear.to_short_packed floatToInt65536 fuel toBuf fromBuf renderWindow nComponents srcBounds
        srcRowBytes dstBounds dstRowBytes
      = some (rowsWrite (fun v => (floatToInt65536 v % 65536).toNat) fromBuf
          (divSizeof srcRowBytes 4) (divSizeof dstRowBytes 2) (renderWindow.x1 * nComponents)
          ((renderWindow.x2 - renderWindow.x1) * nComponents)
          (renderWindow.y2 - renderWindow.y1).toNat renderWindow.y1 toBuf) :=
  packedLoops_eq _ fromBuf nComponents hn _ _ hx fuel hfuel _ _ _ _ toBuf

/-- Closed form of `from_byte_packed`: the rows of the destination are
`dstRowBytes` elements apart. -/
theorem from_byte_packed_eq {D : Type} (intToFloat256 : Nat → D) (fuel : Nat)
    (toBuf : Int → D) (fromBuf : Int → Nat) (renderWindow : OfxRectI) (nComponents : Int)
    (srcBounds : OfxRectI) (srcRowBytes : Int) (dstBounds : OfxRectI) (dstRowBytes : Int)
    (hn : 0 ≤ nComponents) (hx : renderWindow.x1 ≤ renderWindow.x2)
    (hfuel : (renderWindow.x2 - renderWindow.x1).toNat ≤ fuel) :
    Linear.from_byte_packed intToFloat256 fuel toBuf fromBuf renderWindow nComponents srcBounds
        srcRowBytes dstBounds dstRowBytes
      = some (rowsWrite intToFloat256 fromBuf
          (divSizeof srcRowBytes 1) dstRowBytes (renderWindow.x1 * nComponents)
          ((renderWindow.x2 - renderWindow.x1) * nComponents)
          (renderWindow.y2 - renderWindow.y1).toNat renderWindow.y1 toBuf) :=
  packedLoops_eq _ fromBuf nComponents hn _ _ hx fuel hfuel _ _ _ _ toBuf

/-- Closed form of `from_short_packed`. -/
theorem from_short_packed_eq {D : Type} (intToFloat65536 : Nat → D) (fuel : Nat)
    (toBuf : Int → D) (fromBuf : Int → Nat) (renderWindow : OfxRectI) (nComponents : Int)
    (srcBounds : OfxRectI) (srcRowBytes : Int) (dstBounds : OfxRectI) (dstRowBytes : Int)
    (hn : 0 ≤ nComponents) (hx : renderWindow.x1 ≤ renderWindow.x2)
    (hfuel : (renderWindow.x2 - renderWindow.x1).toNat ≤ fuel) :
    Linear.from_short_packed intToFloat65536 fuel toBuf fromBuf renderWindow nComponents srcBounds
        srcRowBytes dstBounds dstRowBytes
      = some (rowsWrite intToFloat65536 fromBuf
          (divSizeof srcRowBytes 2) (divSizeof dstRowBytes 4) (renderWindow.x1 * nComponents)
          ((renderWindow.x2 - renderWindow.x1) * nComponents)
          (renderWindow.y2 - renderWindow.y1).toNat renderWindow.y1 toBuf) :=
  packedLoops_eq _ fromBuf nComponents hn _ _ hx fuel hfuel _ _ _ _ toBuf

/-- The row body of `to_byte_packed` is the `while` loop with `x2 - x1`
pixels to go. -/
theorem to_byte_packed_row_eq {F : Type} (floatToInt256 : F → Int) (fuel : Nat)
    (fromBuf : Int → F) (renderWindow : OfxRectI) (nComponents : Int)
    (srcRowBytes : Int) (dstRowBytes : Int) (y : Int) (toBuf : Int → Nat)
    (hx : renderWindow.x1 ≤ renderWindow.x2) :
    Linear.to_byte_packed_row floatToInt256 fuel fromBuf renderWindow nComponents srcRowBytes
        dstRowBytes y toBuf
      = convertPixels (fun v => (floatToInt256 v % 256).toNat) fromBuf nComponents
          (y * divSizeof srcRowBytes 4 + renderWindow.x1 * nComponents
            + ((renderWindow.x2 - renderWindow.x1).toNat : Int) * nComponents) fuel
          (y * divSizeof srcRowBytes 4 + renderWindow.x1 * nComponents)
          (y * divSizeof dstRowBytes 1 + renderWindow.x1 * nComponents) toBuf := by
  rw [Int.toNat_of_nonneg (show 0 ≤ renderWindow.x2 - renderWindow.x1 by omega)]
  rfl

/-! ## The claims on the packed conversions -/

/-- C10 fails on the code: with `dstRowBytes = 8` (so `dstElements = 2`),
`srcRowBytes = 2`, one component and the one-pixel window `x` in `[0,1)`, `y` in
`[1,2)`, `from_byte_packed` returns, having written the converted `from[2]` to
`to[8]`, which is `to[y*dstRowBytes + x*nComponents + k]`; the element
`to[2]`, which is `to[y*dstElements + x*nComponents + k]`, keeps its old
value. -/
theorem from_byte_packed_advances_by_row_bytes {D : Type} (intToFloat256 : Nat → D)
    (fuel : Nat) (toBuf : Int → D) (fromBuf : Int → Nat) (srcBounds dstBounds : OfxRectI) :
    divSizeof 8 4 = 2 ∧ divSizeof 2 1 = 2 ∧
    Linear.from_byte_packed intToFloat256 (fuel + 1) toBuf fromBuf ⟨0, 1, 1, 2⟩ 1
        srcBounds 2 dstBounds 8
      = some (Function.update toBuf 8 (intToFloat256 (fromBuf 2))) ∧
    Function.update toBuf 8 (intToFloat256 (fromBuf 2)) 2 = toBuf 2 := by
  refine ⟨by decide, by decide, ?_, ?_⟩
  · have h : divSizeof 2 1 = 2 := by decide
    simp [Linear.from_byte_packed, forRows, convertPixels, convertComponents, h]
    exact convertPixels_done _ _ _ _ _ _ _
  · simp [Function.update]

/-- C11: under `0 <= x1 <= x2`, `nComponents >= 1`, non-negative strides and
`x2*nComponents <= dstElements`, with fuel for the `x2 - x1` pixels of a row,
`to_byte_packed` returns, and after the call
`to[y*dstElements + x*nComponents + k]` is
`floatToInt<256>(from[y*srcElements + x*nComponents + k])` modulo 256 for every
`y` in `[y1,y2)`, `x` in `[x1,x2)`, `k` in `[0,nComponents)`, where
`srcElements = srcRowBytes / 4` and `dstElements = dstRowBytes / 1`, for any
conversion function `floatToInt<256>`; every other element keeps its value. -/
theorem to_byte_packed_converts_region {F : Type} (floatToInt256 : F → Int) (fuel : Nat)
    (toBuf : Int → Nat) (fromBuf : Int → F) (renderWindow : OfxRectI) (nComponents : Int)
    (srcBounds : OfxRectI) (srcRowBytes : Int) (dstBounds : OfxRectI) (dstRowBytes : Int)
    (hx1 : 0 ≤ renderWindow.x1) (hx : renderWindow.x1 ≤ renderWindow.x2)
    (hn : 1 ≤ nComponents)
    (hs0 : 0 ≤ srcRowBytes) (hs1 : srcRowBytes < 2147483648)
    (hd0 : 0 ≤ dstRowBytes) (hd1 : dstRowBytes < 2147483648)
    (hrow : renderWindow.x2 * nComponents ≤ dstRowBytes / 1)
    (hfuel : (renderWindow.x2 - renderWindow.x1).toNat ≤ fuel) :
    ∃ res, Linear.to_byte_packed floatToInt256 fuel toBuf fromBuf renderWindow nComponents
        srcBounds srcRowBytes dstBounds dstRowBytes = some res ∧
      (∀ y x k : Int, renderWindow.y1 ≤ y → y < renderWindow.y2 →
        renderWindow.x1 ≤ x → x < renderWindow.x2 → 0 ≤ k → k < nComponents →
        res (y * (dstRowBytes / 1) + x * nComponents + k)
          = (floatToInt256 (fromBuf (y * (srcRowBytes / 4) + x * nComponents + k)) % 256).toNat) ∧
      (∀ m, ¬ inRegion renderWindow nComponents (dstRowBytes / 1) m → res m = toBuf m) := by
  refine ⟨_, to_byte_packed_eq floatToInt256 fuel toBuf fromBuf renderWindow nComponents
    srcBounds srcRowBytes dstBounds dstRowBytes (by omega) hx hfuel, ?_, ?_⟩
  · intro y x k hy1 hy2 hxa hxb hk0 hk1
    rw [divSizeof_of_nonneg srcRowBytes 4 hs0 hs1 (by norm_num),
      divSizeof_of_nonneg dstRowBytes 1 hd0 hd1 (by norm_num)]
    exact rowsWrite_region_value _ fromBuf _ _ nComponents _ _ _ _
      (rowLen_le_stride _ _ _ _ hx1 (by omega) hrow) toBuf y x k hy1 hy2 hxa hxb hk0 hk1
  · intro m hm
    rw [divSizeof_of_nonneg dstRowBytes 1 hd0 hd1 (by norm_num)]
    exact rowsWrite_region_frame _ fromBuf _ _ nComponents hn renderWindow toBuf m hm

theorem to_byte_packed_converts_region_witness :
    ∃ res, Linear.to_byte_packed (fun v : Int => v) 2 (fun _ => 0) (fun n => 100 * n)
        ⟨0, 0, 2, 2⟩ 1 ⟨0, 0, 2, 2⟩ 8 ⟨0, 0, 2, 2⟩ 2 = some res ∧
      res 3 = 44 ∧ res 4 = 0 := by
  obtain ⟨res, h1, h2, h3⟩ := to_byte_packed_converts_region (fun v : Int => v) 2 (fun _ => 0)
    (fun n => 100 * n) ⟨0, 0, 2, 2⟩ 1 ⟨0, 0, 2, 2⟩ 8 ⟨0, 0, 2, 2⟩ 2
    (by decide) (by decide) (by decide) (by decide) (by decide) (by decide) (by decide)
    (by decide) (by decide)
  refine ⟨res, h1, ?_, ?_⟩
  · have h := h2 1 1 0 (by decide) (by decide) (by decide) (by decide) (by decide) (by decide)
    norm_num at h
    exact h
  · apply h3
    rintro ⟨y, x, k, hy1, hy2, hx1, hx2, hk0, hk1, heq⟩
    simp only [Int.reduceDiv] at hy1 hy2 hx1 hx2 hk0 hk1 heq
    omega

/-- C12: under `0 <= x1 <= x2`, `nComponents >= 1`, non-negative strides and
`x2*nComponents <= dstElements`, with fuel for the `x2 - x1` pixels of a row,
`from_short_packed` returns, and after the call
`to[y*dstElements + x*nComponents + k]` is
`intToFloat<65536>(from[y*srcElements + x*nComponents + k])` for every `y` in
`[y1,y2)`, `x` in `[x1,x2)`, `k` in `[0,nComponents)`, where
`srcElements = srcRowBytes / 2` and `dstElements = dstRowBytes / 4`: the rows of
the destination are `dstElements` apart.  Every destination element whose
offset is not of that form keeps its value: exactly the region is
converted. -/
theorem from_short_packed_converts_region {D : Type} (intToFloat65536 : Nat → D) (fuel : Nat)
    (toBuf : Int → D) (fromBuf : Int → Nat) (renderWindow : OfxRectI) (nComponents : Int)
    (srcBounds : OfxRectI) (srcRowBytes : Int) (dstBounds : OfxRectI) (dstRowBytes : Int)
    (hx1 : 0 ≤ renderWindow.x1) (hx : renderWindow.x1 ≤ renderWindow.x2)
    (hn : 1 ≤ nComponents)
    (hs0 : 0 ≤ srcRowBytes) (hs1 : srcRowBytes < 2147483648)
    (hd0 : 0 ≤ dstRowBytes) (hd1 : dstRowBytes < 2147483648)
    (hrow : renderWindow.x2 * nComponents ≤ dstRowBytes / 4)
    (hfuel : (renderWindow.x2 - renderWindow.x1).toNat ≤ fuel) :
    ∃ res, Linear.from_short_packed intToFloat65536 fuel toBuf fromBuf renderWindow nComponents
        srcBounds srcRowBytes dstBounds dstRowBytes = some res ∧
      (∀ y x k : Int, renderWindow.y1 ≤ y → y < renderWindow.y2 →
        renderWindow.x1 ≤ x → x < renderWindow.x2 → 0 ≤ k → k < nComponents →
        res (y * (dstRowBytes / 4) + x * nComponents + k)
          = intToFloat65536 (fromBuf (y * (srcRowBytes / 2) + x * nComponents + k))) ∧
      (∀ m, ¬ inRegion renderWindow nComponents (dstRowBytes / 4) m → res m = toBuf m) := by
  refine ⟨_, from_short_packed_eq intToFloat65536 fuel toBuf fromBuf renderWindow nComponents
    srcBounds srcRowBytes dstBounds dstRowBytes (by omega) hx hfuel, ?_, ?_⟩
  · intro y x k hy1 hy2 hxa hxb hk0 hk1
    rw [divSizeof_of_nonneg srcRowBytes 2 hs0 hs1 (by norm_num),
      divSizeof_of_nonneg dstRowBytes 4 hd0 hd1 (by norm_num)]
    exact rowsWrite_region_value _ fromBuf _ _ nComponents _ _ _ _
      (rowLen_le_stride _ _ _ _ hx1 (by omega) hrow) toBuf y x k hy1 hy2 hxa hxb hk0 hk1
  · intro m hm
    rw [divSizeof_of_nonneg dstRowBytes 4 hd0 hd1 (by norm_num)]
    exact rowsWrite_region_frame _ fromBuf _ _ nComponents hn renderWindow toBuf m hm

theorem from_short_packed_converts_region_witness :
    ∃ res, Linear.from_short_packed (fun c : Nat => c + 7) 2 (fun _ => 0)
        (fun n => n.toNat * 10) ⟨0, 1, 2, 3⟩ 1 ⟨0, 0, 2, 3⟩ 4 ⟨0, 0, 2, 3⟩ 8 = some res ∧
      res 5 = 57 ∧ res 1 = 0 ∧ res 6 = 0 := by
  obtain ⟨res, h1, h2, h3⟩ := from_short_packed_converts_region (fun c : Nat => c + 7) 2
    (fun _ => 0) (fun n => n.toNat * 10) ⟨0, 1, 2, 3⟩ 1 ⟨0, 0, 2, 3⟩ 4 ⟨0, 0, 2, 3⟩ 8
    (by decide) (by decide) (by decide) (by decide) (by decide) (by decide) (by decide)
    (by decide) (by decide)
  refine ⟨res, h1, ?_, ?_, ?_⟩
  · have h := h2 2 1 0 (by decide) (by decide) (by decide) (by decide) (by decide) (by decide)
    norm_num at h
    exact h
  · apply h3
    rintro ⟨y, x, k, hy1, hy2, hx1, hx2, hk0, hk1, heq⟩
    simp only [Int.reduceDiv] at hy1 hy2 hx1 hx2 hk0 hk1 heq
    omega
  · apply h3
    rintro ⟨y, x, k, hy1, hy2, hx1, hx2, hk0, hk1, heq⟩
    simp only [Int.reduceDiv] at hy1 hy2 hx1 hx2 hk0 hk1 heq
    omega

/-- C13: under `0 <= x1 <= x2`, `nComponents >= 1` and non-negative strides,
with fuel for the `x2 - x1` pixels of a row, `to_short_packed` returns, and
every destination element whose offset is not `y*dstElements + x*nComponents +
k` for a `y` in `[y1,y2)`, an `x` in `[x1,x2)` and a `k` in `[0,nComponents)`
holds the same value after the call as before (`dstElements = dstRowBytes /
2`).  When moreover `y1 <= y2` and the rows do not overlap
(`x2*nComponents <= dstElements`), the offsets of that form are a set of
exactly `(x2-x1)*(y2-y1)*nComponents` elements, each of them is assigned the
conversion, modulo 65536, of the source element of the same row, column and
component, and on a destination filled with the value 65536, which no
`unsigned short` holds, the elements that differ after the call are exactly
those.  The source is the read-only argument `fromBuf`: the call returns a
destination buffer only. -/
theorem to_short_packed_region_local {F : Type} (floatToInt65536 : F → Int) (fuel : Nat)
    (toBuf : Int → Nat) (fromBuf : Int → F) (renderWindow : OfxRectI) (nComponents : Int)
    (srcBounds : OfxRectI) (srcRowBytes : Int) (dstBounds : OfxRectI) (dstRowBytes : Int)
    (hx1 : 0 ≤ renderWindow.x1) (hx : renderWindow.x1 ≤ renderWindow.x2)
    (hn : 1 ≤ nComponents)
    (hs0 : 0 ≤ srcRowBytes) (hs1 : srcRowBytes < 2147483648)
    (hd0 : 0 ≤ dstRowBytes) (hd1 : dstRowBytes < 2147483648)
    (hfuel : (renderWindow.x2 - renderWindow.x1).toNat ≤ fuel) :
    (∃ res, Linear.to_short_packed floatToInt65536 fuel toBuf fromBuf renderWindow nComponents
        srcBounds srcRowBytes dstBounds dstRowBytes = some res ∧
      (∀ m, ¬ inRegion renderWindow nComponents (dstRowBytes / 2) m → res m = toBuf m) ∧
      (renderWindow.y1 ≤ renderWindow.y2 → renderWindow.x2 * nComponents ≤ dstRowBytes / 2 →
        ∀ y x k : Int, renderWindow.y1 ≤ y → y < renderWindow.y2 →
          renderWindow.x1 ≤ x → x < renderWindow.x2 → 0 ≤ k → k < nComponents →
          res (y * (dstRowBytes / 2) + x * nComponents + k)
            = (floatToInt65536 (fromBuf (y * (srcRowBytes / 4) + x * nComponents + k))
                % 65536).toNat)) ∧
    (renderWindow.y1 ≤ renderWindow.y2 → renderWindow.x2 * nComponents ≤ dstRowBytes / 2 →
      ∃ written : Finset Int,
        (written.card : Int)
          = (renderWindow.x2 - renderWindow.x1) * (renderWindow.y2 - renderWindow.y1)
              * nComponents ∧
        (∀ m, m ∈ written ↔ inRegion renderWindow nComponents (dstRowBytes / 2) m) ∧
        ∃ marked, Linear.to_short_packed floatToInt65536 fuel (fun _ => 65536) fromBuf
            renderWindow nComponents srcBounds srcRowBytes dstBounds dstRowBytes = some marked ∧
          ∀ m, m ∈ written ↔ marked m ≠ 65536) := by
  have hdst := divSizeof_of_nonneg dstRowBytes 2 hd0 hd1 (by norm_num)
  have hsrc := divSizeof_of_nonneg srcRowBytes 4 hs0 hs1 (by norm_num)
  have hframe : ∀ (tb : Int → Nat) (m : Int),
      ¬ inRegion renderWindow nComponents (dstRowBytes / 2) m →
      rowsWrite (fun v => (floatToInt65536 v % 65536).toNat) fromBuf
        (divSizeof srcRowBytes 4) (divSizeof dstRowBytes 2) (renderWindow.x1 * nComponents)
        ((renderWindow.x2 - renderWindow.x1) * nComponents)
        (renderWindow.y2 - renderWindow.y1).toNat renderWindow.y1 tb m = tb m := by
    intro tb m hm
    rw [hdst]
    exact rowsWrite_region_frame _ fromBuf _ _ nComponents hn renderWindow tb m hm
  have hvalue : renderWindow.x2 * nComponents ≤ dstRowBytes / 2 →
      ∀ (tb : Int → Nat) (y x k : Int), renderWindow.y1 ≤ y → y < renderWindow.y2 →
      renderWindow.x1 ≤ x → x < renderWindow.x2 → 0 ≤ k → k < nComponents →
      rowsWrite (fun v => (floatToInt65536 v % 65536).toNat) fromBuf
        (divSizeof srcRowBytes 4) (divSizeof dstRowBytes 2) (renderWindow.x1 * nComponents)
        ((renderWindow.x2 - renderWindow.x1) * nComponents)
        (renderWindow.y2 - renderWindow.y1).toNat renderWindow.y1 tb
        (y * (dstRowBytes / 2) + x * nComponents + k)
        = (floatToInt65536 (fromBuf (y * (srcRowBytes / 4) + x * nComponents + k))
            % 65536).toNat := by
    intro hrow tb y x k hy1 hy2 hxa hxb hk0 hk1
    rw [hsrc, hdst]
    exact rowsWrite_region_value _ fromBuf _ _ nComponents _ _ _ _
      (rowLen_le_stride _ _ _ _ hx1 (by omega) hrow) tb y x k hy1 hy2 hxa hxb hk0 hk1
  refine ⟨⟨_, to_short_packed_eq floatToInt65536 fuel toBuf fromBuf renderWindow nComponents
    srcBounds srcRowBytes dstBounds dstRowBytes (by omega) hx hfuel, hframe toBuf,
    fun _ hrow => hvalue hrow toBuf⟩, ?_⟩
  intro hy hrow
  have hlen := rowLen_le_stride _ _ _ _ hx1 (show 0 ≤ nComponents by omega) hrow
  refine ⟨regionOffsets renderWindow.y1 renderWindow.y2 (dstRowBytes / 2)
    (renderWindow.x1 * nComponents) ((renderWindow.x2 - renderWindow.x1) * nComponents), ?_,
    mem_regionOffsets_iff renderWindow nComponents (dstRowBytes / 2) hn, _,
    to_short_packed_eq floatToInt65536 fuel (fun _ => 65536) fromBuf renderWindow nComponents
      srcBounds srcRowBytes dstBounds dstRowBytes (by omega) hx hfuel, ?_⟩
  · rw [card_regionOffsets _ _ _ _ _ hlen]
    exact region_count _ _ _ _ _ hx hy (by omega)
  · intro m
    rw [mem_regionOffsets_iff renderWindow nComponents (dstRowBytes / 2) hn]
    constructor
    · rintro ⟨y, x, k, hy1, hy2, hxa, hxb, hk0, hk1, rfl⟩
      rw [hvalue hrow (fun _ => 65536) y x k hy1 hy2 hxa hxb hk0 hk1]
      have hlt := Int.emod_lt_of_pos
        (floatToInt65536 (fromBuf (y * (srcRowBytes / 4) + x * nComponents + k)))
        (show (0 : Int) < 65536 by norm_num)
      omega
    · intro hne
      by_contra hnot
      exact hne (hframe (fun _ => 65536) m hnot)

theorem to_short_packed_region_local_witness :
    (∃ res, Linear.to_short_packed (fun v : Int => v) 2 (fun _ => 9) (fun n => n)
        ⟨0, 0, 2, 2⟩ 1 ⟨0, 0, 2, 2⟩ 8 ⟨0, 0, 2, 2⟩ 4 = some res ∧ res 4 = 9) ∧
    (∃ written : Finset Int, (written.card : Int) = 4 ∧ (3 : Int) ∈ written ∧
      (4 : Int) ∉ written) := by
  obtain ⟨⟨res, h1, h2, -⟩, h3⟩ := to_short_packed_region_local (fun v : Int => v) 2
    (fun _ => 9) (fun n => n) ⟨0, 0, 2, 2⟩ 1 ⟨0, 0, 2, 2⟩ 8 ⟨0, 0, 2, 2⟩ 4
    (by decide) (by decide) (by decide) (by decide) (by decide) (by decide) (by decide)
    (by decide)
  have hout : ¬ inRegion ⟨0, 0, 2, 2⟩ 1 (4 / 2) 4 := by
    rintro ⟨y, x, k, hy1, hy2, hx1, hx2, hk0, hk1, heq⟩
    simp only [Int.reduceDiv] at hy1 hy2 hx1 hx2 hk0 hk1 heq
    omega
  refine ⟨⟨res, h1, h2 4 hout⟩, ?_⟩
  obtain ⟨written, hc, hmem, -⟩ := h3 (by decide) (by decide)
  refine ⟨written, ?_, ?_, ?_⟩
  · rw [hc]
    norm_num
  · rw [hmem]
    exact ⟨1, 1, 0, by decide, by decide, by decide, by decide, by decide, by decide,
      by decide⟩
  · rw [hmem]
    exact hout

/-- C18: each of the four packed conversions gives the same result for any two
pairs of `srcBounds` and `dstBounds`, the other arguments being equal; and,
with `0 <= nComponents`, `x1 <= x2` and fuel for the pixels of a row, each
returns the buffer in which row `y` of the window is the block that starts at
the destination offset `y*stride + x1*nComponents` and is read from the source
offset `y*srcElements + x1*nComponents`, the bounds taking no part (`stride`
is the destination's `dstElements`, and `dstRowBytes` in `from_byte_packed`). -/
theorem packed_conversions_ignore_bounds {F D : Type} (floatToInt256 floatToInt65536 : F → Int)
    (intToFloat256 intToFloat65536 : Nat → D) (fuel : Nat) (toInts : Int → Nat)
    (fromFloats : Int → F) (toFloats : Int → D) (fromInts : Int → Nat)
    (renderWindow : OfxRectI) (nComponents : Int) (srcRowBytes dstRowBytes : Int)
    (srcBounds dstBounds srcBounds2 dstBounds2 : OfxRectI) :
    (Linear.to_byte_packed floatToInt256 fuel toInts fromFloats renderWindow nComponents
        srcBounds srcRowBytes dstBounds dstRowBytes
      = Linear.to_byte_packed floatToInt256 fuel toInts fromFloats renderWindow nComponents
        srcBounds2 srcRowBytes dstBounds2 dstRowBytes ∧
    Linear.to_short_packed floatToInt65536 fuel toInts fromFloats renderWindow nComponents
        srcBounds srcRowBytes dstBounds dstRowBytes
      = Linear.to_short_packed floatToInt65536 fuel toInts fromFloats renderWindow nComponents
        srcBounds2 srcRowBytes dstBounds2 dstRowBytes ∧
    Linear.from_byte_packed intToFloat256 fuel toFloats fromInts renderWindow nComponents
        srcBounds srcRowBytes dstBounds dstRowBytes
      = Linear.from_byte_packed intToFloat256 fuel toFloats fromInts renderWindow nComponents
        srcBounds2 srcRowBytes dstBounds2 dstRowBytes ∧
    Linear.from_short_packed intToFloat65536 fuel toFloats fromInts renderWindow nComponents
        srcBounds srcRowBytes dstBounds dstRowBytes
      = Linear.from_short_packed intToFloat65536 fuel toFloats fromInts renderWindow nComponents
        srcBounds2 srcRowBytes dstBounds2 dstRowBytes) ∧
    (0 ≤ nComponents → renderWindow.x1 ≤ renderWindow.x2 →
      (renderWindow.x2 - renderWindow.x1).toNat ≤ fuel →
      Linear.to_byte_packed floatToInt256 fuel toInts fromFloats renderWindow nComponents
          srcBounds srcRowBytes dstBounds dstRowBytes
        = some (rowsWrite (fun v => (floatToInt256 v % 256).toNat) fromFloats
            (divSizeof srcRowBytes 4) (divSizeof dstRowBytes 1) (renderWindow.x1 * nComponents)
            ((renderWindow.x2 - renderWindow.x1) * nComponents)
            (renderWindow.y2 - renderWindow.y1).toNat renderWindow.y1 toInts) ∧
      Linear.to_short_packed floatToInt65536 fuel toInts fromFloats renderWindow nComponents
          srcBounds srcRowBytes dstBounds dstRowBytes
        = some (rowsWrite (fun v => (floatToInt65536 v % 65536).toNat) fromFloats
            (divSizeof srcRowBytes 4) (divSizeof dstRowBytes 2) (renderWindow.x1 * nComponents)
            ((renderWindow.x2 - renderWindow.x1) * nComponents)
            (renderWindow.y2 - renderWindow.y1).toNat renderWindow.y1 toInts) ∧
      Linear.from_byte_packed intToFloat256 fuel toFloats fromInts renderWindow nComponents
          srcBounds srcRowBytes dstBounds dstRowBytes
        = some (rowsWrite intToFloat256 fromInts
            (divSizeof srcRowBytes 1) dstRowBytes (renderWindow.x1 * nComponents)
            ((renderWindow.x2 - renderWindow.x1) * nComponents)
            (renderWindow.y2 - renderWindow.y1).toNat renderWindow.y1 toFloats) ∧
      Linear.from_short_packed intToFloat65536 fuel toFloats fromInts renderWindow nComponents
          srcBounds srcRowBytes dstBounds dstRowBytes
        = some (rowsWrite intToFloat65536 fromInts
            (divSizeof srcRowBytes 2) (divSizeof dstRowBytes 4) (renderWindow.x1 * nComponents)
            ((renderWindow.x2 - renderWindow.x1) * nComponents)
            (renderWindow.y2 - renderWindow.y1).toNat renderWindow.y1 toFloats)) :=
  ⟨⟨rfl, rfl, rfl, rfl⟩, fun hn hx hfuel =>
    ⟨to_byte_packed_eq _ _ _ _ _ _ _ _ _ _ hn hx hfuel,
      to_short_packed_eq _ _ _ _ _ _ _ _ _ _ hn hx hfuel,
      from_byte_packed_eq _ _ _ _ _ _ _ _ _ _ hn hx hfuel,
      from_short_packed_eq _ _ _ _ _ _ _ _ _ _ hn hx hfuel⟩⟩

theorem packed_conversions_ignore_bounds_witness :
    Linear.to_short_packed (fun v : Int => v) 1 (fun _ => 0) (fun n => n) ⟨5, 7, 6, 8⟩ 3
        ⟨5, 7, 6, 8⟩ 12 ⟨5, 7, 6, 8⟩ 6
      = some (rowsWrite (fun v : Int => (v % 65536).toNat) (fun n => n)
          (divSizeof 12 4) (divSizeof 6 2) (5 * 3) ((6 - 5) * 3) (8 - 7 : Int).toNat 7
          (fun _ => 0)) ∧
    divSizeof 6 2 = 3 ∧ (7 : Int) * 3 + 5 * 3 = 36 :=
  ⟨((packed_conversions_ignore_bounds (fun v : Int => v) (fun v : Int => v)
      (fun c : Nat => c) (fun c : Nat => c) 1 (fun _ => 0) (fun n => n) (fun _ => 0)
      (fun n => n.toNat) ⟨5, 7, 6, 8⟩ 3 12 6 ⟨5, 7, 6, 8⟩ ⟨5, 7, 6, 8⟩ ⟨0, 0, 1, 1⟩
      ⟨0, 0, 1, 1⟩).2 (by decide) (by decide) (by decide)).2.1, by decide, by decide⟩

/-- C19: for a window with `x1 <= x2` and `nComponents >= 0`, the `while` loop
of every row of `to_byte_packed` terminates: it returns with fuel for
`x2 - x1` iterations.  With `nComponents >= 1` it does not return with less,
so it performs exactly `x2 - x1` iterations; with `nComponents == 0` or
`x1 == x2` it returns without any iteration and leaves the buffer as it was.
The whole call returns with that fuel, and when `y2 <= y1` it returns the
destination as it was, whatever the fuel. -/
theorem to_byte_packed_row_loop_terminates {F : Type} (floatToInt256 : F → Int)
    (toBuf : Int → Nat) (fromBuf : Int → F) (renderWindow : OfxRectI) (nComponents : Int)
    (srcBounds : OfxRectI) (srcRowBytes : Int) (dstBounds : OfxRectI) (dstRowBytes : Int)
    (hx : renderWindow.x1 ≤ renderWindow.x2) (hn : 0 ≤ nComponents) :
    (∀ fuel, Linear.to_byte_packed floatToInt256 fuel toBuf fromBuf renderWindow nComponents
        srcBounds srcRowBytes dstBounds dstRowBytes
      = forRows (Linear.to_byte_packed_row floatToInt256 fuel fromBuf renderWindow nComponents
          srcRowBytes dstRowBytes)
          (renderWindow.y2 - renderWindow.y1).toNat renderWindow.y1 toBuf) ∧
    (∀ fuel y tb, (renderWindow.x2 - renderWindow.x1).toNat ≤ fuel →
      (Linear.to_byte_packed_row floatToInt256 fuel fromBuf renderWindow nComponents
        srcRowBytes dstRowBytes y tb).isSome = true) ∧
    (1 ≤ nComponents → ∀ fuel y tb, fuel < (renderWindow.x2 - renderWindow.x1).toNat →
      Linear.to_byte_packed_row floatToInt256 fuel fromBuf renderWindow nComponents
        srcRowBytes dstRowBytes y tb = none) ∧
    (nComponents = 0 ∨ renderWindow.x1 = renderWindow.x2 → ∀ y tb,
      Linear.to_byte_packed_row floatToInt256 0 fromBuf renderWindow nComponents
        srcRowBytes dstRowBytes y tb = some tb) ∧
    (∀ fuel, (renderWindow.x2 - renderWindow.x1).toNat ≤ fuel →
      (Linear.to_byte_packed floatToInt256 fuel toBuf fromBuf renderWindow nComponents
        srcBounds srcRowBytes dstBounds dstRowBytes).isSome = true) ∧
    (renderWindow.y2 ≤ renderWindow.y1 → ∀ fuel,
      Linear.to_byte_packed floatToInt256 fuel toBuf fromBuf renderWindow nComponents
        srcBounds srcRowBytes dstBounds dstRowBytes = some toBuf) := by
  refine ⟨fun _ => rfl, ?_, ?_, ?_, ?_, ?_⟩
  · intro fuel y tb hfuel
    rw [to_byte_packed_row_eq _ _ _ _ _ _ _ _ _ hx,
      convertPixels_eq _ fromBuf nComponents hn _ fuel hfuel]
    rfl
  · intro hn1 fuel y tb hfuel
    rw [to_byte_packed_row_eq _ _ _ _ _ _ _ _ _ hx]
    exact convertPixels_none _ fromBuf nComponents hn1 _ fuel hfuel _ _ _
  · intro h y tb
    have hz : (renderWindow.x2 - renderWindow.x1) * nComponents = 0 := by
      rcases h with h | h
      · rw [h, mul_zero]
      · rw [h, sub_self, zero_mul]
    have hrow : Linear.to_byte_packed_row floatToInt256 0 fromBuf renderWindow nComponents
        srcRowBytes dstRowBytes y tb
        = convertPixels (fun v => (floatToInt256 v % 256).toNat) fromBuf nComponents
          (y * divSizeof srcRowBytes 4 + renderWindow.x1 * nComponents
            + (renderWindow.x2 - renderWindow.x1) * nComponents) 0
          (y * divSizeof srcRowBytes 4 + renderWindow.x1 * nComponents)
          (y * divSizeof dstRowBytes 1 + renderWindow.x1 * nComponents) tb := rfl
    rw [hrow, hz, add_zero, convertPixels_done]
  · intro fuel hfuel
    rw [to_byte_packed_eq floatToInt256 fuel toBuf fromBuf renderWindow nComponents srcBounds
      srcRowBytes dstBounds dstRowBytes hn hx hfuel]
    rfl
  · intro hy fuel
    have h0 : (renderWindow.y2 - renderWindow.y1).toNat = 0 :=
      Int.toNat_eq_zero.mpr (by omega)
    rw [to_byte_packed_eq_forRows, h0]
    rfl

theorem to_byte_packed_row_loop_terminates_witness :
    (Linear.to_byte_packed_row (fun v : Int => v) 3 (fun n => n) ⟨1, 0, 4, 2⟩ 2 40 10 1
        (fun _ => 0)).isSome = true ∧
    Linear.to_byte_packed_row (fun v : Int => v) 2 (fun n => n) ⟨1, 0, 4, 2⟩ 2 40 10 1
        (fun _ => 0) = none :=
  ⟨(to_byte_packed_row_loop_terminates (fun v : Int => v) (fun _ => 0) (fun n => n)
      ⟨1, 0, 4, 2⟩ 2 ⟨0, 0, 5, 2⟩ 40 ⟨0, 0, 5, 2⟩ 10 (by decide) (by decide)).2.1 3 1
      (fun _ => 0) (by decide),
    (to_byte_packed_row_loop_terminates (fun v : Int => v) (fun _ => 0) (fun n => n)
      ⟨1, 0, 4, 2⟩ 2 ⟨0, 0, 5, 2⟩ 40 ⟨0, 0, 5, 2⟩ 10 (by decide) (by decide)).2.2.1
      (by decide) 2 1 (fun _ => 0) (by decide)⟩

/-! ## Lemmas on rounding -/

theorem log2Fuel_eq (fuel n : Nat) (h : n ≤ fuel) : log2Fuel fuel n = Nat.log2 n := by
  induction fuel generalizing n with
  | zero =>
    have : n = 0 := by omega
    subst this
    simp [log2Fuel, Nat.log2_zero]
  | succ fuel ih =>
    unfold log2Fuel
    rw [Nat.log2]
    by_cases h2 : n < 2
    · rw [if_pos h2, if_neg (by omega)]
    · rw [if_neg h2, if_pos (by omega), ih (n / 2) (by omega)]

theorem quantumExp_eq (p q : Nat) : quantumExp p q = Nat.log2 (p / q) - 23 := by
  unfold quantumExp
  rw [log2Fuel_eq _ _ (le_refl _)]

theorem two_pow_pos (k : Nat) : 0 < 2 ^ k := Nat.pos_pow_of_pos _ (by norm_num)

/-- The magnitude of the pattern `k * 2^23 + m` of a mantissa `m` at quantum
exponent `k` is `m * 2^k` units. -/
theorem floatMagnitude_pattern (k m : Nat)
    (hm : (k = 0 ∧ m ≤ 16777216) ∨ (1 ≤ k ∧ 8388608 ≤ m ∧ m ≤ 16777216))
    (hlt : k * 8388608 + m < 2147483648) :
    floatMagnitude (k * 8388608 + m) = m * 2 ^ k := by
  unfold floatMagnitude magnitudeOf expField fracField
  by_cases h1 : m < 8388608
  · have hk : k = 0 := by omega
    subst hk
    have he : (0 * 8388608 + m) / 8388608 % 256 = 0 := by omega
    rw [if_pos he]
    simp only [pow_zero, mul_one]
    omega
  · by_cases h2 : m = 16777216
    · subst h2
      have he : (k * 8388608 + 16777216) / 8388608 % 256 = k + 2 := by omega
      have hf : (k * 8388608 + 16777216) % 8388608 = 0 := by omega
      rw [he, hf, if_neg (by omega)]
      have hk : k + 2 - 1 = k + 1 := by omega
      rw [hk, pow_succ]
      ring
    · have he : (k * 8388608 + m) / 8388608 % 256 = k + 1 := by omega
      have hf : (k * 8388608 + m) % 8388608 = m - 8388608 := by omega
      rw [he, hf, if_neg (by omega)]
      have hk : k + 1 - 1 = k := by omega
      have hm2 : 8388608 + (m - 8388608) = m := by omega
      rw [hk, hm2]

/-- Below `2^(24+k)`: the floor of the quotient fits the quantum exponent. -/
theorem quantumExp_lt (p q : Nat) : p / q < 2 ^ (24 + quantumExp p q) := by
  rw [quantumExp_eq]
  have h1 : p / q < 2 ^ ((p / q).log2 + 1) := Nat.lt_log2_self
  have h2 : (p / q).log2 + 1 ≤ 24 + ((p / q).log2 - 23) := by omega
  exact Nat.lt_of_lt_of_le h1 (Nat.pow_le_pow_right (by norm_num) h2)

/-- From quantum exponent 1 on the floor of the quotient is at least
`2^(23+k)`. -/
theorem quantumExp_ge (p q : Nat) (hk : 1 ≤ quantumExp p q) :
    2 ^ (23 + quantumExp p q) ≤ p / q := by
  rw [quantumExp_eq] at hk ⊢
  have hne : p / q ≠ 0 := by
    intro h0
    rw [h0, Nat.log2_zero] at hk
    omega
  have h1 : 23 + ((p / q).log2 - 23) = (p / q).log2 := by omega
  rw [h1]
  exact Nat.log2_self_le hne

/-- The mantissa before rounding is below `2^24`. -/
theorem mantissa_lt (p q : Nat) : p / (q * 2 ^ quantumExp p q) < 16777216 := by
  rw [← Nat.div_div_eq_div_mul]
  apply Nat.div_lt_of_lt_mul
  have h := quantumExp_lt p q
  rw [pow_add] at h
  have : (2 : Nat) ^ 24 = 16777216 := by norm_num
  rw [this] at h
  rw [Nat.mul_comm]
  exact h

/-- From quantum exponent 1 on the mantissa before rounding is at least
`2^23`. -/
theorem mantissa_ge (p q : Nat) (hk : 1 ≤ quantumExp p q) :
    8388608 ≤ p / (q * 2 ^ quantumExp p q) := by
  rw [← Nat.div_div_eq_div_mul, Nat.le_div_iff_mul_le (two_pow_pos _)]
  have h := quantumExp_ge p q hk
  rw [pow_add] at h
  have : (2 : Nat) ^ 23 = 8388608 := by norm_num
  rw [this] at h
  exact h

theorem roundMantissa_ge (p den : Nat) : p / den ≤ roundMantissa p den := by
  unfold roundMantissa
  split
  · exact le_refl _
  · split
    · omega
    · split <;> omega

theorem roundMantissa_le (p den : Nat) : roundMantissa p den ≤ p / den + 1 := by
  unfold roundMantissa
  split
  · omega
  · split
    · omega
    · split <;> omega

/-- A quotient that is a whole number is its own rounding. -/
theorem roundMantissa_exact (m den : Nat) (hden : 0 < den) :
    roundMantissa (m * den) den = m := by
  unfold roundMantissa
  rw [Nat.mul_mod_left, Nat.mul_div_cancel _ hden, if_pos (by omega)]

/-- The floor of a quotient grows with the quotient. -/
theorem div_le_div_of_cross (p1 q1 p2 q2 : Nat) (hq1 : 0 < q1) (hq2 : 0 < q2)
    (h : p1 * q2 ≤ p2 * q1) : p1 / q1 ≤ p2 / q2 := by
  rw [Nat.le_div_iff_mul_le hq2]
  have h1 : p1 / q1 * q1 ≤ p1 := Nat.div_mul_le_self p1 q1
  have h2 : p1 / q1 * q2 * q1 ≤ p2 * q1 := by
    calc p1 / q1 * q2 * q1 = p1 / q1 * q1 * q2 := by ring
      _ ≤ p1 * q2 := Nat.mul_le_mul_right _ h1
      _ ≤ p2 * q1 := h
  exact Nat.le_of_mul_le_mul_right h2 hq1

/-- Rounding to the nearest whole number, ties to even, is monotone. -/
theorem roundMantissa_mono (p1 d1 p2 d2 : Nat) (hd1 : 0 < d1) (hd2 : 0 < d2)
    (h : p1 * d2 ≤ p2 * d1) : roundMantissa p1 d1 ≤ roundMantissa p2 d2 := by
  have hm := div_le_div_of_cross p1 d1 p2 d2 hd1 hd2 h
  rcases Nat.eq_or_lt_of_le hm with heq | hlt
  · -- same floor: compare the remainders
    have e1 : d1 * (p1 / d1) + p1 % d1 = p1 := Nat.div_add_mod p1 d1
    have e2 : d2 * (p2 / d2) + p2 % d2 = p2 := Nat.div_add_mod p2 d2
    have hr : p1 % d1 * d2 ≤ p2 % d2 * d1 := by
      have h3 : (d1 * (p1 / d1) + p1 % d1) * d2 ≤ (d2 * (p2 / d2) + p2 % d2) * d1 := by
        rw [e1, e2]; exact h
      rw [← heq] at h3
      have h4 : (d1 * (p1 / d1) + p1 % d1) * d2 = d1 * d2 * (p1 / d1) + p1 % d1 * d2 := by ring
      have h5 : (d2 * (p1 / d1) + p2 % d2) * d1 = d1 * d2 * (p1 / d1) + p2 % d2 * d1 := by ring
      rw [h4, h5] at h3
      omega
    unfold roundMantissa
    rw [← heq]
    by_cases a1 : 2 * (p1 % d1) < d1
    · rw [if_pos a1]
      split
      · exact le_refl _
      · split
        · omega
        · split <;> omega
    · rw [if_neg a1]
      have hge2 : d2 ≤ 2 * (p2 % d2) := by
        by_contra hc
        have hc : 2 * (p2 % d2) < d2 := by omega
        have h6 : 2 * (p2 % d2) * d1 < d2 * d1 := Nat.mul_lt_mul_of_pos_right hc hd1
        have h7 : d1 * d2 ≤ 2 * (p1 % d1) * d2 := Nat.mul_le_mul_right _ (by omega)
        have h8 : 2 * (p1 % d1) * d2 = 2 * (p1 % d1 * d2) := by ring
        have h9 : 2 * (p2 % d2) * d1 = 2 * (p2 % d2 * d1) := by ring
        have h10 : d2 * d1 = d1 * d2 := by ring
        omega
      rw [if_neg (show ¬ (2 * (p2 % d2) < d2) by omega)]
      by_cases a2 : d1 < 2 * (p1 % d1)
      · rw [if_pos a2]
        have hgt2 : d2 < 2 * (p2 % d2) := by
          by_contra hc
          have hc : 2 * (p2 % d2) = d2 := by omega
          have h6 : d1 * d2 < 2 * (p1 % d1) * d2 := Nat.mul_lt_mul_of_pos_right a2 hd2
          have h8 : 2 * (p1 % d1) * d2 = 2 * (p1 % d1 * d2) := by ring
          have h9 : 2 * (p2 % d2 * d1) = d2 * d1 := by
            have : 2 * (p2 % d2 * d1) = 2 * (p2 % d2) * d1 := by ring
            rw [this, hc]
          have h10 : d2 * d1 = d1 * d2 := by ring
          omega
        rw [if_pos hgt2]
      · rw [if_neg a2]
        split
        · split
          · omega
          · omega
        · split
          · omega
          · omega
  · have h1 := roundMantissa_le p1 d1
    have h2 := roundMantissa_ge p2 d2
    omega

theorem log2_mono (a b : Nat) (h : a ≤ b) : a.log2 ≤ b.log2 := by
  by_cases ha : a = 0
  · rw [ha, Nat.log2_zero]; exact Nat.zero_le _
  · have hb : b ≠ 0 := by omega
    rw [Nat.le_log2 hb]
    exact le_trans (Nat.log2_self_le ha) h

theorem roundMag_le_inf (p q : Nat) : roundMag p q ≤ 0x7f800000 := by
  unfold roundMag
  exact min_le_right _ _

/-- Rounding to the nearest float is monotone, as a map to the patterns. -/
theorem roundMag_mono (p1 q1 p2 q2 : Nat) (hq1 : 0 < q1) (hq2 : 0 < q2)
    (h : p1 * q2 ≤ p2 * q1) : roundMag p1 q1 ≤ roundMag p2 q2 := by
  have hy := div_le_div_of_cross p1 q1 p2 q2 hq1 hq2 h
  have hk : quantumExp p1 q1 ≤ quantumExp p2 q2 := by
    rw [quantumExp_eq, quantumExp_eq]
    have := log2_mono _ _ hy
    omega
  unfold roundMag
  apply min_le_min_right
  rcases Nat.eq_or_lt_of_le hk with heq | hlt
  · rw [← heq]
    apply Nat.add_le_add_left
    apply roundMantissa_mono _ _ _ _ (Nat.mul_pos hq1 (two_pow_pos _))
      (Nat.mul_pos hq2 (two_pow_pos _))
    calc p1 * (q2 * 2 ^ quantumExp p1 q1) = p1 * q2 * 2 ^ quantumExp p1 q1 := by ring
      _ ≤ p2 * q1 * 2 ^ quantumExp p1 q1 := Nat.mul_le_mul_right _ h
      _ = p2 * (q1 * 2 ^ quantumExp p1 q1) := by ring
  · have h1 := roundMantissa_le p1 (q1 * 2 ^ quantumExp p1 q1)
    have h2 := mantissa_lt p1 q1
    have h3 := roundMantissa_ge p2 (q2 * 2 ^ quantumExp p2 q2)
    have h4 := mantissa_ge p2 q2 (by omega)
    have h5 : (quantumExp p1 q1 + 1) * 8388608 ≤ quantumExp p2 q2 * 8388608 :=
      Nat.mul_le_mul_right _ hlt
    omega

/-- The rounded mantissa is within the range of its quantum exponent. -/
theorem roundMantissa_range (p q : Nat) :
    (quantumExp p q = 0 ∧ roundMantissa p (q * 2 ^ quantumExp p q) ≤ 16777216) ∨
    (1 ≤ quantumExp p q ∧ 8388608 ≤ roundMantissa p (q * 2 ^ quantumExp p q) ∧
      roundMantissa p (q * 2 ^ quantumExp p q) ≤ 16777216) := by
  have h1 := roundMantissa_le p (q * 2 ^ quantumExp p q)
  have h2 := mantissa_lt p q
  have h3 := roundMantissa_ge p (q * 2 ^ quantumExp p q)
  by_cases hk : quantumExp p q = 0
  · left; exact ⟨hk, by omega⟩
  · right
    have h4 := mantissa_ge p q (by omega)
    exact ⟨by omega, by omega, by omega⟩

/-- The magnitude of the rounded float, when the rounding does not overflow:
the rounded mantissa times the quantum. -/
theorem floatMagnitude_roundMag (p q : Nat)
    (h : quantumExp p q * 8388608 + roundMantissa p (q * 2 ^ quantumExp p q) < 0x7f800000) :
    floatMagnitude (roundMag p q)
      = roundMantissa p (q * 2 ^ quantumExp p q) * 2 ^ quantumExp p q := by
  unfold roundMag
  rw [min_eq_left (Nat.le_of_lt h)]
  exact floatMagnitude_pattern _ _ (roundMantissa_range p q) (by omega)

/-- A float that is not a NaN or an infinity is the rounding of its own
magnitude. -/
theorem roundMag_exact (n : Nat) (hn : n < 0x7f800000) : roundMag (floatMagnitude n) 1 = n := by
  have hpat : n = n / 8388608 * 8388608 + n % 8388608 := by omega
  by_cases h24 : n < 16777216
  · -- exponent field 0 or 1: the magnitude is the pattern
    have hmag : floatMagnitude n = n := by
      have := floatMagnitude_pattern 0 n (Or.inl ⟨rfl, by omega⟩) (by omega)
      simpa using this
    have hk : quantumExp n 1 = 0 := by
      rw [quantumExp_eq, Nat.div_one]
      by_cases h0 : n = 0
      · rw [h0, Nat.log2_zero]
      · have : n.log2 < 24 := (Nat.log2_lt h0).2 (by norm_num; omega)
        omega
    rw [hmag]
    unfold roundMag
    rw [hk]
    have hr : roundMantissa n (1 * 2 ^ 0) = n := by
      have := roundMantissa_exact n 1 (by norm_num)
      simpa using this
    rw [hr]
    simp only [zero_mul, zero_add]
    exact min_eq_left (by omega)
  · obtain ⟨e, he⟩ : ∃ e, e = n / 8388608 - 1 := ⟨_, rfl⟩
    obtain ⟨m, hm⟩ : ∃ m, m = 8388608 + n % 8388608 := ⟨_, rfl⟩
    have hne : n = e * 8388608 + m := by omega
    have hmag : floatMagnitude n = m * 2 ^ e := by
      rw [hne]
      exact floatMagnitude_pattern e m (Or.inr ⟨by omega, by omega, by omega⟩) (by omega)
    have hlog : (m * 2 ^ e).log2 = 23 + e := by
      have hne0 : m * 2 ^ e ≠ 0 := Nat.ne_of_gt (Nat.mul_pos (by omega) (two_pow_pos _))
      apply Nat.le_antisymm
      · have : (m * 2 ^ e).log2 < 24 + e := by
          rw [Nat.log2_lt hne0, pow_add]
          exact Nat.mul_lt_mul_of_pos_right (by norm_num; omega) (two_pow_pos _)
        omega
      · rw [Nat.le_log2 hne0, pow_add]
        exact Nat.mul_le_mul_right _ (by norm_num; omega)
    have hk : quantumExp (m * 2 ^ e) 1 = e := by
      rw [quantumExp_eq, Nat.div_one, hlog]
      omega
    rw [hmag]
    unfold roundMag
    rw [hk, Nat.one_mul, roundMantissa_exact m _ (two_pow_pos _)]
    rw [← hne]
    exact min_eq_left (by omega)

/-- Rounding looks at the quotient only. -/
theorem roundMag_scale (c p q : Nat) (hc : 0 < c) : roundMag (c * p) (c * q) = roundMag p q := by
  have hk : quantumExp (c * p) (c * q) = quantumExp p q := by
    rw [quantumExp_eq, quantumExp_eq, Nat.mul_div_mul_left _ _ hc]
  unfold roundMag
  rw [hk]
  congr 2
  unfold roundMantissa
  have e1 : c * q * 2 ^ quantumExp p q = c * (q * 2 ^ quantumExp p q) := by ring
  rw [e1, Nat.mul_div_mul_left _ _ hc, Nat.mul_mod_mul_left]
  have e2 : ∀ a b : Nat, (2 * (c * a) < c * b) ↔ (2 * a < b) := by
    intro a b
    have : 2 * (c * a) = c * (2 * a) := by ring
    rw [this]
    exact Nat.mul_lt_mul_left hc
  have e3 : ∀ a b : Nat, (c * b < 2 * (c * a)) ↔ (b < 2 * a) := by
    intro a b
    have : 2 * (c * a) = c * (2 * a) := by ring
    rw [this]
    exact Nat.mul_lt_mul_left hc
  simp only [e2, e3]

theorem roundMag_zero (q : Nat) : roundMag 0 q = 0 := by
  unfold roundMag roundMantissa
  rw [quantumExp_eq]
  simp

/-! ## The values of the results of the operations -/

theorem signBit_le_one (f : Nat) : signBit f = 0 ∨ signBit f = 1 := by
  unfold signBit; omega

theorem floatMagnitude_low31 (f : Nat) : floatMagnitude (f % 2147483648) = floatMagnitude f := by
  unfold floatMagnitude expField fracField
  have h1 : f % 2147483648 / 8388608 % 256 = f / 8388608 % 256 := by omega
  have h2 : f % 2147483648 % 8388608 = f % 8388608 := by omega
  rw [h1, h2]

theorem low31_lt_of_isFinite (f : Nat) (h : isFinite f) : f % 2147483648 < 0x7f800000 := by
  unfold isFinite expField at h
  omega

theorem not_isNaN_of_isFinite (f : Nat) (h : isFinite f) : ¬ isNaN f := fun hn => h hn.1

theorem not_isInf_of_isFinite (f : Nat) (h : isFinite f) : ¬ isInf f := fun hn => h hn.1

/-- The fields of a signed rounding. -/
theorem roundSigned_fields (s p q : Nat) (hs : s = 0 ∨ s = 1) :
    signBit (roundSigned s p q) = s ∧
    floatMagnitude (roundSigned s p q) = floatMagnitude (roundMag p q) ∧
    ¬ isNaN (roundSigned s p q) ∧ roundSigned s p q < 4294967296 := by
  have hle := roundMag_le_inf p q
  have hlow : roundSigned s p q % 2147483648 = roundMag p q := by
    unfold roundSigned; rcases hs with rfl | rfl <;> omega
  refine ⟨?_, ?_, ?_, ?_⟩
  · unfold signBit roundSigned; rcases hs with rfl | rfl <;> omega
  · rw [← floatMagnitude_low31, hlow]
  · unfold isNaN expField fracField roundSigned
    rcases hs with rfl | rfl <;> omega
  · unfold roundSigned; rcases hs with rfl | rfl <;> omega

theorem floatScaled_roundSigned_zero (p q : Nat) :
    floatScaled (roundSigned 0 p q) = (floatMagnitude (roundMag p q) : Int) := by
  obtain ⟨h1, h2, -, -⟩ := roundSigned_fields 0 p q (Or.inl rfl)
  unfold floatScaled
  rw [if_pos h1, h2]

theorem floatScaled_roundSigned_one (p q : Nat) :
    floatScaled (roundSigned 1 p q) = -(floatMagnitude (roundMag p q) : Int) := by
  obtain ⟨h1, h2, -, -⟩ := roundSigned_fields 1 p q (Or.inr rfl)
  unfold floatScaled
  rw [if_neg (by omega), h2]

theorem roundValue_zero (q : Nat) : roundValue 0 q = 0 := by
  unfold roundValue
  rw [if_pos (le_refl _)]
  simp only [Int.toNat_zero, roundMag_zero]
  decide

theorem roundValue_of_nonneg (n : Nat) (q : Nat) :
    roundValue (n : Int) q = (floatMagnitude (roundMag n q) : Int) := by
  unfold roundValue
  rw [if_pos (Int.ofNat_nonneg n), Int.toNat_ofNat]

theorem roundValue_neg_natCast (n : Nat) (q : Nat) :
    roundValue (-(n : Int)) q = -(floatMagnitude (roundMag n q) : Int) := by
  by_cases h0 : n = 0
  · subst h0
    simp only [Nat.cast_zero, neg_zero, roundValue_zero, roundMag_zero]
    decide
  · unfold roundValue
    have hneg : ¬ (0 ≤ -(n : Int)) := by omega
    rw [if_neg hneg, neg_neg, Int.toNat_ofNat]

/-- The rounding of the opposite is the opposite of the rounding. -/
theorem roundValue_neg (n : Int) (q : Nat) : roundValue (-n) q = -roundValue n q := by
  rcases Int.le_total 0 n with h | h
  · obtain ⟨k, rfl⟩ := Int.eq_ofNat_of_zero_le h
    rw [roundValue_neg_natCast, roundValue_of_nonneg]
  · obtain ⟨k, hk⟩ := Int.eq_ofNat_of_zero_le (show 0 ≤ -n by omega)
    have hn : n = -(k : Int) := by omega
    rw [hn, neg_neg, roundValue_neg_natCast, roundValue_of_nonneg, neg_neg]

/-- Rounding is monotone on the values. -/
theorem roundValue_mono (n1 : Int) (q1 : Nat) (n2 : Int) (q2 : Nat) (hq1 : 0 < q1)
    (hq2 : 0 < q2) (h : n1 * q2 ≤ n2 * q1) : roundValue n1 q1 ≤ roundValue n2 q2 := by
  have key : ∀ (a b : Nat) (qa qb : Nat), 0 < qa → 0 < qb → a * qb ≤ b * qa →
      (floatMagnitude (roundMag a qa) : Int) ≤ (floatMagnitude (roundMag b qb) : Int) := by
    intro a b qa qb hqa hqb hab
    have h1 := roundMag_mono a qa b qb hqa hqb hab
    have h2 := roundMag_le_inf a qa
    have h3 := roundMag_le_inf b qb
    exact_mod_cast floatMagnitude_le _ _ (by omega)
  rcases Int.le_total 0 n1 with h1 | h1
  · obtain ⟨a, rfl⟩ := Int.eq_ofNat_of_zero_le h1
    rcases Int.le_total 0 n2 with h2 | h2
    · obtain ⟨b, rfl⟩ := Int.eq_ofNat_of_zero_le h2
      rw [roundValue_of_nonneg, roundValue_of_nonneg]
      exact key a b q1 q2 hq1 hq2 (by exact_mod_cast h)
    · obtain ⟨b, hb⟩ := Int.eq_ofNat_of_zero_le (show 0 ≤ -n2 by omega)
      have hn2 : n2 = -(b : Int) := by omega
      subst hn2
      have hpos1 : (0 : Int) ≤ (a : Int) * q2 := by positivity
      have hb0 : b = 0 := by
        by_contra hne
        have : (0 : Int) < (b : Int) * q1 := by positivity
        have h5 : -(b : Int) * (q1 : Int) = -((b : Int) * q1) := by ring
        omega
      subst hb0
      have ha0 : a = 0 := by
        by_contra hne
        have : (0 : Int) < (a : Int) * q2 := by positivity
        simp at h
        omega
      subst ha0
      simp only [Nat.cast_zero, neg_zero, roundValue_zero, le_refl]
  · obtain ⟨a, ha⟩ := Int.eq_ofNat_of_zero_le (show 0 ≤ -n1 by omega)
    have hn1 : n1 = -(a : Int) := by omega
    subst hn1
    rw [roundValue_neg_natCast]
    rcases Int.le_total 0 n2 with h2 | h2
    · obtain ⟨b, rfl⟩ := Int.eq_ofNat_of_zero_le h2
      rw [roundValue_of_nonneg]
      have := Int.ofNat_nonneg (floatMagnitude (roundMag a q1))
      have := Int.ofNat_nonneg (floatMagnitude (roundMag b q2))
      omega
    · obtain ⟨b, hb⟩ := Int.eq_ofNat_of_zero_le (show 0 ≤ -n2 by omega)
      have hn2 : n2 = -(b : Int) := by omega
      subst hn2
      rw [roundValue_neg_natCast]
      have hba : b * q1 ≤ a * q2 := by
        have h5 : -(a : Int) * (q2 : Int) = -((a : Int) * q2) := by ring
        have h6 : -(b : Int) * (q1 : Int) = -((b : Int) * q1) := by ring
        rw [h5, h6] at h
        have : ((b : Int) * q1) ≤ (a : Int) * q2 := by omega
        exact_mod_cast this
      have := key b a q2 q1 hq2 hq1 hba
      omega

/-- A float that is neither NaN nor infinity is the rounding of its own
value. -/
theorem roundValue_exact (x : Nat) (hx : isFinite x) : roundValue (floatScaled x) 1 = floatScaled x := by
  have hr : floatMagnitude (roundMag (floatMagnitude x) 1) = floatMagnitude x := by
    rw [← floatMagnitude_low31 x, roundMag_exact _ (low31_lt_of_isFinite x hx)]
  unfold floatScaled
  split
  · rw [roundValue_of_nonneg, hr]
  · rw [roundValue_neg_natCast, hr]

theorem floatNeg_fields (b : Nat) :
    floatMagnitude (floatNeg b) = floatMagnitude b ∧ floatScaled (floatNeg b) = -floatScaled b ∧
    (isFinite (floatNeg b) ↔ isFinite b) ∧ (b < 4294967296 → floatNeg b < 4294967296) := by
  have hm : floatMagnitude (floatNeg b) = floatMagnitude b := by
    unfold floatMagnitude expField fracField floatNeg signBit
    split
    · have h1 : (b + 2147483648) / 8388608 % 256 = b / 8388608 % 256 := by omega
      have h2 : (b + 2147483648) % 8388608 = b % 8388608 := by omega
      rw [h1, h2]
    · have h1 : (b - 2147483648) / 8388608 % 256 = b / 8388608 % 256 := by omega
      have h2 : (b - 2147483648) % 8388608 = b % 8388608 := by omega
      rw [h1, h2]
  refine ⟨hm, ?_, ?_, ?_⟩
  · unfold floatScaled
    rw [hm]
    by_cases hs : signBit b = 0
    · have : signBit (floatNeg b) ≠ 0 := by
        unfold floatNeg; rw [if_pos hs]; unfold signBit at hs ⊢; omega
      rw [if_pos hs, if_neg this]
    · have : signBit (floatNeg b) = 0 := by
        unfold floatNeg; rw [if_neg hs]; unfold signBit at hs ⊢; omega
      rw [if_neg hs, if_pos this, neg_neg]
  · unfold isFinite expField floatNeg signBit
    split <;> constructor <;> intro h <;> omega
  · intro hb
    unfold floatNeg signBit
    split <;> omega

/-- The value of a sum of two finite floats is the rounding of the sum of
their values; the sum is not a NaN. -/
theorem fadd_value (a b : Nat) (ha : isFinite a) (hb : isFinite b) :
    floatScaled (fadd a b) = roundValue (floatScaled a + floatScaled b) 1 ∧
    ¬ isNaN (fadd a b) ∧ fadd a b < 4294967296 := by
  have c1 : ¬ (isNaN a ∨ isNaN b) := by
    rintro (h | h)
    · exact not_isNaN_of_isFinite a ha h
    · exact not_isNaN_of_isFinite b hb h
  unfold fadd
  rw [if_neg c1, if_neg (not_isInf_of_isFinite a ha), if_neg (not_isInf_of_isFinite b hb)]
  by_cases h0 : floatScaled a + floatScaled b = 0
  · rw [if_pos h0, h0, roundValue_zero]
    split <;> decide
  · rw [if_neg h0]
    by_cases hpos : 0 < floatScaled a + floatScaled b
    · rw [if_pos hpos]
      obtain ⟨k, hk⟩ := Int.eq_ofNat_of_zero_le (le_of_lt hpos)
      rw [hk, Int.toNat_ofNat, floatScaled_roundSigned_zero, roundValue_of_nonneg]
      obtain ⟨-, -, h3, h4⟩ := roundSigned_fields 0 k 1 (Or.inl rfl)
      exact ⟨rfl, h3, h4⟩
    · rw [if_neg hpos]
      obtain ⟨k, hk⟩ := Int.eq_ofNat_of_zero_le
        (show 0 ≤ -(floatScaled a + floatScaled b) by omega)
      have hs : floatScaled a + floatScaled b = -(k : Int) := by omega
      rw [hk, Int.toNat_ofNat, floatScaled_roundSigned_one, hs, roundValue_neg_natCast]
      obtain ⟨-, -, h3, h4⟩ := roundSigned_fields 1 k 1 (Or.inr rfl)
      exact ⟨rfl, h3, h4⟩

/-- The value of a difference of two finite floats. -/
theorem fsub_value (a b : Nat) (ha : isFinite a) (hb : isFinite b) :
    floatScaled (fsub a b) = roundValue (floatScaled a - floatScaled b) 1 ∧
    ¬ isNaN (fsub a b) ∧ fsub a b < 4294967296 := by
  obtain ⟨-, h2, h3, -⟩ := floatNeg_fields b
  have h := fadd_value a (floatNeg b) ha (h3.mpr hb)
  rw [h2] at h
  unfold fsub
  rw [sub_eq_add_neg]
  exact h

theorem signXor_le_one (a b : Nat) : signXor a b = 0 ∨ signXor a b = 1 := by
  unfold signXor; split <;> simp

/-- The value of a float from its sign bit and its magnitude. -/
theorem floatScaled_cases (a : Nat) :
    (signBit a = 0 ∧ floatScaled a = (floatMagnitude a : Int)) ∨
    (signBit a = 1 ∧ floatScaled a = -(floatMagnitude a : Int)) := by
  unfold floatScaled
  rcases signBit_le_one a with h | h
  · left; rw [if_pos h]; exact ⟨h, rfl⟩
  · right; rw [if_neg (by omega)]; exact ⟨h, rfl⟩

/-- The value of a product of two finite floats is the rounding of the
product of their values; the product is not a NaN. -/
theorem fmul_value (a b : Nat) (ha : isFinite a) (hb : isFinite b) :
    floatScaled (fmul a b) = roundValue (floatScaled a * floatScaled b) (2 ^ 149) ∧
    ¬ isNaN (fmul a b) ∧ fmul a b < 4294967296 := by
  have c1 : ¬ (isNaN a ∨ isNaN b) := by
    rintro (h | h)
    · exact not_isNaN_of_isFinite a ha h
    · exact not_isNaN_of_isFinite b hb h
  have c2 : ¬ ((isInf a ∧ floatMagnitude b = 0) ∨ (floatMagnitude a = 0 ∧ isInf b)) := by
    rintro (h | h)
    · exact not_isInf_of_isFinite a ha h.1
    · exact not_isInf_of_isFinite b hb h.2
  have c3 : ¬ (isInf a ∨ isInf b) := by
    rintro (h | h)
    · exact not_isInf_of_isFinite a ha h
    · exact not_isInf_of_isFinite b hb h
  unfold fmul
  rw [if_neg c1, if_neg c2, if_neg c3]
  obtain ⟨-, -, h3, h4⟩ := roundSigned_fields (signXor a b)
    (floatMagnitude a * floatMagnitude b) (2 ^ 149) (signXor_le_one a b)
  refine ⟨?_, h3, h4⟩
  rcases floatScaled_cases a with ⟨sa, va⟩ | ⟨sa, va⟩ <;>
    rcases floatScaled_cases b with ⟨sb, vb⟩ | ⟨sb, vb⟩
  · have hx : signXor a b = 0 := by unfold signXor; rw [sa, sb]; simp
    rw [hx, floatScaled_roundSigned_zero, va, vb, ← Nat.cast_mul, roundValue_of_nonneg]
  · have hx : signXor a b = 1 := by unfold signXor; rw [sa, sb]; simp
    rw [hx, floatScaled_roundSigned_one, va, vb, mul_neg, ← Nat.cast_mul, roundValue_neg_natCast]
  · have hx : signXor a b = 1 := by unfold signXor; rw [sa, sb]; simp
    rw [hx, floatScaled_roundSigned_one, va, vb, neg_mul, ← Nat.cast_mul, roundValue_neg_natCast]
  · have hx : signXor a b = 0 := by unfold signXor; rw [sa, sb]; simp
    rw [hx, floatScaled_roundSigned_zero, va, vb, neg_mul_neg, ← Nat.cast_mul,
      roundValue_of_nonneg]

/-- The value of a quotient of a finite float by a finite positive float is
the rounding of the quotient of their values; the quotient is not a NaN. -/
theorem fdiv_value (a b : Nat) (ha : isFinite a) (hb : isFinite b) (hpos : 0 < floatScaled b) :
    floatScaled (fdiv a b)
      = roundValue (floatScaled a * 2 ^ 149) (floatScaled b).toNat ∧
    ¬ isNaN (fdiv a b) ∧ fdiv a b < 4294967296 := by
  have hbm : (signBit b = 0 ∧ floatScaled b = (floatMagnitude b : Int)) := by
    rcases floatScaled_cases b with h | ⟨-, vb⟩
    · exact h
    · have := Int.ofNat_nonneg (floatMagnitude b); omega
  have hmb : floatMagnitude b ≠ 0 := by
    intro h0; rw [hbm.2, h0] at hpos; simp at hpos
  have c1 : ¬ (isNaN a ∨ isNaN b) := by
    rintro (h | h)
    · exact not_isNaN_of_isFinite a ha h
    · exact not_isNaN_of_isFinite b hb h
  have c2 : ¬ ((isInf a ∧ isInf b) ∨ (floatMagnitude a = 0 ∧ floatMagnitude b = 0)) := by
    rintro (h | h)
    · exact not_isInf_of_isFinite a ha h.1
    · exact hmb h.2
  have c3 : ¬ (isInf a ∨ floatMagnitude b = 0) := by
    rintro (h | h)
    · exact not_isInf_of_isFinite a ha h
    · exact hmb h
  unfold fdiv
  rw [if_neg c1, if_neg c2, if_neg c3, if_neg (not_isInf_of_isFinite b hb)]
  obtain ⟨-, -, h3, h4⟩ := roundSigned_fields (signXor a b)
    (floatMagnitude a * 2 ^ 149) (floatMagnitude b) (signXor_le_one a b)
  refine ⟨?_, h3, h4⟩
  rw [hbm.2, Int.toNat_ofNat]
  have hpow : ((2 : Int) ^ 149) = (((2 : Nat) ^ 149 : Nat) : Int) := by norm_num
  rcases floatScaled_cases a with ⟨sa, va⟩ | ⟨sa, va⟩
  · have hx : signXor a b = 0 := by unfold signXor; rw [sa, hbm.1]; simp
    rw [hx, floatScaled_roundSigned_zero, va, hpow, ← Nat.cast_mul, roundValue_of_nonneg]
  · have hx : signXor a b = 1 := by unfold signXor; rw [sa, hbm.1]; simp
    rw [hx, floatScaled_roundSigned_one, va, hpow, neg_mul, ← Nat.cast_mul,
      roundValue_neg_natCast]

/-! ## Lemmas on `rgb_to_hsv` -/

theorem floatLt_iff (a b : Nat) (ha : ¬ isNaN a) (hb : ¬ isNaN b) :
    floatLt a b ↔ floatScaled a < floatScaled b :=
  ⟨fun h => h.2.2, fun h => ⟨ha, hb, h⟩⟩

theorem floatLe_iff (a b : Nat) (ha : ¬ isNaN a) (hb : ¬ isNaN b) :
    floatLe a b ↔ floatScaled a ≤ floatScaled b :=
  ⟨fun h => h.2.2, fun h => ⟨ha, hb, h⟩⟩

theorem floatEq_iff (a b : Nat) (ha : ¬ isNaN a) (hb : ¬ isNaN b) :
    floatEq a b ↔ floatScaled a = floatScaled b :=
  ⟨fun h => h.2.2, fun h => ⟨ha, hb, h⟩⟩

/-- The values of the float constants of `rgb_to_hsv`, and of the bounds of its
results, in units of `2^-149`. -/
theorem floatScaled_constants :
    floatScaled 0x00000000 = 0 ∧
    floatScaled 0x3f800000 = 713623846352979940529142984724747568191373312 ∧
    floatScaled 0x40000000 = 1427247692705959881058285969449495136382746624 ∧
    floatScaled 0x40400000 = 2140871539058939821587428954174242704574119936 ∧
    floatScaled 0x40800000 = 2854495385411919762116571938898990272765493248 ∧
    floatScaled 0x40a00000 = 3568119231764899702645714923623737840956866560 ∧
    floatScaled 0x42700000 = 42817430781178796431748579083484854091482398720 ∧
    floatScaled 0xc2700000 = -42817430781178796431748579083484854091482398720 ∧
    floatScaled 0x43960000 = 214087153905893982158742895417424270457411993600 ∧
    floatScaled 0x43b40000 = 256904584687072778590491474500909124548894392320 ∧
    floatScaled 0xbf800000 = -713623846352979940529142984724747568191373312 := by
  decide

theorem two_pow_149 :
    (2 : Int) ^ 149 = 713623846352979940529142984724747568191373312 := by norm_num

/-- A float that is not a NaN and whose value is between -360 and 360 is
finite. -/
theorem isFinite_of_range (x : Nat) (hn : ¬ isNaN x)
    (h1 : -256904584687072778590491474500909124548894392320 ≤ floatScaled x)
    (h2 : floatScaled x ≤ 256904584687072778590491474500909124548894392320) : isFinite x := by
  intro he
  have hf : fracField x = 0 := by
    by_contra hf
    exact hn ⟨he, hf⟩
  have hm : floatMagnitude x
      = 242833611528216133864932738352939863330300854881517440156476551217363035650651062272 := by
    unfold floatMagnitude
    rw [he, hf]
    decide
  rcases floatScaled_cases x with ⟨-, hv⟩ | ⟨-, hv⟩
  · rw [hv, hm] at h2
    omega
  · rw [hv, hm] at h1
    omega

/-- The rounding of a value that is at most the value of a finite float is at
most that float. -/
theorem roundValue_le_float (n : Int) (q : Nat) (hq : 0 < q) (c : Nat) (hc : isFinite c)
    (h : n ≤ floatScaled c * q) : roundValue n q ≤ floatScaled c := by
  have := roundValue_mono n q (floatScaled c) 1 hq (by norm_num) (by simpa using h)
  rwa [roundValue_exact c hc] at this

/-- The rounding of a value that is at least the value of a finite float is at
least that float. -/
theorem float_le_roundValue (n : Int) (q : Nat) (hq : 0 < q) (c : Nat) (hc : isFinite c)
    (h : floatScaled c * q ≤ n) : floatScaled c ≤ roundValue n q := by
  have := roundValue_mono (floatScaled c) 1 n q (by norm_num) hq (by simpa using h)
  rwa [roundValue_exact c hc] at this

theorem stdMax_spec (a b : Nat) (ha : ¬ isNaN a) (hb : ¬ isNaN b) :
    (stdMax a b = a ∨ stdMax a b = b) ∧ floatScaled a ≤ floatScaled (stdMax a b) ∧
    floatScaled b ≤ floatScaled (stdMax a b) := by
  unfold stdMax
  by_cases h : floatLt a b
  · rw [if_pos h]
    exact ⟨Or.inr rfl, le_of_lt h.2.2, le_refl _⟩
  · rw [if_neg h]
    have : ¬ (floatScaled a < floatScaled b) := fun hlt => h ⟨ha, hb, hlt⟩
    exact ⟨Or.inl rfl, le_refl _, by omega⟩

theorem stdMin_spec (a b : Nat) (ha : ¬ isNaN a) (hb : ¬ isNaN b) :
    (stdMin a b = a ∨ stdMin a b = b) ∧ floatScaled (stdMin a b) ≤ floatScaled a ∧
    floatScaled (stdMin a b) ≤ floatScaled b := by
  unfold stdMin
  by_cases h : floatLt b a
  · rw [if_pos h]
    exact ⟨Or.inr rfl, le_of_lt h.2.2, le_refl _⟩
  · rw [if_neg h]
    have : ¬ (floatScaled b < floatScaled a) := fun hlt => h ⟨hb, ha, hlt⟩
    exact ⟨Or.inl rfl, le_refl _, by omega⟩

/-- The difference `max - min` of two floats of `[0, 1]`, `min <= max`, is a
float of `[0, max]`. -/
theorem delta_range (mx mn : Nat) (hmx : isFinite mx) (hmn : isFinite mn)
    (h0 : 0 ≤ floatScaled mn) (h1 : floatScaled mn ≤ floatScaled mx) :
    ¬ isNaN (fsub mx mn) ∧ 0 ≤ floatScaled (fsub mx mn) ∧
      floatScaled (fsub mx mn) ≤ floatScaled mx := by
  obtain ⟨hv, hn, -⟩ := fsub_value mx mn hmx hmn
  refine ⟨hn, ?_, ?_⟩
  · rw [hv]
    have := roundValue_mono 0 1 (floatScaled mx - floatScaled mn) 1 (by norm_num) (by norm_num)
      (by omega)
    rwa [roundValue_zero] at this
  · rw [hv]
    exact roundValue_le_float _ 1 (by norm_num) mx hmx (by omega)

/-- A difference of two channels divided by `delta` is a float of `[-1, 1]`. -/
theorem sector_quotient (mx mn x y : Nat) (hmx : isFinite mx) (hmn : isFinite mn)
    (hx : isFinite x) (hy : isFinite y) (h0 : 0 ≤ floatScaled mn)
    (h1 : floatScaled mx ≤ 713623846352979940529142984724747568191373312)
    (hx1 : floatScaled mn ≤ floatScaled x) (hx2 : floatScaled x ≤ floatScaled mx)
    (hy1 : floatScaled mn ≤ floatScaled y) (hy2 : floatScaled y ≤ floatScaled mx)
    (hd : 0 < floatScaled (fsub mx mn)) :
    ¬ isNaN (fdiv (fsub x y) (fsub mx mn)) ∧
      -713623846352979940529142984724747568191373312
        ≤ floatScaled (fdiv (fsub x y) (fsub mx mn)) ∧
      floatScaled (fdiv (fsub x y) (fsub mx mn))
        ≤ 713623846352979940529142984724747568191373312 := by
  obtain ⟨c0, c1, -, -, -, -, -, -, -, -, cm1⟩ := floatScaled_constants
  obtain ⟨hdn, -, hd2⟩ := delta_range mx mn hmx hmn h0 (by omega)
  obtain ⟨hdv, -, -⟩ := fsub_value mx mn hmx hmn
  obtain ⟨hsv, hsn, -⟩ := fsub_value x y hx hy
  have hs1 : floatScaled (fsub x y) ≤ floatScaled (fsub mx mn) := by
    rw [hsv, hdv]
    exact roundValue_mono _ 1 _ 1 (by norm_num) (by norm_num) (by omega)
  have hs2 : -floatScaled (fsub mx mn) ≤ floatScaled (fsub x y) := by
    rw [hsv, hdv, ← roundValue_neg]
    exact roundValue_mono _ 1 _ 1 (by norm_num) (by norm_num) (by omega)
  have hdf : isFinite (fsub mx mn) := isFinite_of_range _ hdn (by omega) (by omega)
  have hsf : isFinite (fsub x y) := isFinite_of_range _ hsn (by omega) (by omega)
  obtain ⟨hqv, hqn, -⟩ := fdiv_value (fsub x y) (fsub mx mn) hsf hdf hd
  have hq : 0 < (floatScaled (fsub mx mn)).toNat := by omega
  have hcast : (((floatScaled (fsub mx mn)).toNat : Nat) : Int) = floatScaled (fsub mx mn) :=
    Int.toNat_of_nonneg (le_of_lt hd)
  refine ⟨hqn, ?_, ?_⟩
  · rw [hqv, ← cm1]
    apply float_le_roundValue _ _ hq 0xbf800000 (by decide)
    rw [cm1, hcast, two_pow_149]
    omega
  · rw [hqv, ← c1]
    apply roundValue_le_float _ _ hq 0x3f800000 (by decide)
    rw [c1, hcast, two_pow_149]
    omega

/-- Adding the constant 2 or 4 to a float of `[-1, 1]` gives a float of
`[1, 5]`. -/
theorem offset_range (c q : Nat) (hc : c = 0x40000000 ∨ c = 0x40800000) (hn : ¬ isNaN q)
    (h1 : -713623846352979940529142984724747568191373312 ≤ floatScaled q)
    (h2 : floatScaled q ≤ 713623846352979940529142984724747568191373312) :
    ¬ isNaN (fadd c q) ∧
      713623846352979940529142984724747568191373312 ≤ floatScaled (fadd c q) ∧
      floatScaled (fadd c q) ≤ 3568119231764899702645714923623737840956866560 := by
  obtain ⟨-, c1, c2, c3, c4, c5, -, -, -, -, -⟩ := floatScaled_constants
  have hqf : isFinite q := isFinite_of_range q hn (by omega) (by omega)
  rcases hc with rfl | rfl
  · obtain ⟨hv, hnn, -⟩ := fadd_value 0x40000000 q (by decide) hqf
    refine ⟨hnn, ?_, ?_⟩
    · rw [hv, ← c1]
      apply float_le_roundValue _ 1 (by norm_num) 0x3f800000 (by decide)
      rw [c1, c2]; omega
    · rw [hv]
      have := roundValue_le_float (floatScaled 0x40000000 + floatScaled q) 1 (by norm_num)
        0x40400000 (by decide) (by rw [c2, c3]; omega)
      rw [c3] at this
      omega
  · obtain ⟨hv, hnn, -⟩ := fadd_value 0x40800000 q (by decide) hqf
    refine ⟨hnn, ?_, ?_⟩
    · rw [hv]
      have := float_le_roundValue (floatScaled 0x40800000 + floatScaled q) 1 (by norm_num)
        0x40400000 (by decide) (by rw [c4, c3]; omega)
      rw [c3] at this
      omega
    · rw [hv, ← c5]
      apply roundValue_le_float _ 1 (by norm_num) 0x40a00000 (by decide)
      rw [c5, c4]; omega

/-- The last steps of `rgb_to_hsv`: a sector value of `[-1, 5]` times 60, plus
360 when negative, is a float of `[0, 360]`. -/
theorem hue_range (t : Nat) (hn : ¬ isNaN t)
    (h1 : -713623846352979940529142984724747568191373312 ≤ floatScaled t)
    (h2 : floatScaled t ≤ 3568119231764899702645714923623737840956866560) :
    floatLe 0x00000000
        (if floatLt (fmul t 0x42700000) 0x00000000 then fadd (fmul t 0x42700000) 0x43b40000
          else fmul t 0x42700000) ∧
      floatLe
        (if floatLt (fmul t 0x42700000) 0x00000000 then fadd (fmul t 0x42700000) 0x43b40000
          else fmul t 0x42700000) 0x43b40000 := by
  obtain ⟨c0, c1, -, -, -, -, c60, cm60, c300, c360, -⟩ := floatScaled_constants
  have hz : ¬ isNaN 0x00000000 := by decide
  have h360 : ¬ isNaN 0x43b40000 := by decide
  have htf : isFinite t := isFinite_of_range t hn (by omega) (by omega)
  obtain ⟨hv, hmn, -⟩ := fmul_value t 0x42700000 htf (by decide)
  have hp : (0 : Nat) < 2 ^ 149 := two_pow_pos _
  have hpc : (((2 ^ 149 : Nat) : Nat) : Int)
      = 713623846352979940529142984724747568191373312 := by norm_num
  have hlo : -42817430781178796431748579083484854091482398720
      ≤ floatScaled (fmul t 0x42700000) := by
    rw [hv, ← cm60]
    apply float_le_roundValue _ _ hp 0xc2700000 (by decide)
    rw [cm60, c60, hpc]
    omega
  have hhi : floatScaled (fmul t 0x42700000)
      ≤ 214087153905893982158742895417424270457411993600 := by
    rw [hv, ← c300]
    apply roundValue_le_float _ _ hp 0x43960000 (by decide)
    rw [c300, c60, hpc]
    omega
  have hmf : isFinite (fmul t 0x42700000) := isFinite_of_range _ hmn (by omega) (by omega)
  by_cases hneg : floatLt (fmul t 0x42700000) 0x00000000
  · rw [if_pos hneg]
    have hlt : floatScaled (fmul t 0x42700000) < 0 := by
      have := hneg.2.2
      rwa [c0] at this
    obtain ⟨hav, han, -⟩ := fadd_value (fmul t 0x42700000) 0x43b40000 hmf (by decide)
    have ha1 : 214087153905893982158742895417424270457411993600
        ≤ floatScaled (fadd (fmul t 0x42700000) 0x43b40000) := by
      rw [hav, ← c300]
      apply float_le_roundValue _ 1 (by norm_num) 0x43960000 (by decide)
      rw [c300, c360]
      omega
    have ha2 : floatScaled (fadd (fmul t 0x42700000) 0x43b40000)
        ≤ 256904584687072778590491474500909124548894392320 := by
      rw [hav, ← c360]
      apply roundValue_le_float _ 1 (by norm_num) 0x43b40000 (by decide)
      rw [c360]
      omega
    exact ⟨⟨hz, han, by rw [c0]; omega⟩, ⟨han, h360, by rw [c360]; omega⟩⟩
  · rw [if_neg hneg]
    have hge : 0 ≤ floatScaled (fmul t 0x42700000) := by
      by_contra hc
      exact hneg ⟨hmn, hz, by rw [c0]; omega⟩
    exact ⟨⟨hz, hmn, by rw [c0]; omega⟩, ⟨hmn, h360, by rw [c360]; omega⟩⟩

/-- The magnitude of an infinity. -/
theorem floatMagnitude_of_isInf (t : Nat) (h : isInf t) :
    floatMagnitude t
      = 242833611528216133864932738352939863330300854881517440156476551217363035650651062272 := by
  unfold floatMagnitude
  rw [h.1, h.2]
  decide

/-- The product of a float that is not a NaN by 60 is negative exactly when the
float is. -/
theorem fmul_sixty_neg_iff (t : Nat) (hn : ¬ isNaN t) :
    floatLt (fmul t 0x42700000) 0x00000000 ↔ ¬ floatLe 0x00000000 t := by
  obtain ⟨c0, -, -, -, -, -, c60, -⟩ := floatScaled_constants
  have hz : ¬ isNaN 0x00000000 := by decide
  have hle : floatLe 0x00000000 t ↔ 0 ≤ floatScaled t := by
    rw [floatLe_iff _ _ hz hn, c0]
  by_cases hf : isFinite t
  · obtain ⟨hv, hmn, -⟩ := fmul_value t 0x42700000 hf (by decide)
    have hp : (0 : Nat) < 2 ^ 149 := two_pow_pos _
    have hpc : (((2 ^ 149 : Nat) : Nat) : Int)
        = 713623846352979940529142984724747568191373312 := by norm_num
    rw [floatLt_iff _ _ hmn hz, hle, c0, hv, c60]
    constructor
    · intro h hge
      have := float_le_roundValue
        (floatScaled t * 42817430781178796431748579083484854091482398720) _ hp 0x00000000
        (by decide) (by rw [c0]; omega)
      rw [c0] at this
      omega
    · intro h
      have hm1 : floatScaled 0x80000001 = -1 := by decide
      have := roundValue_le_float
        (floatScaled t * 42817430781178796431748579083484854091482398720) _ hp 0x80000001
        (by decide) (by rw [hm1, hpc]; omega)
      rw [hm1] at this
      omega
  · have hinf : isInf t := by
      unfold isFinite at hf
      have he : expField t = 255 := by omega
      refine ⟨he, ?_⟩
      by_contra hfr
      exact hn ⟨he, hfr⟩
    have hm := floatMagnitude_of_isInf t hinf
    have c1 : ¬ (isNaN t ∨ isNaN 0x42700000) := by
      rintro (h | h)
      · exact hn h
      · revert h; decide
    have c2 : ¬ ((isInf t ∧ floatMagnitude 0x42700000 = 0) ∨
        (floatMagnitude t = 0 ∧ isInf 0x42700000)) := by
      rintro (h | h)
      · exact absurd h.2 (by decide)
      · rw [hm] at h; omega
    have hres : fmul t 0x42700000 = signXor t 0x42700000 * 2147483648 + floatInf := by
      unfold fmul
      rw [if_neg c1, if_neg c2, if_pos (Or.inl hinf)]
    have hs60 : signBit 0x42700000 = 0 := by decide
    rw [hres, hle]
    rcases floatScaled_cases t with ⟨st, vt⟩ | ⟨st, vt⟩
    · have hx : signXor t 0x42700000 = 0 := by unfold signXor; rw [st, hs60]; simp
      rw [hx, vt, hm]
      constructor
      · intro h; exact absurd h (by decide)
      · intro h; exact absurd (by norm_num) h
    · have hx : signXor t 0x42700000 = 1 := by unfold signXor; rw [st, hs60]; simp
      rw [hx, vt, hm]
      constructor
      · intro _; norm_num
      · intro _; decide

/-- A positive finite float minus zero is the float itself. -/
theorem fsub_zero_of_pos (c : Nat) (hc : c < 4294967296) (hf : isFinite c)
    (hpos : floatLt 0x00000000 c) : fsub c 0x00000000 = c := by
  have hv : 0 < floatScaled c := by
    have := hpos.2.2
    rwa [show floatScaled 0x00000000 = 0 by decide] at this
  have hcm : signBit c = 0 ∧ floatScaled c = (floatMagnitude c : Int) := by
    rcases floatScaled_cases c with h | ⟨-, vb⟩
    · exact h
    · have := Int.ofNat_nonneg (floatMagnitude c); omega
  have hlow : c % 2147483648 = c := by
    have := hcm.1
    unfold signBit at this
    omega
  have c1 : ¬ (isNaN c ∨ isNaN (floatNeg 0x00000000)) := by
    rintro (h | h)
    · exact not_isNaN_of_isFinite c hf h
    · exact absurd h (by decide)
  have hn0 : floatScaled (floatNeg 0x00000000) = 0 := by decide
  unfold fsub fadd
  rw [if_neg c1, if_neg (not_isInf_of_isFinite c hf), if_neg (by decide), hn0, add_zero,
    if_neg (by omega), if_pos hv, hcm.2, Int.toNat_ofNat]
  unfold roundSigned
  rw [← floatMagnitude_low31, roundMag_exact _ (low31_lt_of_isFinite c hf), hlow]
  omega

/-- A positive finite float divided by itself is 1. -/
theorem fdiv_self_of_pos (c : Nat) (hf : isFinite c) (hpos : floatLt 0x00000000 c) :
    fdiv c c = 0x3f800000 := by
  have hv : 0 < floatScaled c := by
    have := hpos.2.2
    rwa [show floatScaled 0x00000000 = 0 by decide] at this
  have hcm : signBit c = 0 ∧ floatScaled c = (floatMagnitude c : Int) := by
    rcases floatScaled_cases c with h | ⟨-, vb⟩
    · exact h
    · have := Int.ofNat_nonneg (floatMagnitude c); omega
  have hm : 0 < floatMagnitude c := by
    have := hcm.2
    omega
  have c1 : ¬ (isNaN c ∨ isNaN c) := by
    rintro (h | h) <;> exact not_isNaN_of_isFinite c hf h
  have c2 : ¬ ((isInf c ∧ isInf c) ∨ (floatMagnitude c = 0 ∧ floatMagnitude c = 0)) := by
    rintro (h | h)
    · exact not_isInf_of_isFinite c hf h.1
    · omega
  have c3 : ¬ (isInf c ∨ floatMagnitude c = 0) := by
    rintro (h | h)
    · exact not_isInf_of_isFinite c hf h
    · omega
  have hx : signXor c c = 0 := by unfold signXor; simp
  unfold fdiv
  rw [if_neg c1, if_neg c2, if_neg c3, if_neg (not_isInf_of_isFinite c hf), hx]
  unfold roundSigned
  have h1 : roundMag (floatMagnitude c * 2 ^ 149) (floatMagnitude c)
      = roundMag (2 ^ 149) 1 := by
    have := roundMag_scale (floatMagnitude c) (2 ^ 149) 1 hm
    rwa [Nat.mul_one] at this
  have h2 : roundMag (2 ^ 149) 1 = 0x3f800000 := by
    have := roundMag_exact 0x3f800000 (by norm_num)
    rwa [show floatMagnitude 0x3f800000 = 2 ^ 149 by decide] at this
  rw [h1, h2]

/-- Positive zero divided by a positive finite float is positive zero. -/
theorem fdiv_zero_of_pos (c : Nat) (hf : isFinite c) (hpos : floatLt 0x00000000 c) :
    fdiv 0x00000000 c = 0x00000000 := by
  have hv : 0 < floatScaled c := by
    have := hpos.2.2
    rwa [show floatScaled 0x00000000 = 0 by decide] at this
  have hcm : signBit c = 0 ∧ floatScaled c = (floatMagnitude c : Int) := by
    rcases floatScaled_cases c with h | ⟨-, vb⟩
    · exact h
    · have := Int.ofNat_nonneg (floatMagnitude c); omega
  have hm : 0 < floatMagnitude c := by
    have := hcm.2
    omega
  have c1 : ¬ (isNaN 0x00000000 ∨ isNaN c) := by
    rintro (h | h)
    · exact absurd h (by decide)
    · exact not_isNaN_of_isFinite c hf h
  have c2 : ¬ ((isInf 0x00000000 ∧ isInf c) ∨
      (floatMagnitude 0x00000000 = 0 ∧ floatMagnitude c = 0)) := by
    rintro (h | h)
    · exact not_isInf_of_isFinite c hf h.2
    · omega
  have c3 : ¬ (isInf 0x00000000 ∨ floatMagnitude c = 0) := by
    rintro (h | h)
    · exact absurd h (by decide)
    · omega
  have hx : signXor 0x00000000 c = 0 := by
    unfold signXor
    rw [hcm.1, show signBit 0x00000000 = 0 by decide]
    simp
  unfold fdiv
  rw [if_neg c1, if_neg c2, if_neg c3, if_neg (not_isInf_of_isFinite c hf), hx]
  unfold roundSigned
  rw [show floatMagnitude 0x00000000 = 0 by decide, Nat.zero_mul, Nat.zero_mul, roundMag_zero]

/-! ## Scaling by a power of two -/

theorem log2_two_pow_mul (j n : Nat) (hn : n ≠ 0) : (2 ^ j * n).log2 = j + n.log2 := by
  have hN : 2 ^ j * n ≠ 0 := Nat.mul_ne_zero (Nat.ne_of_gt (two_pow_pos j)) hn
  apply Nat.le_antisymm
  · have : (2 ^ j * n).log2 < j + n.log2 + 1 := by
      rw [Nat.log2_lt hN]
      have h1 : n < 2 ^ (n.log2 + 1) := Nat.lt_log2_self
      have h2 : 2 ^ (j + n.log2 + 1) = 2 ^ j * 2 ^ (n.log2 + 1) := by
        rw [← pow_add, Nat.add_assoc]
      rw [h2]
      exact Nat.mul_lt_mul_of_pos_left h1 (two_pow_pos j)
    omega
  · rw [Nat.le_log2 hN, pow_add]
    exact Nat.mul_le_mul_left _ (Nat.log2_self_le hn)

/-- Rounding to the nearest whole number looks at the quotient only. -/
theorem roundMantissa_scale (c p den : Nat) (hc : 0 < c) :
    roundMantissa (c * p) (c * den) = roundMantissa p den := by
  unfold roundMantissa
  rw [Nat.mul_div_mul_left _ _ hc, Nat.mul_mod_mul_left]
  have e2 : ∀ a b : Nat, (2 * (c * a) < c * b) ↔ (2 * a < b) := by
    intro a b
    have : 2 * (c * a) = c * (2 * a) := by ring
    rw [this]
    exact Nat.mul_lt_mul_left hc
  have e3 : ∀ a b : Nat, (c * b < 2 * (c * a)) ↔ (b < 2 * a) := by
    intro a b
    have : 2 * (c * a) = c * (2 * a) := by ring
    rw [this]
    exact Nat.mul_lt_mul_left hc
  simp only [e2, e3]

/-- Scaling a whole number of units by `2^j` scales its rounding by `2^j`, as
long as the scaled rounding does not overflow. -/
theorem floatMagnitude_roundMag_two_pow_mul (j n : Nat)
    (h : roundMag (2 ^ j * n) 1 < 0x7f800000) :
    floatMagnitude (roundMag (2 ^ j * n) 1) = 2 ^ j * floatMagnitude (roundMag n 1) := by
  by_cases hn : n = 0
  · subst hn
    simp only [Nat.mul_zero, roundMag_zero]
    rw [show floatMagnitude 0 = 0 by decide, Nat.mul_zero]
  have hpat' : quantumExp (2 ^ j * n) 1 * 8388608
      + roundMantissa (2 ^ j * n) (1 * 2 ^ quantumExp (2 ^ j * n) 1) < 0x7f800000 := by
    unfold roundMag at h
    by_contra hc
    rw [min_eq_right (by omega)] at h
    omega
  have hk' : quantumExp (2 ^ j * n) 1 = j + n.log2 - 23 := by
    rw [quantumExp_eq, Nat.div_one, log2_two_pow_mul j n hn]
  have hk : quantumExp n 1 = n.log2 - 23 := by
    rw [quantumExp_eq, Nat.div_one]
  rw [floatMagnitude_roundMag _ _ hpat']
  by_cases hlog : 23 ≤ n.log2
  · -- the rounded mantissa is the same, the quantum is scaled
    have hkk : quantumExp (2 ^ j * n) 1 = j + quantumExp n 1 := by omega
    have hden : 1 * 2 ^ quantumExp (2 ^ j * n) 1 = 2 ^ j * (1 * 2 ^ quantumExp n 1) := by
      rw [hkk, pow_add]; ring
    have hrm : roundMantissa (2 ^ j * n) (1 * 2 ^ quantumExp (2 ^ j * n) 1)
        = roundMantissa n (1 * 2 ^ quantumExp n 1) := by
      rw [hden, roundMantissa_scale _ _ _ (two_pow_pos j)]
    have hpat : quantumExp n 1 * 8388608 + roundMantissa n (1 * 2 ^ quantumExp n 1)
        < 0x7f800000 := by
      rw [hrm, hkk] at hpat'
      omega
    rw [floatMagnitude_roundMag _ _ hpat, hrm, hkk, pow_add]
    ring
  · -- below 2^23 units both roundings are exact
    have hn24 : n < 16777216 := by
      have : n.log2 < 24 := by omega
      exact (Nat.log2_lt hn).1 this
    have hexact : floatMagnitude (roundMag n 1) = n := by
      have hmag : floatMagnitude n = n := by
        have := floatMagnitude_pattern 0 n (Or.inl ⟨rfl, by omega⟩) (by omega)
        simpa using this
      have := roundMag_exact n (by omega)
      rw [hmag] at this
      rw [this, hmag]
    have hle : quantumExp (2 ^ j * n) 1 ≤ j := by omega
    obtain ⟨K, hK⟩ : ∃ K, K = quantumExp (2 ^ j * n) 1 := ⟨_, rfl⟩
    rw [← hK] at hle ⊢
    obtain ⟨i, hi⟩ : ∃ i, j = K + i := ⟨j - K, by omega⟩
    have hN : 2 ^ j * n = (2 ^ i * n) * (1 * 2 ^ K) := by
      rw [hi, pow_add]
      ring
    have hrm : roundMantissa (2 ^ j * n) (1 * 2 ^ K) = 2 ^ i * n := by
      rw [hN]
      exact roundMantissa_exact _ _ (Nat.mul_pos (by norm_num) (two_pow_pos _))
    rw [hrm, hexact]
    rw [hi, pow_add]
    ring

theorem scaledBy_value (j x x' : Nat) (h : scaledBy j x x') :
    floatScaled x' = 2 ^ j * floatScaled x := by
  obtain ⟨-, -, hs, hm⟩ := h
  unfold floatScaled
  rw [hs, hm]
  split
  · push_cast; ring
  · push_cast; ring

theorem scaledBy_refl_zero (j p : Nat) (hp : p = 0x00000000 ∨ p = 0x80000000) :
    scaledBy j p p := by
  rcases hp with rfl | rfl
  · exact ⟨by decide, by decide, rfl, by rw [show floatMagnitude 0 = 0 by decide]; simp⟩
  · exact ⟨by decide, by decide, rfl,
      by rw [show floatMagnitude 0x80000000 = 0 by decide]; simp⟩

theorem scaledBy_floatLt (j x x' y y' : Nat) (hx : scaledBy j x x') (hy : scaledBy j y y') :
    floatLt x' y' ↔ floatLt x y := by
  have hp : (0 : Int) < 2 ^ j := by positivity
  rw [floatLt_iff _ _ (not_isNaN_of_isFinite _ hx.2.1) (not_isNaN_of_isFinite _ hy.2.1),
    floatLt_iff _ _ (not_isNaN_of_isFinite _ hx.1) (not_isNaN_of_isFinite _ hy.1),
    scaledBy_value j x x' hx, scaledBy_value j y y' hy]
  exact mul_lt_mul_left hp

theorem scaledBy_floatEq (j x x' y y' : Nat) (hx : scaledBy j x x') (hy : scaledBy j y y') :
    floatEq x' y' ↔ floatEq x y := by
  have hp : (2 : Int) ^ j ≠ 0 := by positivity
  rw [floatEq_iff _ _ (not_isNaN_of_isFinite _ hx.2.1) (not_isNaN_of_isFinite _ hy.2.1),
    floatEq_iff _ _ (not_isNaN_of_isFinite _ hx.1) (not_isNaN_of_isFinite _ hy.1),
    scaledBy_value j x x' hx, scaledBy_value j y y' hy]
  exact mul_right_inj' hp

theorem scaledBy_stdMax (j x x' y y' : Nat) (hx : scaledBy j x x') (hy : scaledBy j y y') :
    scaledBy j (stdMax x y) (stdMax x' y') := by
  unfold stdMax
  by_cases h : floatLt x y
  · rw [if_pos h, if_pos ((scaledBy_floatLt j x x' y y' hx hy).mpr h)]
    exact hy
  · rw [if_neg h, if_neg (fun h' => h ((scaledBy_floatLt j x x' y y' hx hy).mp h'))]
    exact hx

theorem scaledBy_stdMin (j x x' y y' : Nat) (hx : scaledBy j x x') (hy : scaledBy j y y') :
    scaledBy j (stdMin x y) (stdMin x' y') := by
  unfold stdMin
  by_cases h : floatLt y x
  · rw [if_pos h, if_pos ((scaledBy_floatLt j y y' x x' hy hx).mpr h)]
    exact hy
  · rw [if_neg h, if_neg (fun h' => h ((scaledBy_floatLt j y y' x x' hy hx).mp h'))]
    exact hx

theorem scaledBy_floatNeg (j x x' : Nat) (h : scaledBy j x x') :
    scaledBy j (floatNeg x) (floatNeg x') := by
  obtain ⟨h1, h2, h3, h4⟩ := h
  obtain ⟨a1, -, a3, -⟩ := floatNeg_fields x
  obtain ⟨b1, -, b3, -⟩ := floatNeg_fields x'
  refine ⟨a3.mpr h1, b3.mpr h2, ?_, by rw [a1, b1, h4]⟩
  unfold floatNeg
  by_cases hs : signBit x = 0
  · rw [if_pos hs, if_pos (by rw [h3]; exact hs)]
    unfold signBit at hs h3 ⊢
    omega
  · rw [if_neg hs, if_neg (by rw [h3]; exact hs)]
    unfold signBit at hs h3 ⊢
    omega

/-- The quotient of two floats scaled by the same power of two is the
quotient of the two floats. -/
theorem fdiv_scaledBy (j x x' y y' : Nat) (hx : scaledBy j x x') (hy : scaledBy j y y') :
    fdiv x' y' = fdiv x y := by
  obtain ⟨fx, fx', sx, mx⟩ := hx
  obtain ⟨fy, fy', sy, my⟩ := hy
  have hp : 0 < 2 ^ j := two_pow_pos j
  have z1 : floatMagnitude x' = 0 ↔ floatMagnitude x = 0 := by
    rw [mx]
    constructor
    · intro h
      rcases Nat.mul_eq_zero.mp h with h | h
      · omega
      · exact h
    · intro h; rw [h, Nat.mul_zero]
  have z2 : floatMagnitude y' = 0 ↔ floatMagnitude y = 0 := by
    rw [my]
    constructor
    · intro h
      rcases Nat.mul_eq_zero.mp h with h | h
      · omega
      · exact h
    · intro h; rw [h, Nat.mul_zero]
  have hsx : signXor x' y' = signXor x y := by unfold signXor; rw [sx, sy]
  have n1 : ¬ (isNaN x' ∨ isNaN y') := by
    rintro (h | h)
    · exact not_isNaN_of_isFinite _ fx' h
    · exact not_isNaN_of_isFinite _ fy' h
  have n2 : ¬ (isNaN x ∨ isNaN y) := by
    rintro (h | h)
    · exact not_isNaN_of_isFinite _ fx h
    · exact not_isNaN_of_isFinite _ fy h
  unfold fdiv
  rw [if_neg n1, if_neg n2]
  by_cases hzz : floatMagnitude x = 0 ∧ floatMagnitude y = 0
  · rw [if_pos (Or.inr hzz), if_pos (Or.inr ⟨z1.mpr hzz.1, z2.mpr hzz.2⟩)]
  · have c2 : ¬ ((isInf x ∧ isInf y) ∨ (floatMagnitude x = 0 ∧ floatMagnitude y = 0)) := by
      rintro (h | h)
      · exact not_isInf_of_isFinite _ fx h.1
      · exact hzz h
    have c2' : ¬ ((isInf x' ∧ isInf y') ∨
        (floatMagnitude x' = 0 ∧ floatMagnitude y' = 0)) := by
      rintro (h | h)
      · exact not_isInf_of_isFinite _ fx' h.1
      · exact hzz ⟨z1.mp h.1, z2.mp h.2⟩
    rw [if_neg c2, if_neg c2']
    by_cases hy0 : floatMagnitude y = 0
    · rw [if_pos (Or.inr hy0), if_pos (Or.inr (z2.mpr hy0)), hsx]
    · have c3 : ¬ (isInf x ∨ floatMagnitude y = 0) := by
        rintro (h | h)
        · exact not_isInf_of_isFinite _ fx h
        · exact hy0 h
      have c3' : ¬ (isInf x' ∨ floatMagnitude y' = 0) := by
        rintro (h | h)
        · exact not_isInf_of_isFinite _ fx' h
        · exact hy0 (z2.mp h)
      rw [if_neg c3, if_neg c3', if_neg (not_isInf_of_isFinite _ fy),
        if_neg (not_isInf_of_isFinite _ fy'), hsx, mx, my]
      unfold roundSigned
      have : 2 ^ j * floatMagnitude x * 2 ^ 149 = 2 ^ j * (floatMagnitude x * 2 ^ 149) := by
        ring
      rw [this, roundMag_scale _ _ _ hp]

/-- A signed rounding is finite exactly when the rounding of its magnitude is
below the pattern of infinity. -/
theorem isFinite_roundSigned (s p q : Nat) (hs : s = 0 ∨ s = 1) :
    isFinite (roundSigned s p q) ↔ roundMag p q < 0x7f800000 := by
  have hle := roundMag_le_inf p q
  unfold isFinite expField roundSigned
  rcases hs with rfl | rfl <;> constructor <;> intro h <;> omega

/-- The sum of two floats scaled by the same power of two is the scaled sum,
when it does not overflow. -/
theorem scaledBy_fadd (j x x' y y' : Nat) (hx : scaledBy j x x') (hy : scaledBy j y y')
    (hfin : isFinite (fadd x' y')) : scaledBy j (fadd x y) (fadd x' y') := by
  have vx := scaledBy_value j x x' hx
  have vy := scaledBy_value j y y' hy
  obtain ⟨fx, fx', sx, mx⟩ := hx
  obtain ⟨fy, fy', sy, my⟩ := hy
  have hp : (0 : Int) < 2 ^ j := by positivity
  have hsum : floatScaled x' + floatScaled y' = 2 ^ j * (floatScaled x + floatScaled y) := by
    rw [vx, vy]; ring
  have n1 : ¬ (isNaN x' ∨ isNaN y') := by
    rintro (h | h)
    · exact not_isNaN_of_isFinite _ fx' h
    · exact not_isNaN_of_isFinite _ fy' h
  have n2 : ¬ (isNaN x ∨ isNaN y) := by
    rintro (h | h)
    · exact not_isNaN_of_isFinite _ fx h
    · exact not_isNaN_of_isFinite _ fy h
  have key : ∀ (s n : Nat), (s = 0 ∨ s = 1) → isFinite (roundSigned s (2 ^ j * n) 1) →
      scaledBy j (roundSigned s n 1) (roundSigned s (2 ^ j * n) 1) := by
    intro s n hs hf
    have h1 := (isFinite_roundSigned s _ 1 hs).mp hf
    have h2 : roundMag n 1 ≤ roundMag (2 ^ j * n) 1 :=
      roundMag_mono n 1 (2 ^ j * n) 1 (by norm_num) (by norm_num)
        (by rw [Nat.mul_one, Nat.mul_one]; exact Nat.le_mul_of_pos_left n (two_pow_pos j))
    obtain ⟨a1, a2, -, -⟩ := roundSigned_fields s n 1 hs
    obtain ⟨b1, b2, -, -⟩ := roundSigned_fields s (2 ^ j * n) 1 hs
    refine ⟨(isFinite_roundSigned s _ 1 hs).mpr (by omega), hf, by rw [a1, b1], ?_⟩
    rw [a2, b2]
    exact floatMagnitude_roundMag_two_pow_mul j n h1
  have hres' : fadd x' y' =
      if floatScaled x' + floatScaled y' = 0 then
        (if signBit x' = 1 ∧ signBit y' = 1 then 0x80000000 else 0)
      else if 0 < floatScaled x' + floatScaled y' then
        roundSigned 0 (floatScaled x' + floatScaled y').toNat 1
      else roundSigned 1 (-(floatScaled x' + floatScaled y')).toNat 1 := by
    unfold fadd
    rw [if_neg n1, if_neg (not_isInf_of_isFinite _ fx'), if_neg (not_isInf_of_isFinite _ fy')]
  have hres : fadd x y =
      if floatScaled x + floatScaled y = 0 then
        (if signBit x = 1 ∧ signBit y = 1 then 0x80000000 else 0)
      else if 0 < floatScaled x + floatScaled y then
        roundSigned 0 (floatScaled x + floatScaled y).toNat 1
      else roundSigned 1 (-(floatScaled x + floatScaled y)).toNat 1 := by
    unfold fadd
    rw [if_neg n2, if_neg (not_isInf_of_isFinite _ fx), if_neg (not_isInf_of_isFinite _ fy)]
  rw [hres'] at hfin
  rw [hres, hres']
  by_cases h0 : floatScaled x + floatScaled y = 0
  · have h0' : floatScaled x' + floatScaled y' = 0 := by rw [hsum, h0, mul_zero]
    rw [if_pos h0, if_pos h0', sx, sy]
    split
    · exact scaledBy_refl_zero j _ (Or.inr rfl)
    · exact scaledBy_refl_zero j _ (Or.inl rfl)
  · have h0' : ¬ (floatScaled x' + floatScaled y' = 0) := by
      rw [hsum]
      intro h
      rcases mul_eq_zero.mp h with h | h
      · omega
      · exact h0 h
    rw [if_neg h0'] at hfin
    rw [if_neg h0, if_neg h0']
    by_cases hpos : 0 < floatScaled x + floatScaled y
    · have hpos' : 0 < floatScaled x' + floatScaled y' := by
        rw [hsum]; exact mul_pos hp hpos
      obtain ⟨n, hn⟩ := Int.eq_ofNat_of_zero_le (le_of_lt hpos)
      have hn' : floatScaled x' + floatScaled y' = ((2 ^ j * n : Nat) : Int) := by
        rw [hsum, hn]; push_cast; ring
      rw [if_pos hpos'] at hfin
      rw [if_pos hpos, if_pos hpos']
      rw [hn'] at hfin ⊢
      rw [hn]
      rw [Int.toNat_ofNat] at hfin ⊢
      rw [Int.toNat_ofNat]
      exact key 0 n (Or.inl rfl) hfin
    · have hpos' : ¬ (0 < floatScaled x' + floatScaled y') := by
        rw [hsum]
        intro h
        have : 0 < floatScaled x + floatScaled y := by
          by_contra hc
          have h5 : floatScaled x + floatScaled y ≤ 0 := by omega
          have := mul_nonpos_of_nonneg_of_nonpos (le_of_lt hp) h5
          omega
        exact hpos this
      obtain ⟨n, hn⟩ := Int.eq_ofNat_of_zero_le
        (show 0 ≤ -(floatScaled x + floatScaled y) by omega)
      have hn' : -(floatScaled x' + floatScaled y') = ((2 ^ j * n : Nat) : Int) := by
        rw [hsum, ← mul_neg, hn]; push_cast; ring
      rw [if_neg hpos'] at hfin
      rw [if_neg hpos, if_neg hpos']
      rw [hn'] at hfin ⊢
      rw [hn]
      rw [Int.toNat_ofNat] at hfin ⊢
      rw [Int.toNat_ofNat]
      exact key 1 n (Or.inr rfl) hfin

theorem scaledBy_fsub (j x x' y y' : Nat) (hx : scaledBy j x x') (hy : scaledBy j y y')
    (hfin : isFinite (fsub x' y')) : scaledBy j (fsub x y) (fsub x' y') :=
  scaledBy_fadd j x x' (floatNeg y) (floatNeg y') hx (scaledBy_floatNeg j y y' hy) hfin

theorem floatMagnitude_lt_of_isFinite (x : Nat) (h : isFinite x) :
    floatMagnitude x < floatMagnitude 0x7f800000 :=
  floatMagnitude_lt x 0x7f800000 (by have := low31_lt_of_isFinite x h; omega)

theorem isFinite_of_magnitude_lt (x : Nat) (hn : ¬ isNaN x)
    (h : floatMagnitude x < floatMagnitude 0x7f800000) : isFinite x := by
  intro he
  have hf : fracField x = 0 := by
    by_contra hf
    exact hn ⟨he, hf⟩
  have h1 := floatMagnitude_of_isInf x ⟨he, hf⟩
  have h2 := floatMagnitude_of_isInf 0x7f800000 (by decide)
  omega

/-- A difference that is no larger in absolute value than a difference whose
float is finite has a finite float. -/
theorem isFinite_fsub_of_le (a b c d : Nat) (ha : isFinite a) (hb : isFinite b)
    (hc : isFinite c) (hd : isFinite d)
    (h1 : floatScaled a - floatScaled b ≤ floatScaled c - floatScaled d)
    (h2 : -(floatScaled c - floatScaled d) ≤ floatScaled a - floatScaled b)
    (hfin : isFinite (fsub c d)) : isFinite (fsub a b) := by
  obtain ⟨va, na, -⟩ := fsub_value a b ha hb
  obtain ⟨vc, -, -⟩ := fsub_value c d hc hd
  have m1 := roundValue_mono (floatScaled a - floatScaled b) 1
    (floatScaled c - floatScaled d) 1 (by norm_num) (by norm_num)
    (by rw [Nat.cast_one, mul_one, mul_one]; exact h1)
  have m2 := roundValue_mono (-(floatScaled c - floatScaled d)) 1
    (floatScaled a - floatScaled b) 1 (by norm_num) (by norm_num)
    (by rw [Nat.cast_one, mul_one, mul_one]; exact h2)
  rw [roundValue_neg] at m2
  rw [← va, ← vc] at m1
  rw [← va, ← vc] at m2
  have hlt := floatMagnitude_lt_of_isFinite _ hfin
  apply isFinite_of_magnitude_lt _ na
  rcases floatScaled_cases (fsub a b) with ⟨-, e1⟩ | ⟨-, e1⟩ <;>
    rcases floatScaled_cases (fsub c d) with ⟨-, e2⟩ | ⟨-, e2⟩ <;> omega

/-- Each channel lies between the minimum and the maximum of the three. -/
theorem channel_order (r g b : Nat) (hr : ¬ isNaN r) (hg : ¬ isNaN g) (hb : ¬ isNaN b) :
    (floatScaled (stdMin (stdMin r g) b) ≤ floatScaled r ∧
      floatScaled r ≤ floatScaled (stdMax (stdMax r g) b)) ∧
    (floatScaled (stdMin (stdMin r g) b) ≤ floatScaled g ∧
      floatScaled g ≤ floatScaled (stdMax (stdMax r g) b)) ∧
    (floatScaled (stdMin (stdMin r g) b) ≤ floatScaled b ∧
      floatScaled b ≤ floatScaled (stdMax (stdMax r g) b)) := by
  obtain ⟨x1, x2, x3⟩ := stdMax_spec r g hr hg
  obtain ⟨n1, n2, n3⟩ := stdMin_spec r g hr hg
  have hxn : ¬ isNaN (stdMax r g) := by rcases x1 with h | h <;> rw [h] <;> assumption
  have hnn : ¬ isNaN (stdMin r g) := by rcases n1 with h | h <;> rw [h] <;> assumption
  obtain ⟨-, y2, y3⟩ := stdMax_spec (stdMax r g) b hxn hb
  obtain ⟨-, m2, m3⟩ := stdMin_spec (stdMin r g) b hnn hb
  refine ⟨⟨?_, ?_⟩, ⟨?_, ?_⟩, ⟨?_, ?_⟩⟩ <;> omega

/-- Hue and saturation of a triple scaled by a power of two without rounding are
those of the triple, when the difference `max - min` of the scaled triple does
not overflow. -/
theorem rgb_to_hsv_scaledBy (j r g b r' g' b' : Nat) (hr : scaledBy j r r')
    (hg : scaledBy j g g') (hb : scaledBy j b b')
    (hfin : isFinite (fsub (stdMax (stdMax r' g') b') (stdMin (stdMin r' g') b'))) :
    (rgb_to_hsv r' g' b').1 = (rgb_to_hsv r g b).1 ∧
    (rgb_to_hsv r' g' b').2.1 = (rgb_to_hsv r g b).2.1 := by
  have hmx := scaledBy_stdMax j _ _ _ _ (scaledBy_stdMax j r r' g g' hr hg) hb
  have hmn := scaledBy_stdMin j _ _ _ _ (scaledBy_stdMin j r r' g g' hr hg) hb
  have hd := scaledBy_fsub j _ _ _ _ hmx hmn hfin
  have hz := scaledBy_refl_zero j 0x00000000 (Or.inl rfl)
  have c1 := scaledBy_floatEq j _ _ _ _ hmx hz
  have c2 := scaledBy_floatEq j _ _ _ _ hd hz
  have c3 := scaledBy_floatEq j _ _ _ _ hr hmx
  have c4 := scaledBy_floatEq j _ _ _ _ hg hmx
  have hs := fdiv_scaledBy j _ _ _ _ hd hmx
  obtain ⟨⟨r1, r2⟩, ⟨g1, g2⟩, ⟨b1, b2⟩⟩ := channel_order r' g' b'
    (not_isNaN_of_isFinite _ hr.2.1) (not_isNaN_of_isFinite _ hg.2.1)
    (not_isNaN_of_isFinite _ hb.2.1)
  have fgb : isFinite (fsub g' b') :=
    isFinite_fsub_of_le g' b' _ _ hg.2.1 hb.2.1 hmx.2.1 hmn.2.1 (by omega) (by omega) hfin
  have fbr : isFinite (fsub b' r') :=
    isFinite_fsub_of_le b' r' _ _ hb.2.1 hr.2.1 hmx.2.1 hmn.2.1 (by omega) (by omega) hfin
  have frg : isFinite (fsub r' g') :=
    isFinite_fsub_of_le r' g' _ _ hr.2.1 hg.2.1 hmx.2.1 hmn.2.1 (by omega) (by omega) hfin
  have q1 := fdiv_scaledBy j _ _ _ _ (scaledBy_fsub j g g' b b' hg hb fgb) hd
  have q2 := fdiv_scaledBy j _ _ _ _ (scaledBy_fsub j b b' r r' hb hr fbr) hd
  have q3 := fdiv_scaledBy j _ _ _ _ (scaledBy_fsub j r r' g g' hr hg frg) hd
  obtain ⟨mx, hmxe⟩ : ∃ mx, mx = stdMax (stdMax r g) b := ⟨_, rfl⟩
  obtain ⟨mn, hmne⟩ : ∃ mn, mn = stdMin (stdMin r g) b := ⟨_, rfl⟩
  obtain ⟨mx', hmxe'⟩ : ∃ mx', mx' = stdMax (stdMax r' g') b' := ⟨_, rfl⟩
  obtain ⟨mn', hmne'⟩ : ∃ mn', mn' = stdMin (stdMin r' g') b' := ⟨_, rfl⟩
  rw [← hmxe, ← hmxe'] at c1 c3 c4 hs
  rw [← hmxe, ← hmxe', ← hmne, ← hmne'] at c2 q1 q2 q3
  rw [← hmne, ← hmne'] at hs
  have hH : (if floatEq (fsub mx' mn') 0x00000000 then 0x00000000
        else if floatEq r' mx' then fdiv (fsub g' b') (fsub mx' mn')
        else if floatEq g' mx' then fadd 0x40000000 (fdiv (fsub b' r') (fsub mx' mn'))
        else fadd 0x40800000 (fdiv (fsub r' g') (fsub mx' mn')))
      = (if floatEq (fsub mx mn) 0x00000000 then 0x00000000
        else if floatEq r mx then fdiv (fsub g b) (fsub mx mn)
        else if floatEq g mx then fadd 0x40000000 (fdiv (fsub b r) (fsub mx mn))
        else fadd 0x40800000 (fdiv (fsub r g) (fsub mx mn))) := by
    rw [q1, q2, q3]
    by_cases k1 : floatEq (fsub mx mn) 0x00000000
    · rw [if_pos k1, if_pos (c2.mpr k1)]
    · rw [if_neg k1, if_neg (fun h => k1 (c2.mp h))]
      by_cases k2 : floatEq r mx
      · rw [if_pos k2, if_pos (c3.mpr k2)]
      · rw [if_neg k2, if_neg (fun h => k2 (c3.mp h))]
        by_cases k3 : floatEq g mx
        · rw [if_pos k3, if_pos (c4.mpr k3)]
        · rw [if_neg k3, if_neg (fun h => k3 (c4.mp h))]
  unfold rgb_to_hsv
  simp only [← hmxe, ← hmne, ← hmxe', ← hmne']
  by_cases hzero : floatEq mx 0x00000000
  · rw [if_neg (not_not.mpr hzero), if_neg (not_not.mpr (c1.mpr hzero))]
    exact ⟨rfl, rfl⟩
  · rw [if_pos hzero, if_pos (fun h => hzero (c1.mp h))]
    simp only []
    rw [hH, hs]
    exact ⟨rfl, rfl⟩

theorem floatMagnitude_isPowerOfTwo (k : Nat) (hk : isPowerOfTwo k) :
    floatMagnitude k = 8388608 * 2 ^ (expField k - 1) ∧
    floatScaled k = ((8388608 * 2 ^ (expField k - 1) : Nat) : Int) ∧ isFinite k := by
  obtain ⟨h1, h2, h3, h4⟩ := hk
  have hm : floatMagnitude k = 8388608 * 2 ^ (expField k - 1) := by
    unfold floatMagnitude magnitudeOf
    rw [if_neg (by omega), h2]
  refine ⟨hm, ?_, ?_⟩
  · unfold floatScaled
    rw [if_pos h1, hm]
  · unfold isFinite
    omega

/-- An exact product by a power of two `2^(e-127)` scales the float by
`2^(e-127)`: up when `e >= 127`, down when `e <= 127`. -/
theorem scaledBy_of_exactProduct (k x : Nat) (hk : isPowerOfTwo k) (hx : isFinite x)
    (hp : exactProduct k x) :
    (127 ≤ expField k → scaledBy (expField k - 127) x (fmul k x)) ∧
    (expField k ≤ 127 → scaledBy (127 - expField k) (fmul k x) x) := by
  obtain ⟨km, kv, kf⟩ := floatMagnitude_isPowerOfTwo k hk
  obtain ⟨hf, hv⟩ := hp
  have hsign : signBit (fmul k x) = signBit x := by
    have c1 : ¬ (isNaN k ∨ isNaN x) := by
      rintro (h | h)
      · exact not_isNaN_of_isFinite k kf h
      · exact not_isNaN_of_isFinite x hx h
    have c2 : ¬ ((isInf k ∧ floatMagnitude x = 0) ∨ (floatMagnitude k = 0 ∧ isInf x)) := by
      rintro (h | h)
      · exact not_isInf_of_isFinite k kf h.1
      · exact not_isInf_of_isFinite x hx h.2
    have c3 : ¬ (isInf k ∨ isInf x) := by
      rintro (h | h)
      · exact not_isInf_of_isFinite k kf h
      · exact not_isInf_of_isFinite x hx h
    have hsx : signXor k x = signBit x := by
      unfold signXor
      rw [hk.1]
      rcases signBit_le_one x with h | h
      · rw [h, if_pos rfl]
      · rw [h, if_neg (by omega)]
    unfold fmul
    rw [if_neg c1, if_neg c2, if_neg c3]
    rw [(roundSigned_fields _ _ _ (signXor_le_one k x)).1, hsx]
  have hmag : floatMagnitude (fmul k x) * 2 ^ 149
      = 8388608 * 2 ^ (expField k - 1) * floatMagnitude x := by
    have hc : ((2 ^ 149 : Nat) : Int) = (2 : Int) ^ 149 := by norm_num
    obtain ⟨P, hP⟩ : ∃ P : Nat, P = 2 ^ 149 := ⟨_, rfl⟩
    obtain ⟨Q, hQ⟩ : ∃ Q : Nat, Q = 8388608 * 2 ^ (expField k - 1) := ⟨_, rfl⟩
    rw [kv, ← hc, ← hP, ← hQ] at hv
    rw [← hP, ← hQ]
    rcases floatScaled_cases (fmul k x) with ⟨s1, e1⟩ | ⟨s1, e1⟩ <;>
      rcases floatScaled_cases x with ⟨s2, e2⟩ | ⟨s2, e2⟩
    · rw [e1, e2] at hv
      exact_mod_cast hv
    · omega
    · omega
    · rw [e1, e2] at hv
      have h2 : (floatMagnitude (fmul k x) : Int) * (P : Int)
          = (Q : Int) * (floatMagnitude x : Int) := by
        simp only [neg_mul, mul_neg, neg_inj] at hv
        exact hv
      exact_mod_cast h2
  have hpos : 0 < 2 ^ 149 := two_pow_pos 149
  constructor
  · intro he
    refine ⟨hx, hf, hsign, ?_⟩
    have e1 : 8388608 * 2 ^ (expField k - 1) = 2 ^ (expField k - 127) * 2 ^ 149 := by
      have h23 : (8388608 : Nat) = 2 ^ 23 := by norm_num
      have hexp : 23 + (expField k - 1) = expField k - 127 + 149 := by omega
      rw [h23, ← pow_add, ← pow_add, hexp]
    rw [e1] at hmag
    apply Nat.eq_of_mul_eq_mul_right hpos
    rw [hmag]
    ring
  · intro he
    refine ⟨hf, hx, hsign.symm, ?_⟩
    have e1 : 2 ^ (127 - expField k) * (8388608 * 2 ^ (expField k - 1)) = 2 ^ 149 := by
      have h23 : (8388608 : Nat) = 2 ^ 23 := by norm_num
      have hexp : 127 - expField k + (23 + (expField k - 1)) = 149 := by
        have := hk.2.2.1
        omega
      rw [h23, ← pow_add, ← pow_add, hexp]
    apply Nat.eq_of_mul_eq_mul_right hpos
    calc floatMagnitude x * 2 ^ 149
        = 2 ^ (127 - expField k) * (8388608 * 2 ^ (expField k - 1)) * floatMagnitude x := by
          rw [e1]; ring
      _ = 2 ^ (127 - expField k) * (floatMagnitude (fmul k x) * 2 ^ 149) := by
          rw [hmag]; ring
      _ = 2 ^ (127 - expField k) * floatMagnitude (fmul k x) * 2 ^ 149 := by ring

theorem rgb_to_hsv_value (r g b : Nat) : (rgb_to_hsv r g b).2.2 = stdMax (stdMax r g) b := by
  unfold rgb_to_hsv
  simp only []
  split <;> rfl

theorem stdMax_map (F : Nat → Nat) (x y : Nat) (h : floatLt (F x) (F y) ↔ floatLt x y) :
    stdMax (F x) (F y) = F (stdMax x y) := by
  unfold stdMax
  by_cases hlt : floatLt x y
  · rw [if_pos hlt, if_pos (h.mpr hlt)]
  · rw [if_neg hlt, if_neg (fun h' => hlt (h.mp h'))]

theorem stdMax_map3 (F : Nat → Nat) (r g b : Nat)
    (h1 : floatLt (F r) (F g) ↔ floatLt r g) (h2 : floatLt (F r) (F b) ↔ floatLt r b)
    (h3 : floatLt (F g) (F b) ↔ floatLt g b) :
    stdMax (stdMax (F r) (F g)) (F b) = F (stdMax (stdMax r g) b) := by
  rw [stdMax_map F r g h1]
  apply stdMax_map F
  unfold stdMax
  split
  · exact h3
  · exact h2

/-! ## The claims on `rgb_to_hsv` -/

/-- A finite float minus itself is positive zero. -/
theorem fsub_self_of_isFinite (c : Nat) (hf : isFinite c) : fsub c c = 0x00000000 := by
  obtain ⟨-, h2, h3, -⟩ := floatNeg_fields c
  have hfn : isFinite (floatNeg c) := h3.mpr hf
  have c1 : ¬ (isNaN c ∨ isNaN (floatNeg c)) := by
    rintro (h | h)
    · exact not_isNaN_of_isFinite c hf h
    · exact not_isNaN_of_isFinite _ hfn h
  have hsum : floatScaled c + floatScaled (floatNeg c) = 0 := by rw [h2]; omega
  have hsign : ¬ (signBit c = 1 ∧ signBit (floatNeg c) = 1) := by
    rintro ⟨s1, s2⟩
    unfold floatNeg at s2
    rw [if_neg (by omega)] at s2
    unfold signBit at s1 s2
    omega
  unfold fsub fadd
  rw [if_neg c1, if_neg (not_isInf_of_isFinite c hf), if_neg (not_isInf_of_isFinite _ hfn),
    if_pos hsum, if_neg hsign]

theorem stdMax_self (c : Nat) : stdMax c c = c := by
  unfold stdMax; split <;> rfl

theorem stdMin_self (c : Nat) : stdMin c c = c := by
  unfold stdMin; split <;> rfl

set_option maxRecDepth 100000 in
/-- C14, as stated, fails: positive infinity (pattern `0x7f800000`) is a `c > 0`,
and `rgb_to_hsv(c, 0, 0)` has the saturation `inf / inf`, a NaN, instead
of 1. -/
theorem rgb_to_hsv_red_fails_at_infinity :
    floatLt 0x00000000 0x7f800000 ∧
    rgb_to_hsv 0x7f800000 0x00000000 0x00000000 = (0x00000000, 0x7fc00000, 0x7f800000) ∧
    isNaN (rgb_to_hsv 0x7f800000 0x00000000 0x00000000).2.1 ∧
    rgb_to_hsv 0x7f800000 0x00000000 0x00000000 ≠ (0x00000000, 0x3f800000, 0x7f800000) := by
  decide

set_option maxRecDepth 100000 in
/-- C14, amended (binary32 arithmetic, each operation rounded to nearest
even): for every `r`, `g`, `b` with `max != 0` and `delta != 0`, where `max`
is `std::max(std::max(r,g),b)` and `delta` is the float `max - min`,
`rgb_to_hsv` returns `v = max`, `s = delta/max`, and, `t` being
`(g-b)/delta` when `r == max`, else `2 + (b-r)/delta` when `g == max`, else
`4 + (r-g)/delta`: `h = t*60` if `t >= 0`, else `t*60 + 360`, when `t` is not a
NaN, and a NaN when `t` is one.  For every finite `c > 0`,
`rgb_to_hsv(c,0,0) = (0,1,c)` and `rgb_to_hsv(0,c,0) = (120,1,c)`. -/
theorem rgb_to_hsv_chromatic (r g b : Nat) :
    (¬ floatEq (stdMax (stdMax r g) b) 0x00000000 →
      ¬ floatEq (fsub (stdMax (stdMax r g) b) (stdMin (stdMin r g) b)) 0x00000000 →
      (rgb_to_hsv r g b).2.2 = stdMax (stdMax r g) b ∧
      (rgb_to_hsv r g b).2.1
        = fdiv (fsub (stdMax (stdMax r g) b) (stdMin (stdMin r g) b)) (stdMax (stdMax r g) b) ∧
      ∃ t : Nat,
        t = (if floatEq r (stdMax (stdMax r g) b) then
              fdiv (fsub g b) (fsub (stdMax (stdMax r g) b) (stdMin (stdMin r g) b))
            else if floatEq g (stdMax (stdMax r g) b) then
              fadd 0x40000000
                (fdiv (fsub b r) (fsub (stdMax (stdMax r g) b) (stdMin (stdMin r g) b)))
            else
              fadd 0x40800000
                (fdiv (fsub r g) (fsub (stdMax (stdMax r g) b) (stdMin (stdMin r g) b)))) ∧
        (¬ isNaN t → (rgb_to_hsv r g b).1
          = if floatLe 0x00000000 t then fmul t 0x42700000
            else fadd (fmul t 0x42700000) 0x43b40000) ∧
        (isNaN t → isNaN (rgb_to_hsv r g b).1)) ∧
    (∀ c : Nat, c < 4294967296 → isFinite c → floatLt 0x00000000 c →
      rgb_to_hsv c 0x00000000 0x00000000 = (0x00000000, 0x3f800000, c) ∧
      rgb_to_hsv 0x00000000 c 0x00000000 = (0x42f00000, 0x3f800000, c)) := by
  constructor
  · intro hmax hdelta
    refine ⟨?_, ?_, _, rfl, ?_, ?_⟩
    · unfold rgb_to_hsv
      simp only [if_pos hmax]
    · unfold rgb_to_hsv
      simp only [if_pos hmax]
    · intro hn
      unfold rgb_to_hsv
      simp only [if_pos hmax, if_neg hdelta]
      by_cases hge : floatLe 0x00000000
          (if floatEq r (stdMax (stdMax r g) b) then
              fdiv (fsub g b) (fsub (stdMax (stdMax r g) b) (stdMin (stdMin r g) b))
            else if floatEq g (stdMax (stdMax r g) b) then
              fadd 0x40000000
                (fdiv (fsub b r) (fsub (stdMax (stdMax r g) b) (stdMin (stdMin r g) b)))
            else
              fadd 0x40800000
                (fdiv (fsub r g) (fsub (stdMax (stdMax r g) b) (stdMin (stdMin r g) b))))
      · rw [if_pos hge, if_neg (fun h => ((fmul_sixty_neg_iff _ hn).mp h) hge)]
      · rw [if_neg hge, if_pos ((fmul_sixty_neg_iff _ hn).mpr hge)]
    · intro hn
      have hm : fmul (if floatEq r (stdMax (stdMax r g) b) then
              fdiv (fsub g b) (fsub (stdMax (stdMax r g) b) (stdMin (stdMin r g) b))
            else if floatEq g (stdMax (stdMax r g) b) then
              fadd 0x40000000
                (fdiv (fsub b r) (fsub (stdMax (stdMax r g) b) (stdMin (stdMin r g) b)))
            else
              fadd 0x40800000
                (fdiv (fsub r g) (fsub (stdMax (stdMax r g) b) (stdMin (stdMin r g) b))))
          0x42700000 = floatNaN := by
        unfold fmul
        rw [if_pos (Or.inl hn)]
      unfold rgb_to_hsv
      simp only [if_pos hmax, if_neg hdelta, hm]
      decide
  · intro c hc hf hpos
    have hz : ¬ floatLt c 0x00000000 := by
      intro h
      have h1 := h.2.2
      have h2 := hpos.2.2
      omega
    have hne : ¬ floatEq c 0x00000000 := by
      intro h
      have h1 := h.2.2
      have h2 := hpos.2.2
      omega
    have hne' : ¬ floatEq 0x00000000 c := by
      intro h
      have h1 := h.2.2
      have h2 := hpos.2.2
      omega
    have heq : floatEq c c := ⟨hpos.2.1, hpos.2.1, rfl⟩
    have hz0 : ¬ floatLt 0x00000000 0x00000000 := by decide
    have e1 : fsub 0x00000000 0x00000000 = 0x00000000 := by decide
    have e2 : fmul 0x00000000 0x42700000 = 0x00000000 := by decide
    have e3 : fadd 0x40000000 0x00000000 = 0x40000000 := by decide
    have e4 : fmul 0x40000000 0x42700000 = 0x42f00000 := by decide
    have e5 : ¬ floatLt 0x42f00000 0x00000000 := by decide
    constructor
    · have m1 : stdMax (stdMax c 0x00000000) 0x00000000 = c := by
        unfold stdMax; rw [if_neg hz, if_neg hz]
      have m2 : stdMin (stdMin c 0x00000000) 0x00000000 = 0x00000000 := by
        unfold stdMin; rw [if_pos hpos, if_neg hz0]
      unfold rgb_to_hsv
      simp only [m1, m2, fsub_zero_of_pos c hc hf hpos, if_pos hne, if_neg hne, if_pos heq,
        fdiv_self_of_pos c hf hpos, e1, fdiv_zero_of_pos c hf hpos, e2, if_neg hz0]
    · have m1 : stdMax (stdMax 0x00000000 c) 0x00000000 = c := by
        unfold stdMax; rw [if_pos hpos, if_neg hz]
      have m2 : stdMin (stdMin 0x00000000 c) 0x00000000 = 0x00000000 := by
        unfold stdMin; rw [if_neg hz, if_neg hz0]
      unfold rgb_to_hsv
      simp only [m1, m2, fsub_zero_of_pos c hc hf hpos, if_pos hne, if_neg hne, if_neg hne',
        if_pos heq, fdiv_self_of_pos c hf hpos, e1, fdiv_zero_of_pos c hf hpos, e3, e4,
        if_neg e5]

set_option maxRecDepth 100000 in
theorem rgb_to_hsv_chromatic_witness :
    rgb_to_hsv 0x3f800000 0x00000000 0x3f000000 = (0x43a50000, 0x3f800000, 0x3f800000) ∧
    rgb_to_hsv 0x40400000 0x00000000 0x00000000 = (0x00000000, 0x3f800000, 0x40400000) := by
  obtain ⟨hv, hs, t, ht, h1, -⟩ := (rgb_to_hsv_chromatic 0x3f800000 0x00000000 0x3f000000).1
    (by decide) (by decide)
  refine ⟨?_, ((rgb_to_hsv_chromatic 0 0 0).2 0x40400000 (by decide) (by decide)
    (by decide)).1⟩
  have ht' : t = 0xbf000000 := by rw [ht]; decide
  have hh := h1 (by rw [ht']; decide)
  rw [ht'] at hh
  have e : rgb_to_hsv 0x3f800000 0x00000000 0x3f000000
      = ((rgb_to_hsv 0x3f800000 0x00000000 0x3f000000).1,
        (rgb_to_hsv 0x3f800000 0x00000000 0x3f000000).2.1,
        (rgb_to_hsv 0x3f800000 0x00000000 0x3f000000).2.2) := rfl
  rw [e, hh, hs, hv]
  decide

set_option maxRecDepth 100000 in
/-- C15, as stated, fails: for the achromatic input `r = g = b = +inf`
(pattern `0x7f800000`) `delta` is `inf - inf`, a NaN, and `rgb_to_hsv` returns a
NaN hue and a NaN saturation instead of `(0, 0, c)`. -/
theorem rgb_to_hsv_gray_fails_at_infinity :
    rgb_to_hsv 0x7f800000 0x7f800000 0x7f800000 = (0x7fc00000, 0x7fc00000, 0x7f800000) ∧
    isNaN (rgb_to_hsv 0x7f800000 0x7f800000 0x7f800000).1 ∧
    isNaN (rgb_to_hsv 0x7f800000 0x7f800000 0x7f800000).2.1 ∧
    ¬ floatEq (rgb_to_hsv 0x7f800000 0x7f800000 0x7f800000).1 0x00000000 ∧
    ¬ floatEq (rgb_to_hsv 0x7f800000 0x7f800000 0x7f800000).2.1 0x00000000 := by
  decide

/-- C15, amended (binary32 arithmetic): for every `r`, `g`, `b` the `v` that
`rgb_to_hsv` returns is `std::max(std::max(r,g),b)`, which for inputs that are
not NaN is one of the three and compares `>=` to each; whenever that maximum
`== 0` the result has `s = 0` and `h = 0`; and for every achromatic input
`r = g = b = c` with `c` finite the result has `h = 0`, `s == 0` (a zero of
either sign) and `v = c`; `rgb_to_hsv(0,0,0) = (0,0,0)` and
`rgb_to_hsv(0.5,0.5,0.5) = (0,0,0.5)`. -/
theorem rgb_to_hsv_degenerate (r g b : Nat) :
    (rgb_to_hsv r g b).2.2 = stdMax (stdMax r g) b ∧
    (¬ isNaN r → ¬ isNaN g → ¬ isNaN b →
      ((rgb_to_hsv r g b).2.2 = r ∨ (rgb_to_hsv r g b).2.2 = g ∨ (rgb_to_hsv r g b).2.2 = b) ∧
      floatLe r (rgb_to_hsv r g b).2.2 ∧ floatLe g (rgb_to_hsv r g b).2.2 ∧
      floatLe b (rgb_to_hsv r g b).2.2) ∧
    (floatEq (stdMax (stdMax r g) b) 0x00000000 →
      (rgb_to_hsv r g b).2.1 = 0x00000000 ∧ (rgb_to_hsv r g b).1 = 0x00000000) ∧
    (∀ c : Nat, isFinite c →
      (rgb_to_hsv c c c).1 = 0x00000000 ∧ floatEq (rgb_to_hsv c c c).2.1 0x00000000 ∧
      (rgb_to_hsv c c c).2.2 = c) ∧
    rgb_to_hsv 0x00000000 0x00000000 0x00000000 = (0x00000000, 0x00000000, 0x00000000) ∧
    rgb_to_hsv 0x3f000000 0x3f000000 0x3f000000 = (0x00000000, 0x00000000, 0x3f000000) := by
  have hv : (rgb_to_hsv r g b).2.2 = stdMax (stdMax r g) b := by
    unfold rgb_to_hsv
    simp only []
    split <;> rfl
  refine ⟨hv, ?_, ?_, ?_, by decide, by decide⟩
  · intro hrn hgn hbn
    rw [hv]
    obtain ⟨x1, x2, x3⟩ := stdMax_spec r g hrn hgn
    have hm1n : ¬ isNaN (stdMax r g) := by rcases x1 with h | h <;> rw [h] <;> assumption
    obtain ⟨x4, x5, x6⟩ := stdMax_spec (stdMax r g) b hm1n hbn
    have hmxn : ¬ isNaN (stdMax (stdMax r g) b) := by
      rcases x4 with h | h <;> rw [h] <;> assumption
    refine ⟨?_, ⟨hrn, hmxn, by omega⟩, ⟨hgn, hmxn, by omega⟩, ⟨hbn, hmxn, x6⟩⟩
    rcases x4 with h | h
    · rcases x1 with h' | h'
      · left; rw [h, h']
      · right; left; rw [h, h']
    · right; right; exact h
  · intro hz
    unfold rgb_to_hsv
    simp only [if_neg (not_not.mpr hz), and_self]
  · intro c hf
    have hd : fsub c c = 0x00000000 := fsub_self_of_isFinite c hf
    have hcn := not_isNaN_of_isFinite c hf
    have e0 : floatEq 0x00000000 0x00000000 := by decide
    have e2 : fmul 0x00000000 0x42700000 = 0x00000000 := by decide
    have hz0 : ¬ floatLt 0x00000000 0x00000000 := by decide
    unfold rgb_to_hsv
    simp only [stdMax_self, stdMin_self, hd]
    by_cases hz : floatEq c 0x00000000
    · rw [if_neg (not_not.mpr hz)]
      exact ⟨rfl, e0, rfl⟩
    · rw [if_pos hz]
      simp only [if_pos e0, e2, if_neg hz0]
      refine ⟨trivial, ?_, trivial⟩
      -- the saturation is zero divided by a finite float that is not zero
      have hmc : floatMagnitude c ≠ 0 := by
        intro h0
        apply hz
        refine ⟨hcn, by decide, ?_⟩
        rw [show floatScaled 0x00000000 = 0 by decide]
        rcases floatScaled_cases c with ⟨-, h⟩ | ⟨-, h⟩ <;> rw [h, h0] <;> simp
      have c1 : ¬ (isNaN 0x00000000 ∨ isNaN c) := by
        rintro (h | h)
        · exact absurd h (by decide)
        · exact hcn h
      have c2 : ¬ ((isInf 0x00000000 ∧ isInf c) ∨
          (floatMagnitude 0x00000000 = 0 ∧ floatMagnitude c = 0)) := by
        rintro (h | h)
        · exact not_isInf_of_isFinite c hf h.2
        · exact hmc h.2
      have c3 : ¬ (isInf 0x00000000 ∨ floatMagnitude c = 0) := by
        rintro (h | h)
        · exact absurd h (by decide)
        · exact hmc h
      unfold fdiv
      rw [if_neg c1, if_neg c2, if_neg c3, if_neg (not_isInf_of_isFinite c hf)]
      unfold roundSigned
      rw [show floatMagnitude 0x00000000 = 0 by decide, Nat.zero_mul, roundMag_zero,
        Nat.add_zero]
      rcases signXor_le_one 0x00000000 c with h | h <;> rw [h] <;> decide

theorem rgb_to_hsv_degenerate_witness :
    ((rgb_to_hsv 0xbf800000 0x00000000 0xc0000000).2.1 = 0x00000000 ∧
      (rgb_to_hsv 0xbf800000 0x00000000 0xc0000000).1 = 0x00000000) ∧
    ((rgb_to_hsv 0xbe800000 0xbe800000 0xbe800000).1 = 0x00000000 ∧
      floatEq (rgb_to_hsv 0xbe800000 0xbe800000 0xbe800000).2.1 0x00000000 ∧
      (rgb_to_hsv 0xbe800000 0xbe800000 0xbe800000).2.2 = 0xbe800000) :=
  ⟨(rgb_to_hsv_degenerate 0xbf800000 0x00000000 0xc0000000).2.2.1 (by decide),
    (rgb_to_hsv_degenerate 0 0 0).2.2.2.1 0xbe800000 (by decide)⟩

/-- The maximum and the minimum that `rgb_to_hsv` computes from three floats of
`[0, 1]`. -/
theorem channel_bounds (r g b : Nat)
    (hr0 : floatLe 0x00000000 r) (hr1 : floatLe r 0x3f800000)
    (hg0 : floatLe 0x00000000 g) (hg1 : floatLe g 0x3f800000)
    (hb0 : floatLe 0x00000000 b) (hb1 : floatLe b 0x3f800000) :
    (¬ isNaN (stdMax (stdMax r g) b) ∧ ¬ isNaN (stdMin (stdMin r g) b)) ∧
    (0 ≤ floatScaled (stdMin (stdMin r g) b) ∧
      floatScaled (stdMax (stdMax r g) b) ≤ 713623846352979940529142984724747568191373312) ∧
    (floatScaled (stdMin (stdMin r g) b) ≤ floatScaled r ∧
      floatScaled r ≤ floatScaled (stdMax (stdMax r g) b)) ∧
    (floatScaled (stdMin (stdMin r g) b) ≤ floatScaled g ∧
      floatScaled g ≤ floatScaled (stdMax (stdMax r g) b)) ∧
    (floatScaled (stdMin (stdMin r g) b) ≤ floatScaled b ∧
      floatScaled b ≤ floatScaled (stdMax (stdMax r g) b)) := by
  obtain ⟨c0, c1, -⟩ := floatScaled_constants
  have hrn := hr1.1
  have hgn := hg1.1
  have hbn := hb1.1
  have r0 := hr0.2.2
  have r1 := hr1.2.2
  have g0 := hg0.2.2
  have g1 := hg1.2.2
  have b0 := hb0.2.2
  have b1 := hb1.2.2
  rw [c0] at r0 g0 b0
  rw [c1] at r1 g1 b1
  obtain ⟨x1, x2, x3⟩ := stdMax_spec r g hrn hgn
  have hm1n : ¬ isNaN (stdMax r g) := by rcases x1 with h | h <;> rw [h] <;> assumption
  obtain ⟨x4, x5, x6⟩ := stdMax_spec (stdMax r g) b hm1n hbn
  obtain ⟨y1, y2, y3⟩ := stdMin_spec r g hrn hgn
  have hn1n : ¬ isNaN (stdMin r g) := by rcases y1 with h | h <;> rw [h] <;> assumption
  obtain ⟨y4, y5, y6⟩ := stdMin_spec (stdMin r g) b hn1n hbn
  have hmxn : ¬ isNaN (stdMax (stdMax r g) b) := by
    rcases x4 with h | h <;> rw [h] <;> assumption
  have hmnn : ¬ isNaN (stdMin (stdMin r g) b) := by
    rcases y4 with h | h <;> rw [h] <;> assumption
  have hmx1 : floatScaled (stdMax (stdMax r g) b)
      ≤ 713623846352979940529142984724747568191373312 := by
    rcases x4 with h | h
    · rw [h]
      rcases x1 with h' | h' <;> rw [h'] <;> assumption
    · rw [h]; exact b1
  have hmn0 : 0 ≤ floatScaled (stdMin (stdMin r g) b) := by
    rcases y4 with h | h
    · rw [h]
      rcases y1 with h' | h' <;> rw [h'] <;> assumption
    · rw [h]; exact b0
  exact ⟨⟨hmxn, hmnn⟩, ⟨hmn0, hmx1⟩, ⟨by omega, by omega⟩, ⟨by omega, by omega⟩,
    ⟨by omega, by omega⟩⟩

/-- C16, amended: for every `r`, `g`, `b` in `[0,1]`, `rgb_to_hsv` returns a hue
`h` with `0 <= h <= 360`, a saturation `s` with `0 <= s <= 1` and a value `v`
with `0 <= v <= 1` (binary32 arithmetic, round to nearest even). -/
theorem rgb_to_hsv_ranges (r g b : Nat)
    (hr0 : floatLe 0x00000000 r) (hr1 : floatLe r 0x3f800000)
    (hg0 : floatLe 0x00000000 g) (hg1 : floatLe g 0x3f800000)
    (hb0 : floatLe 0x00000000 b) (hb1 : floatLe b 0x3f800000) :
    (floatLe 0x00000000 (rgb_to_hsv r g b).1 ∧ floatLe (rgb_to_hsv r g b).1 0x43b40000) ∧
    (floatLe 0x00000000 (rgb_to_hsv r g b).2.1 ∧ floatLe (rgb_to_hsv r g b).2.1 0x3f800000) ∧
    (floatLe 0x00000000 (rgb_to_hsv r g b).2.2 ∧ floatLe (rgb_to_hsv r g b).2.2 0x3f800000) := by
  obtain ⟨c0, c1, -⟩ := floatScaled_constants
  obtain ⟨⟨hmxn, hmnn⟩, ⟨hmn0, hmx1⟩, ⟨hr2, hr3⟩, ⟨hg2, hg3⟩, ⟨hb2, hb3⟩⟩ :=
    channel_bounds r g b hr0 hr1 hg0 hg1 hb0 hb1
  have hrn := hr1.1
  have hgn := hg1.1
  have hbn := hb1.1
  have hz : ¬ isNaN 0x00000000 := by decide
  have h1n : ¬ isNaN 0x3f800000 := by decide
  obtain ⟨mx, hmx⟩ : ∃ mx, mx = stdMax (stdMax r g) b := ⟨_, rfl⟩
  obtain ⟨mn, hmn⟩ : ∃ mn, mn = stdMin (stdMin r g) b := ⟨_, rfl⟩
  rw [← hmx] at hmxn hmx1 hr3 hg3 hb3
  rw [← hmn] at hmnn hmn0 hr2 hg2 hb2
  have hmxf : isFinite mx := isFinite_of_range mx hmxn (by omega) (by omega)
  have hmnf : isFinite mn := isFinite_of_range mn hmnn (by omega) (by omega)
  have hrf : isFinite r := isFinite_of_range r hrn (by omega) (by omega)
  have hgf : isFinite g := isFinite_of_range g hgn (by omega) (by omega)
  have hbf : isFinite b := isFinite_of_range b hbn (by omega) (by omega)
  have hv : floatLe 0x00000000 mx ∧ floatLe mx 0x3f800000 :=
    ⟨⟨hz, hmxn, by rw [c0]; omega⟩, ⟨hmxn, h1n, by rw [c1]; omega⟩⟩
  unfold rgb_to_hsv
  simp only [← hmx, ← hmn]
  by_cases hzero : floatEq mx 0x00000000
  · rw [if_neg (not_not.mpr hzero)]
    exact ⟨(by decide : floatLe 0x00000000 0x00000000 ∧ floatLe 0x00000000 0x43b40000),
      (by decide : floatLe 0x00000000 0x00000000 ∧ floatLe 0x00000000 0x3f800000), hv⟩
  · rw [if_pos hzero]
    have hpos : 0 < floatScaled mx := by
      have : floatScaled mx ≠ 0 := fun h => hzero ⟨hmxn, hz, by rw [c0]; exact h⟩
      omega
    obtain ⟨hdn, hd0, hd1⟩ := delta_range mx mn hmxf hmnf hmn0 (by omega)
    have hdf : isFinite (fsub mx mn) := isFinite_of_range _ hdn (by omega) (by omega)
    have hdpos : ¬ floatEq (fsub mx mn) 0x00000000 → 0 < floatScaled (fsub mx mn) := by
      intro hne
      have : floatScaled (fsub mx mn) ≠ 0 := fun h => hne ⟨hdn, hz, by rw [c0]; exact h⟩
      omega
    refine ⟨?_, ?_, hv⟩
    · -- the hue: the sector value is a float of [-1, 5]
      have hH : ∀ H, H = (if floatEq (fsub mx mn) 0x00000000 then 0x00000000
            else if floatEq r mx then fdiv (fsub g b) (fsub mx mn)
            else if floatEq g mx then fadd 0x40000000 (fdiv (fsub b r) (fsub mx mn))
            else fadd 0x40800000 (fdiv (fsub r g) (fsub mx mn))) →
          ¬ isNaN H ∧ -713623846352979940529142984724747568191373312 ≤ floatScaled H ∧
            floatScaled H ≤ 3568119231764899702645714923623737840956866560 := by
        intro H hH
        rw [hH]
        split_ifs with k1 k2 k3
        · exact ⟨hz, by rw [c0]; omega, by rw [c0]; omega⟩
        · obtain ⟨q1, q2, q3⟩ := sector_quotient mx mn g b hmxf hmnf hgf hbf hmn0 hmx1
            hg2 hg3 hb2 hb3 (hdpos k1)
          exact ⟨q1, q2, by omega⟩
        · obtain ⟨q1, q2, q3⟩ := sector_quotient mx mn b r hmxf hmnf hbf hrf hmn0 hmx1
            hb2 hb3 hr2 hr3 (hdpos k1)
          obtain ⟨o1, o2, o3⟩ := offset_range 0x40000000 _ (Or.inl rfl) q1 q2 q3
          exact ⟨o1, by omega, o3⟩
        · obtain ⟨q1, q2, q3⟩ := sector_quotient mx mn r g hmxf hmnf hrf hgf hmn0 hmx1
            hr2 hr3 hg2 hg3 (hdpos k1)
          obtain ⟨o1, o2, o3⟩ := offset_range 0x40800000 _ (Or.inr rfl) q1 q2 q3
          exact ⟨o1, by omega, o3⟩
      obtain ⟨k1, k2, k3⟩ := hH _ rfl
      exact hue_range _ k1 k2 k3
    · -- the saturation
      obtain ⟨hsv, hsn, -⟩ := fdiv_value (fsub mx mn) mx hdf hmxf hpos
      have hq : 0 < (floatScaled mx).toNat := by omega
      have hcast : (((floatScaled mx).toNat : Nat) : Int) = floatScaled mx :=
        Int.toNat_of_nonneg (le_of_lt hpos)
      have hs0 : 0 ≤ floatScaled (fdiv (fsub mx mn) mx) := by
        rw [hsv]
        have := float_le_roundValue (floatScaled (fsub mx mn) * 2 ^ 149) _ hq 0x00000000
          (by decide) (by rw [c0, two_pow_149]; omega)
        rwa [c0] at this
      have hs1 : floatScaled (fdiv (fsub mx mn) mx)
          ≤ 713623846352979940529142984724747568191373312 := by
        rw [hsv]
        have := roundValue_le_float (floatScaled (fsub mx mn) * 2 ^ 149) _ hq 0x3f800000
          (by decide) (by rw [c1, hcast, two_pow_149]; omega)
        rwa [c1] at this
      exact ⟨⟨hz, hsn, by rw [c0]; exact hs0⟩, ⟨hsn, h1n, by rw [c1]; exact hs1⟩⟩

theorem rgb_to_hsv_ranges_witness :
    (floatLe 0x00000000 (rgb_to_hsv 0x3f800000 0 0x0d800000).1 ∧
      floatLe (rgb_to_hsv 0x3f800000 0 0x0d800000).1 0x43b40000) ∧
    (floatLe 0x00000000 (rgb_to_hsv 0x3f800000 0 0x0d800000).2.1 ∧
      floatLe (rgb_to_hsv 0x3f800000 0 0x0d800000).2.1 0x3f800000) ∧
    (floatLe 0x00000000 (rgb_to_hsv 0x3f800000 0 0x0d800000).2.2 ∧
      floatLe (rgb_to_hsv 0x3f800000 0 0x0d800000).2.2 0x3f800000) :=
  rgb_to_hsv_ranges 0x3f800000 0 0x0d800000 (by decide) (by decide) (by decide) (by decide)
    (by decide) (by decide)

set_option maxRecDepth 100000 in
/-- C16, as stated, fails: for `r = 1`, `g = 0`, `b = 2^-100` (patterns
`0x3f800000`, `0x00000000`, `0x0d800000`), all three in `[0,1]`, `rgb_to_hsv`
returns the hue 360 exactly (pattern `0x43b40000`): `-60 * 2^-100 + 360`
rounds to 360. -/
theorem rgb_to_hsv_hue_reaches_360 :
    (floatLe 0x00000000 0x3f800000 ∧ floatLe 0x3f800000 0x3f800000) ∧
    (floatLe 0x00000000 0x00000000 ∧ floatLe 0x00000000 0x3f800000) ∧
    (floatLe 0x00000000 0x0d800000 ∧ floatLe 0x0d800000 0x3f800000) ∧
    rgb_to_hsv 0x3f800000 0x00000000 0x0d800000 = (0x43b40000, 0x3f800000, 0x3f800000) ∧
    ¬ floatLt 0x43b40000 0x43b40000 := by
  decide

set_option maxRecDepth 100000 in
/-- C20, as stated, fails in the arithmetic of the code.  With `k = 3`
(pattern `0x40400000`) and `r = 55657/2^19`, `g = 25643/2^26`,
`b = 237625/2^40` (patterns `0x3dd96900`, `0x39c85600`, `0x34680e40`) the
three products `k*r`, `k*g`, `k*b` are exact, and yet hue and saturation
change: `(0x3e5d06ed, 0x3f7fffde)` before, `(0x3e5d06ef, 0x3f7fffdd)` after.
With `k = 0.5` (pattern `0x3f000000`) and the denormals `r = 3 * 2^-149`,
`g = 2^-149`, `b = 0` the products round, and the hue goes from 20 to 0.  With
`k = 0.5` and `r = FLT_MAX`, `g = 0`, `b = -FLT_MAX` the products are exact but
`max - min` overflows before the scaling only: the saturation goes from
infinity to 2 and the hue from 0 to 30. -/
theorem rgb_to_hsv_scaling_fails :
    (exactProduct 0x40400000 0x3dd96900 ∧ exactProduct 0x40400000 0x39c85600 ∧
      exactProduct 0x40400000 0x34680e40 ∧
      rgb_to_hsv 0x3dd96900 0x39c85600 0x34680e40 = (0x3e5d06ed, 0x3f7fffde, 0x3dd96900) ∧
      rgb_to_hsv (fmul 0x40400000 0x3dd96900) (fmul 0x40400000 0x39c85600)
          (fmul 0x40400000 0x34680e40)
        = (0x3e5d06ef, 0x3f7fffdd, 0x3ea30ec0)) ∧
    (isPowerOfTwo 0x3f000000 ∧ ¬ exactProduct 0x3f000000 0x00000003 ∧
      rgb_to_hsv 0x00000003 0x00000001 0x00000000 = (0x41a00000, 0x3f800000, 0x00000003) ∧
      rgb_to_hsv (fmul 0x3f000000 0x00000003) (fmul 0x3f000000 0x00000001)
          (fmul 0x3f000000 0x00000000)
        = (0x00000000, 0x3f800000, 0x00000002)) ∧
    (exactProduct 0x3f000000 0x7f7fffff ∧ exactProduct 0x3f000000 0x00000000 ∧
      exactProduct 0x3f000000 0xff7fffff ∧
      rgb_to_hsv 0x7f7fffff 0x00000000 0xff7fffff = (0x00000000, 0x7f800000, 0x7f7fffff) ∧
      rgb_to_hsv (fmul 0x3f000000 0x7f7fffff) (fmul 0x3f000000 0x00000000)
          (fmul 0x3f000000 0xff7fffff)
        = (0x41f00000, 0x40000000, 0x7effffff)) := by
  decide

/-- C20 (amended): in the binary32 arithmetic of the code, `rgb_to_hsv` is
invariant in hue and saturation under scaling by a power of two that is exact.
For every finite `r`, `g`, `b` and every positive normal power of two `k`, if
the three float products `k*r`, `k*g`, `k*b` are finite and exact and the
float difference `max - min` is finite both for the triple and for the scaled
triple, then `rgb_to_hsv(k*r, k*g, k*b) = (h, s, k*v)` for
`(h, s, v) = rgb_to_hsv(r, g, b)`, bit for bit. -/
theorem rgb_to_hsv_power_of_two_scaling (k r g b : Nat) (hk : isPowerOfTwo k)
    (hr : isFinite r) (hg : isFinite g) (hb : isFinite b)
    (hkr : exactProduct k r) (hkg : exactProduct k g) (hkb : exactProduct k b)
    (hd : isFinite (fsub (stdMax (stdMax r g) b) (stdMin (stdMin r g) b)))
    (hd' : isFinite (fsub (stdMax (stdMax (fmul k r) (fmul k g)) (fmul k b))
      (stdMin (stdMin (fmul k r) (fmul k g)) (fmul k b)))) :
    rgb_to_hsv (fmul k r) (fmul k g) (fmul k b)
      = ((rgb_to_hsv r g b).1, (rgb_to_hsv r g b).2.1, fmul k (rgb_to_hsv r g b).2.2) := by
  obtain ⟨ur, dr⟩ := scaledBy_of_exactProduct k r hk hr hkr
  obtain ⟨ug, dg⟩ := scaledBy_of_exactProduct k g hk hg hkg
  obtain ⟨ub, db⟩ := scaledBy_of_exactProduct k b hk hb hkb
  have key : ((rgb_to_hsv (fmul k r) (fmul k g) (fmul k b)).1 = (rgb_to_hsv r g b).1 ∧
      (rgb_to_hsv (fmul k r) (fmul k g) (fmul k b)).2.1 = (rgb_to_hsv r g b).2.1) ∧
      (floatLt (fmul k r) (fmul k g) ↔ floatLt r g) ∧
      (floatLt (fmul k r) (fmul k b) ↔ floatLt r b) ∧
      (floatLt (fmul k g) (fmul k b) ↔ floatLt g b) := by
    by_cases he : 127 ≤ expField k
    · exact ⟨rgb_to_hsv_scaledBy _ r g b _ _ _ (ur he) (ug he) (ub he) hd',
        scaledBy_floatLt _ _ _ _ _ (ur he) (ug he),
        scaledBy_floatLt _ _ _ _ _ (ur he) (ub he),
        scaledBy_floatLt _ _ _ _ _ (ug he) (ub he)⟩
    · have he' : expField k ≤ 127 := by omega
      obtain ⟨h1, h2⟩ := rgb_to_hsv_scaledBy _ _ _ _ r g b (dr he') (dg he') (db he') hd
      exact ⟨⟨h1.symm, h2.symm⟩,
        (scaledBy_floatLt _ _ _ _ _ (dr he') (dg he')).symm,
        (scaledBy_floatLt _ _ _ _ _ (dr he') (db he')).symm,
        (scaledBy_floatLt _ _ _ _ _ (dg he') (db he')).symm⟩
  obtain ⟨⟨h1, h2⟩, l1, l2, l3⟩ := key
  have hv : (rgb_to_hsv (fmul k r) (fmul k g) (fmul k b)).2.2
      = fmul k (rgb_to_hsv r g b).2.2 := by
    rw [rgb_to_hsv_value, rgb_to_hsv_value]
    exact stdMax_map3 (fmul k) r g b l1 l2 l3
  exact Prod.ext h1 (Prod.ext h2 hv)

set_option maxRecDepth 100000 in
theorem rgb_to_hsv_power_of_two_scaling_witness :
    (isPowerOfTwo 0x40800000 ∧ exactProduct 0x40800000 0x3f800000 ∧
      exactProduct 0x40800000 0x3f000000 ∧ exactProduct 0x40800000 0x3e800000) ∧
    rgb_to_hsv 0x3f800000 0x3f000000 0x3e800000 = (0x41a00000, 0x3f400000, 0x3f800000) ∧
    rgb_to_hsv (fmul 0x40800000 0x3f800000) (fmul 0x40800000 0x3f000000)
        (fmul 0x40800000 0x3e800000)
      = ((rgb_to_hsv 0x3f800000 0x3f000000 0x3e800000).1,
        (rgb_to_hsv 0x3f800000 0x3f000000 0x3e800000).2.1,
        fmul 0x40800000 (rgb_to_hsv 0x3f800000 0x3f000000 0x3e800000).2.2) ∧
    (isPowerOfTwo 0x3e800000 ∧ exactProduct 0x3e800000 0x3f800000 ∧
      exactProduct 0x3e800000 0x3f000000 ∧ exactProduct 0x3e800000 0x3e800000) ∧
    rgb_to_hsv (fmul 0x3e800000 0x3f800000) (fmul 0x3e800000 0x3f000000)
        (fmul 0x3e800000 0x3e800000)
      = ((rgb_to_hsv 0x3f800000 0x3f000000 0x3e800000).1,
        (rgb_to_hsv 0x3f800000 0x3f000000 0x3e800000).2.1,
        fmul 0x3e800000 (rgb_to_hsv 0x3f800000 0x3f000000 0x3e800000).2.2) :=
  ⟨by decide, by decide,
    rgb_to_hsv_power_of_two_scaling 0x40800000 0x3f800000 0x3f000000 0x3e800000
      (by decide) (by decide) (by decide) (by decide) (by decide) (by decide) (by decide)
      (by decide) (by decide),
    by decide,
    rgb_to_hsv_power_of_two_scaling 0x3e800000 0x3f800000 0x3f000000 0x3e800000
      (by decide) (by decide) (by decide) (by decide) (by decide) (by decide) (by decide)
      (by decide) (by decide)⟩

/-! ## The claim on the element conversions -/

/-- C17 (on the definitions modelled from the spec): `floatToInt<256>(0.0)` is
0, `floatToInt<256>(1.0)` is 255, `intToFloat<256>(255)` is `255/256`, which
is 0.99609375 and not 1, and `intToFloat<N>(c)` is `c/N` for `N = 256` and
`N = 65536`. -/
theorem scale_by_N_convention :
    floatToInt 256 0 = 0 ∧ floatToInt 256 1 = 255 ∧
    intToFloat 256 255 = 255 / 256 ∧ intToFloat 256 255 = 0.99609375 ∧
    intToFloat 256 255 ≠ 1 ∧
    (∀ c : Int, intToFloat 256 c = c / 256 ∧ intToFloat 65536 c = c / 65536) := by
  refine ⟨?_, ?_, ?_, ?_, ?_, ?_⟩
  · have h : ⌊(0 : ℚ) * ((256 : Nat) : ℚ) + 1 / 2⌋ = 0 := by
      rw [Int.floor_eq_iff]; norm_num
    unfold floatToInt
    rw [h]
    decide
  · have h : ⌊(1 : ℚ) * ((256 : Nat) : ℚ) + 1 / 2⌋ = 256 := by
      rw [Int.floor_eq_iff]; norm_num
    unfold floatToInt
    rw [h]
    decide
  · unfold intToFloat; norm_num
  · unfold intToFloat; norm_num
  · unfold intToFloat; norm_num
  · intro c
    unfold intToFloat
    constructor <;> norm_num

end OFX.Color
